import Mathlib

/-!
The ghw snapshot subsystem: a verification development.

Shallow embedding of `pkg/snapshot` (`pack.go`, `clonetree.go`, `clonetree_pci.go`).

* Strings and paths follow Go's `strings` and `path/filepath` packages on Unix.
* The host pseudo-filesystem is read through the record `Host`, one field per
  system call the code issues (`os.Lstat`, `ioutil.ReadDir`, `os.Readlink`,
  `ioutil.ReadFile`, `filepath.Glob`); a field returns `none` when the call fails.
* The scratch tree the cloner writes is an explicit state, `Mirror`. A call
  whose path runs through a symlink of the scratch tree is followed by the
  operating system to wherever the link points; such a call ends the modelled
  part of a run (`Step.beyond`), and statements about the outcome of a run are
  about runs that return without one.
* The tree `filepath.Walk` traverses is an inductive `Node`; the tar writer is
  the record `TarWriter` holding the entries written so far. File content and
  payload are sequences of bytes.
-/

namespace Snapshot

/-! ## Go `strings` -/

/-- Remainder of `s` behind the leading `p`, when `s` starts with `p`. -/
def stripLeading : List Char → List Char → Option (List Char)
  | s, [] => some s
  | [], _ :: _ => none
  | c :: s, d :: p => if c = d then stripLeading s p else none

/-- Go `strings.HasPrefix`. -/
def hasPrefix (s p : String) : Bool :=
  (stripLeading s.data p.data).isSome

/-- Go `strings.TrimPrefix`: `s` without the leading `p`, or `s` itself when
`s` does not start with `p`. -/
def trimPrefix (s p : String) : String :=
  match stripLeading s.data p.data with
  | some r => ⟨r⟩
  | none => s

/-- Go `unicode.IsSpace`. -/
def isSpace (c : Char) : Bool :=
  c = ' ' || c = '\t' || c = '\n' || c = '\r' || c.toNat = 0x0b || c.toNat = 0x0c
    || c.toNat = 0x85 || c.toNat = 0xa0 || c.toNat = 0x1680
    || (0x2000 ≤ c.toNat && c.toNat ≤ 0x200a)
    || c.toNat = 0x2028 || c.toNat = 0x2029 || c.toNat = 0x202f
    || c.toNat = 0x205f || c.toNat = 0x3000

/-- Go `strings.TrimSpace`. -/
def trimSpace (s : String) : String :=
  ⟨((s.data.dropWhile isSpace).reverse.dropWhile isSpace).reverse⟩

/-! ## Go `path/filepath` (Unix) -/

/-- Pieces of a path between its separators, as `strings.Split(p, "/")`. -/
def splitSep : List Char → List (List Char)
  | [] => [[]]
  | c :: cs =>
    if c = '/' then [] :: splitSep cs
    else
      match splitSep cs with
      | [] => [[c]]
      | x :: xs => (c :: x) :: xs

/-- Pieces joined by single separators. -/
def joinSep : List (List Char) → List Char
  | [] => []
  | [x] => x
  | x :: y :: r => x ++ '/' :: joinSep (y :: r)

/-- One step of `filepath.Clean` over the stack of kept elements (top first):
empty and `.` elements are dropped, `..` removes the element before it, is
dropped at the root, and is kept at the start of a relative path. -/
def cleanStep (rooted : Bool) (stack : List (List Char)) (comp : List Char) :
    List (List Char) :=
  if comp = [] ∨ comp = ['.'] then stack
  else if comp = ['.', '.'] then
    match stack with
    | [] => if rooted then [] else [comp]
    | top :: rest => if top = ['.', '.'] then comp :: stack else rest
  else comp :: stack

/-- Elements that `filepath.Clean` keeps, in path order. -/
def cleanComps (p : List Char) : List (List Char) :=
  ((splitSep p).foldl (cleanStep (p.head? = some '/')) []).reverse

/-- Go `filepath.Clean` on the characters of a path. -/
def cleanChars (p : List Char) : List Char :=
  if p.head? = some '/' then '/' :: joinSep (cleanComps p)
  else if cleanComps p = [] then ['.']
  else joinSep (cleanComps p)

/-- Go `filepath.Clean`. -/
def clean (p : String) : String := ⟨cleanChars p.data⟩

/-- Go `filepath.Join`: the elements from the first non-empty one on are joined
with the separator and the result is cleaned; all empty gives the empty string. -/
def join : List String → String
  | [] => ""
  | e :: es =>
    if e = "" then join es
    else ⟨cleanChars (joinSep ((e :: es).map String.data))⟩

/-- Go `filepath.Dir`: the path up to its last separator, cleaned. -/
def dir (p : String) : String :=
  ⟨cleanChars (p.data.reverse.dropWhile (fun c => c ≠ '/')).reverse⟩

/-- Go `filepath.Base`: the last element of the path. -/
def base (p : String) : String :=
  if p = "" then "."
  else
    let last := ((p.data.reverse.dropWhile (fun c => c = '/')).takeWhile
      (fun c => c ≠ '/')).reverse
    if last = [] then "/" else ⟨last⟩

/-! ## The host filesystem, as the code reads it -/

/-- File type bits of an `os.FileMode`. -/
inductive FileKind where
  | regular
  | directory
  | symlink
  | other
  deriving DecidableEq, Repr

/-- The part of an `os.FileInfo` the code looks at. -/
structure FileInfo where
  kind : FileKind
  size : Nat
  deriving DecidableEq, Repr

/-- The host as seen through the calls the snapshot code issues. Each field
stands for one system or library call and gives `none` when that call fails. -/
structure Host where
  /-- Result of `os.Lstat`. -/
  lstat : String → Option FileInfo
  /-- Names listed by `ioutil.ReadDir`, in listing order. -/
  readDir : String → Option (List String)
  /-- Result of `os.Readlink`. -/
  readlink : String → Option String
  /-- Result of `ioutil.ReadFile`. -/
  readFile : String → Option String
  /-- Result of `filepath.Glob`; `none` is a malformed pattern. -/
  glob : String → Option (List String)

/-! ## The scratch tree, as the code writes it -/

/-- An entry of the scratch tree. -/
inductive SNode where
  | dir
  | file (content : String)
  | symlink (target : String)
  deriving DecidableEq, Repr

/-- Entries of the scratch tree by path. The code addresses the scratch tree
only through results of `filepath.Join`, so keys are cleaned paths. An entry
stands at the path it was created under: the model covers the calls whose
path runs through directories of the tree only (see `Step.beyond`). -/
abbrev Tree := String → Option SNode

/-- The tree `t` with `node` at path `p`. -/
def Tree.set (t : Tree) (p : String) (node : SNode) : Tree :=
  fun q => if q = p then some node else t q

/-- The tree with nothing in it. -/
def Tree.empty : Tree := fun _ => none

/-- The leading parts of a path that end right before a separator, followed by
the path itself: the directories `os.MkdirAll` walks through, outermost first
(the root directory itself is never created). -/
def pathPrefixesFrom : List Char → List Char → List String
  | pre, [] => [⟨pre⟩]
  | pre, c :: cs =>
    if c = '/' ∧ pre ≠ [] then ⟨pre⟩ :: pathPrefixesFrom (pre ++ [c]) cs
    else pathPrefixesFrom (pre ++ [c]) cs

/-- Directories `os.MkdirAll p` has to find or make. -/
def pathPrefixes (p : String) : List String := pathPrefixesFrom [] p.data

/-- Outcome of a call that changes the scratch tree.
* `done t`: the call returned nil and left the tree `t`.
* `failed`: the call returned an error and changed nothing.
* `beyond`: the path of the call runs through a symlink of the scratch tree.
  The operating system follows such a link to wherever its target points,
  inside or outside the scratch tree; what the call does there is not
  modelled, and a run that meets this case is outside the model from then
  on. -/
inductive Step where
  | done (t : Tree)
  | failed
  | beyond

/-- One directory of `os.MkdirAll`: made when missing, accepted when it is a
directory, `ENOTDIR` when the path holds a file; a symlink there is followed
by `os.Stat`. -/
def mkdirStep (t : Tree) (q : String) : Step :=
  match t q with
  | none => Step.done (t.set q SNode.dir)
  | some SNode.dir => Step.done t
  | some (SNode.file _) => Step.failed
  | some (SNode.symlink _) => Step.beyond

/-- The directories of `os.MkdirAll`, outermost first. -/
def mkdirAllFrom : List String → Tree → Step
  | [], t => Step.done t
  | q :: rest, t =>
    match mkdirStep t q with
    | Step.done t1 => mkdirAllFrom rest t1
    | Step.failed => Step.failed
    | Step.beyond => Step.beyond

/-- Model of `os.MkdirAll`. It fails on the empty path and when a path on the
way holds a file; a failing call creates nothing. -/
def mkdirAll (p : String) (t : Tree) : Step :=
  if p = "" then Step.failed else mkdirAllFrom (pathPrefixes p) t

/-- The directory holding `p` exists: it is the root, the working directory,
or a directory of the tree. -/
def parentOk (t : Tree) (p : String) : Bool :=
  dir p = "/" || dir p = "." || t (dir p) = some SNode.dir

/-- The path `q` holds a symlink of the tree. -/
def holdsLink (t : Tree) (q : String) : Bool :=
  match t q with
  | some (SNode.symlink _) => true
  | _ => false

/-- The outcome of a call on `p` when the directory holding `p` is not a
directory of the tree: the system follows a symlink found in its place or on
the way there, and the call fails when the way holds no symlink (the place
is empty or holds a file). -/
def parentMissing (t : Tree) (p : String) : Step :=
  if (pathPrefixes (dir p)).any (holdsLink t) = true then Step.beyond else Step.failed

/-- Model of `os.Symlink target p`: fails with `EEXIST` when `p` holds
anything, a symlink included, and fails when the target is empty or when the
directory holding `p` is missing. -/
def symlink (target p : String) (t : Tree) : Step :=
  if p = "" ∨ target = "" then Step.failed
  else if parentOk t p = false then parentMissing t p
  else
    match t p with
    | none => Step.done (t.set p (SNode.symlink target))
    | some _ => Step.failed

/-- Model of `os.Create p` followed by `Write buf` and `Close`: the file is
created or truncated and then holds `buf`. It fails when the directory holding
`p` is missing and when `p` is a directory; when `p` holds a symlink the
system opens what the link points to. -/
def writeFile (p buf : String) (t : Tree) : Step :=
  if p = "" then Step.failed
  else if parentOk t p = false then parentMissing t p
  else
    match t p with
    | none => Step.done (t.set p (SNode.file buf))
    | some (SNode.file _) => Step.done (t.set p (SNode.file buf))
    | some SNode.dir => Step.failed
    | some (SNode.symlink _) => Step.beyond

/-- State of a clone operation: the scratch tree and the patterns handed to
`filepath.Glob` so far, oldest first (what `trace("copying spec")` reports). -/
structure Mirror where
  tree : Tree
  globbed : List String

/-- Outcome of an operation on the scratch tree: whether it returned a nil
error (`ok`) or an error (`fail`), with the state it leaves; `beyond` when a
call of the operation went through a symlink of the scratch tree, with the
state right before that call. -/
inductive Result where
  | ok (m : Mirror)
  | fail (m : Mirror)
  | beyond (m : Mirror)

/-- The state an operation leaves. -/
def Result.mirror : Result → Mirror
  | Result.ok m => m
  | Result.fail m => m
  | Result.beyond m => m

/-- The operation returned a nil error. -/
def Result.isOk : Result → Bool
  | Result.ok _ => true
  | Result.fail _ => false
  | Result.beyond _ => false

/-- The operation returned an error. -/
def Result.isFail : Result → Bool
  | Result.ok _ => false
  | Result.fail _ => true
  | Result.beyond _ => false

/-- Run a tree primitive in state `m`; a failing primitive leaves the state. -/
def Mirror.run (m : Mirror) (op : Tree → Step) : Result :=
  match op m.tree with
  | Step.done t => Result.ok { m with tree := t }
  | Step.failed => Result.fail m
  | Step.beyond => Result.beyond m

/-- Go's `if err != nil { return err }`: when `r` is a failure it is the
result, otherwise `k` goes on from the state `r` left. -/
def Result.andThen (r : Result) (k : Mirror → Result) : Result :=
  match r with
  | Result.ok m => k m
  | Result.fail m => Result.fail m
  | Result.beyond m => Result.beyond m

/-! ## clonetree.go -/

/-- Go `copyPseudoFile`: read the whole source, then create the target and
write the buffer. -/
def copyPseudoFile (h : Host) (path targetPath : String) (m : Mirror) : Result :=
  match h.readFile path with
  | none => Result.fail m
  | some buf => m.run (writeFile targetPath buf)

/-- Paths of `createPseudofiles`. -/
def createPseudofilePaths : List String :=
  ["/proc/cpuinfo", "/proc/meminfo", "/etc/mtab"]

/-- Loop of `createPseudofiles`. -/
def createPseudofilesLoop (h : Host) (buildDir : String) :
    List String → Mirror → Result
  | [], m => Result.ok m
  | path :: rest, m =>
    (copyPseudoFile h path (join [buildDir, path]) m).andThen
      (createPseudofilesLoop h buildDir rest)

/-- Go `createPseudofiles`. -/
def createPseudofiles (h : Host) (buildDir : String) (m : Mirror) : Result :=
  createPseudofilesLoop h buildDir createPseudofilePaths m

/-- Loop of `createPartitionDir` over the listed names: symlinks and
directories are skipped, regular files are copied. The code copies in line
(`ReadFile`, `Create`, `Write`, `Close`), the very steps of `copyPseudoFile`. -/
def createPartitionDirLoop (h : Host) (buildPartitionDir srcPartitionDir : String) :
    List String → Mirror → Result
  | [], m => Result.ok m
  | fname :: rest, m =>
    match h.lstat (join [srcPartitionDir, fname]) with
    | none => Result.fail m
    | some fi =>
      if fi.kind = FileKind.symlink then
        createPartitionDirLoop h buildPartitionDir srcPartitionDir rest m
      else if fi.kind = FileKind.directory then
        createPartitionDirLoop h buildPartitionDir srcPartitionDir rest m
      else if fi.kind = FileKind.regular then
        (copyPseudoFile h (join [srcPartitionDir, fname])
            (join [buildPartitionDir, fname]) m).andThen
          (createPartitionDirLoop h buildPartitionDir srcPartitionDir rest)
      else createPartitionDirLoop h buildPartitionDir srcPartitionDir rest m

/-- Go `createPartitionDir`. -/
def createPartitionDir (h : Host) (buildPartitionDir srcPartitionDir : String)
    (m : Mirror) : Result :=
  match h.readDir srcPartitionDir with
  | none => Result.fail m
  | some partFiles =>
    createPartitionDirLoop h buildPartitionDir srcPartitionDir partFiles m

/-- Loop of `createBlockDeviceDir` over the listed names: symlinks are
skipped, directories named after the device are mirrored as partitions,
regular files are copied, in line, by the steps of `copyPseudoFile`. -/
def createBlockDeviceDirLoop (h : Host) (buildDeviceDir srcDeviceDir : String) :
    List String → Mirror → Result
  | [], m => Result.ok m
  | fname :: rest, m =>
    match h.lstat (join [srcDeviceDir, fname]) with
    | none => Result.fail m
    | some fi =>
      if fi.kind = FileKind.symlink then
        createBlockDeviceDirLoop h buildDeviceDir srcDeviceDir rest m
      else if fi.kind = FileKind.directory then
        if hasPrefix fname (base srcDeviceDir) then
          ((m.run (mkdirAll (join [buildDeviceDir, fname]))).andThen
            (createPartitionDir h (join [buildDeviceDir, fname])
              (join [srcDeviceDir, fname]))).andThen
            (createBlockDeviceDirLoop h buildDeviceDir srcDeviceDir rest)
        else createBlockDeviceDirLoop h buildDeviceDir srcDeviceDir rest m
      else if fi.kind = FileKind.regular then
        (copyPseudoFile h (join [srcDeviceDir, fname])
            (join [buildDeviceDir, fname]) m).andThen
          (createBlockDeviceDirLoop h buildDeviceDir srcDeviceDir rest)
      else createBlockDeviceDirLoop h buildDeviceDir srcDeviceDir rest m

/-- Tail of `createBlockDeviceDir`: the `queue` directory is made, then
`queue/rotational` is read and written, by the steps of `copyPseudoFile`. -/
def createQueueRotational (h : Host) (buildDeviceDir srcDeviceDir : String)
    (m : Mirror) : Result :=
  (m.run (mkdirAll (join [buildDeviceDir, "queue"]))).andThen
    (copyPseudoFile h (join [join [srcDeviceDir, "queue"], "rotational"])
      (join [join [buildDeviceDir, "queue"], "rotational"]))

/-- Go `createBlockDeviceDir`. -/
def createBlockDeviceDir (h : Host) (buildDeviceDir srcDeviceDir : String)
    (m : Mirror) : Result :=
  match h.readDir srcDeviceDir with
  | none => Result.fail m
  | some devFiles =>
    (createBlockDeviceDirLoop h buildDeviceDir srcDeviceDir devFiles m).andThen
      (createQueueRotational h buildDeviceDir srcDeviceDir)

/-- Body of the loop of `createBlockDevices` for a device name that does not
start with `loop`. -/
def createBlockDevice (h : Host) (buildDir dname : String) (m : Mirror) : Result :=
  match h.readlink (join ["/sys/block", dname]) with
  | none => Result.fail m
  | some linkContentPath =>
    ((m.run (mkdirAll
        (join [buildDir, "sys/block", trimPrefix linkContentPath "/"]))).andThen
      (fun m1 => m1.run
        (symlink linkContentPath (join [buildDir, "sys/block", dname])))).andThen
      (createBlockDeviceDir h
        (join [buildDir, "sys/block", trimPrefix linkContentPath "/"])
        (join ["/sys/block", trimPrefix linkContentPath "/"]))

/-- Loop of `createBlockDevices` over the names listed in `/sys/block`. -/
def createBlockDevicesLoop (h : Host) (buildDir : String) :
    List String → Mirror → Result
  | [], m => Result.ok m
  | dname :: rest, m =>
    if hasPrefix dname "loop" then createBlockDevicesLoop h buildDir rest m
    else
      (createBlockDevice h buildDir dname m).andThen
        (createBlockDevicesLoop h buildDir rest)

/-- Go `createBlockDevices`. -/
def createBlockDevices (h : Host) (buildDir : String) (m : Mirror) : Result :=
  match h.readDir "/sys/block" with
  | none => Result.fail m
  | some devLinks => createBlockDevicesLoop h buildDir devLinks m

/-- Go `CopyFileOptions`. -/
structure CopyFileOptions where
  IsSymlink : String → FileInfo → Bool

/-- Go `isSymlink`. -/
def isSymlink (_path : String) (fi : FileInfo) : Bool :=
  decide (fi.kind = FileKind.symlink)

/-- Go `copyLink`. -/
def copyLink (h : Host) (path targetPath : String) (m : Mirror) : Result :=
  match h.readlink path with
  | none => Result.fail m
  | some target => m.run (symlink target targetPath)

/-- Body of the loop of `copyFileTreeInto` for one path. -/
def copyPathInto (h : Host) (destDir : String) (opts : CopyFileOptions)
    (path : String) (m : Mirror) : Result :=
  (m.run (mkdirAll (join [destDir, dir path]))).andThen (fun m1 =>
    match h.lstat path with
    | none => Result.fail m1
    | some fi =>
      if opts.IsSymlink path fi then copyLink h path (join [destDir, path]) m1
      else copyPseudoFile h path (join [destDir, path]) m1)

/-- Go `copyFileTreeInto`. -/
def copyFileTreeInto (h : Host) (destDir : String) (opts : CopyFileOptions) :
    List String → Mirror → Result
  | [], m => Result.ok m
  | path :: rest, m =>
    (copyPathInto h destDir opts path m).andThen
      (copyFileTreeInto h destDir opts rest)

/-- Loop of `CopyFilesInto` over the file specs. -/
def copyFilesLoop (h : Host) (destDir : String) (opts : CopyFileOptions) :
    List String → Mirror → Result
  | [], m => Result.ok m
  | fileSpec :: rest, m =>
    match h.glob fileSpec with
    | none => Result.fail { m with globbed := m.globbed ++ [fileSpec] }
    | some matched =>
      (copyFileTreeInto h destDir opts matched
          { m with globbed := m.globbed ++ [fileSpec] }).andThen
        (copyFilesLoop h destDir opts rest)

/-- Go `CopyFilesInto`; `opts = none` is the nil pointer. -/
def CopyFilesInto (h : Host) (fileSpecs : List String) (destDir : String)
    (opts : Option CopyFileOptions) (m : Mirror) : Result :=
  copyFilesLoop h destDir (opts.getD { IsSymlink := isSymlink }) fileSpecs m

/-- Directories `CloneTreeInto` creates first. -/
def createPaths : List String := ["proc", "etc", "sys/block"]

/-- The file specs `CloneTreeInto` hands to `CopyFilesInto`. -/
def cloneFileSpecs : List String :=
  [ "/sys/bus/pci/devices/*",
    "/sys/devices/pci*/*/irq",
    "/sys/devices/pci*/*/local_cpulist",
    "/sys/devices/pci*/*/modalias",
    "/sys/devices/pci*/*/numa_node",
    "/sys/devices/pci*/pci_bus/*/cpulistaffinity",
    "/sys/devices/system/cpu/cpu*/cache/index*/*",
    "/sys/devices/system/cpu/cpu*/topology/*",
    "/sys/devices/system/memory/block_size_bytes",
    "/sys/devices/system/memory/memory*/online",
    "/sys/devices/system/memory/memory*/state",
    "/sys/devices/system/node/has_*",
    "/sys/devices/system/node/online",
    "/sys/devices/system/node/possible",
    "/sys/devices/system/node/node*/cpu*",
    "/sys/devices/system/node/node*/distance" ]

/-- First loop of `CloneTreeInto`. -/
def createPathsLoop (scratchDir : String) : List String → Mirror → Result
  | [], m => Result.ok m
  | path :: rest, m =>
    (m.run (mkdirAll (join [scratchDir, path]))).andThen
      (createPathsLoop scratchDir rest)

/-- Go `CloneTreeInto`. -/
def CloneTreeInto (h : Host) (scratchDir : String) (m : Mirror) : Result :=
  (((createPathsLoop scratchDir createPaths m).andThen
      (createPseudofiles h scratchDir)).andThen
    (createBlockDevices h scratchDir)).andThen
  (CopyFilesInto h cloneFileSpecs scratchDir none)

/-! ## clonetree_pci.go -/

/-- Attribute files scanned per PCI device. -/
def perDevEntries : List String :=
  ["class", "device", "irq", "local_cpulist", "modalias", "numa_node",
   "revision", "vendor"]

/-- Class code of a PCI-to-PCI bridge. -/
def PCI_BRIDGE_PCI : String := "0x060400"

/-- Go `findPCIEntryFromPath`. -/
def findPCIEntryFromPath (h : Host) (root entryName : String) : String :=
  match h.lstat (join [root, entryName]) with
  | none => join [root, entryName]
  | some fi =>
    if fi.kind ≠ FileKind.symlink then join [root, entryName]
    else
      match h.readlink (join [root, entryName]) with
      | none => join [root, entryName]
      | some target => clean (join [root, target])

/-- Go `isPCIBridge`. -/
def isPCIBridge (h : Host) (entryPath : String) : Bool :=
  match h.readFile (join [entryPath, "class"]) with
  | some data => decide (trimSpace data = PCI_BRIDGE_PCI)
  | none => false

/-- Loop of `scanPCIDeviceRoot` over the listed names, with the two slices it
appends to. `isAddr name` says that `pciaddr.FromString(name)` is not nil; the
parser lives in package `pci/address`. -/
def scanPCIDeviceRootLoop (isAddr : String → Bool) (h : Host) (root : String) :
    List String → List String → List String → List String × List String
  | [], fileSpecs, pciRoots => (fileSpecs, pciRoots)
  | entryName :: rest, fileSpecs, pciRoots =>
    if isAddr entryName = false then
      scanPCIDeviceRootLoop isAddr h root rest fileSpecs pciRoots
    else
      scanPCIDeviceRootLoop isAddr h root rest
        ((fileSpecs ++ [join [root, entryName]]) ++
          perDevEntries.map (fun perNetEntry =>
            join [findPCIEntryFromPath h root entryName, perNetEntry]))
        (if isPCIBridge h (join [root, entryName]) then
          pciRoots ++ [findPCIEntryFromPath h root entryName]
         else pciRoots)

/-- Go `scanPCIDeviceRoot`: the file specs and the new roots found under `root`. -/
def scanPCIDeviceRoot (isAddr : String → Bool) (h : Host) (root : String) :
    List String × List String :=
  match h.readDir root with
  | none => ([], [])
  | some entries => scanPCIDeviceRootLoop isAddr h root entries [] []

/-- The `for` loop of `PCIDevicesCloneContent` run for at most `fuel` rounds:
`none` when the worklist is not empty after `fuel` rounds. -/
def cloneContentLoop (isAddr : String → Bool) (h : Host) :
    Nat → List String → List String → Option (List String)
  | _, [], fileSpecs => some fileSpecs
  | 0, _ :: _, _ => none
  | fuel + 1, pciRoot :: pciRoots, fileSpecs =>
    cloneContentLoop isAddr h fuel
      (pciRoots ++ (scanPCIDeviceRoot isAddr h pciRoot).2)
      (fileSpecs ++ (scanPCIDeviceRoot isAddr h pciRoot).1)

/-- Go `PCIDevicesCloneContent`, bounded by `fuel` rounds of its loop. -/
def PCIDevicesCloneContent (isAddr : String → Bool) (h : Host) (fuel : Nat) :
    Option (List String) :=
  cloneContentLoop isAddr h fuel ["/sys/bus/pci/devices"] []

/-! ## pack.go -/

/-- File content and archive payload: a sequence of bytes. -/
abbrev Bytes := List UInt8

mutual
/-- What `filepath.Walk` finds at a path of the source tree.
* `file size content`: a regular file; `size` is the byte count `Lstat`
  reports, `content` the bytes reading it to the end returns (`none`:
  `os.Open` fails). The two differ for pseudo-files, which report a size of
  zero.
* `symlink target`: a symlink; `none` when `os.Readlink` fails.
* `dir listable entries`: a directory and what `readDirNames` lists, in that
  order; `listable = false` when the listing fails.
* `special socket`: a device or named pipe, or a socket.
* `noStat`: a listed name whose `Lstat` fails. -/
inductive Node where
  | file (size : Nat) (content : Option Bytes)
  | symlink (target : Option String)
  | dir (listable : Bool) (entries : Entries)
  | special (socket : Bool)
  | noStat
/-- The listing of a directory: names with what is found there. -/
inductive Entries where
  | nil
  | cons (name : String) (node : Node) (rest : Entries)
end

/-- Type flag of a tar header. -/
inductive TypeFlag where
  | reg
  | dir
  | symlink
  | other
  deriving DecidableEq, Repr

/-- The fields of a `tar.Header` the code sets or reads. -/
structure Header where
  name : String
  typeflag : TypeFlag
  linkname : String
  size : Nat
  deriving DecidableEq, Repr

/-- An archive entry: its header and the payload bytes written after it. -/
structure TarEntry where
  hdr : Header
  payload : Bytes
  deriving DecidableEq, Repr

/-- State of a `tar.Writer`.
* `sinkOk`: writes to the underlying writer succeed; it is `false` when the
  writer sits on a nil `*os.File`, whose `Write` returns `ErrInvalid`.
* `entries`: the entries written so far, oldest first.
* `owed`: payload bytes the current entry still lacks. -/
structure TarWriter where
  sinkOk : Bool
  entries : List TarEntry
  owed : Nat
  deriving DecidableEq, Repr

/-- How a callback, a walk or `createSnapshot` ends: a nil error, an error, or
a run-time panic. -/
inductive Status where
  | ok
  | error
  | panic
  deriving DecidableEq, Repr

/-- Go `tar.FileInfoHeader(fi, link)`, before the code overwrites `Name`:
`none` is the error it returns for a socket. -/
def fileInfoHeader (node : Node) (link : String) : Option Header :=
  match node with
  | Node.file size _ => some { name := "", typeflag := TypeFlag.reg, linkname := "", size := size }
  | Node.dir _ _ => some { name := "", typeflag := TypeFlag.dir, linkname := "", size := 0 }
  | Node.symlink _ => some { name := "", typeflag := TypeFlag.symlink, linkname := link, size := 0 }
  | Node.special false => some { name := "", typeflag := TypeFlag.other, linkname := "", size := 0 }
  | Node.special true => none
  | Node.noStat => none

/-- Go `(*tar.Writer).WriteHeader`: it first flushes, which fails while the
current entry lacks bytes, then writes the header block to the sink. -/
def TarWriter.writeHeader (tw : TarWriter) (hdr : Header) : Option TarWriter :=
  if 0 < tw.owed then none
  else if tw.sinkOk = false then none
  else some { tw with entries := tw.entries ++ [{ hdr := hdr, payload := [] }],
                      owed := hdr.size }

/-- The payload `b` added to the last entry of the list. -/
def appendToLast (b : Bytes) : List TarEntry → List TarEntry
  | [] => []
  | [e] => [{ e with payload := e.payload ++ b }]
  | e :: f :: r => e :: appendToLast b (f :: r)

/-- Go `io.Copy(tw, f)` for a file holding the bytes `b`: they go to the
current entry up to the byte count its header declared; `false` is
`ErrWriteTooLong`. -/
def TarWriter.copy (tw : TarWriter) (b : Bytes) : TarWriter × Bool :=
  if tw.owed < b.length then
    ({ tw with entries := appendToLast (b.take tw.owed) tw.entries, owed := 0 }, false)
  else
    ({ tw with entries := appendToLast b tw.entries, owed := tw.owed - b.length }, true)

/-- The walk function of `createSnapshot`, called with `path` and the file
info `fi` (`Node.noStat` stands for the nil `FileInfo` that `Walk` passes
along with an `Lstat` error). The error argument is not looked at. -/
def snapshotVisit (buildDir path : String) (fi : Node) (tw : TarWriter) :
    TarWriter × Status :=
  if path = buildDir then (tw, Status.ok)
  else
    match fi with
    | Node.noStat => (tw, Status.panic)
    | Node.symlink none => (tw, Status.error)
    | _ =>
      match fileInfoHeader fi
          (match fi with
            | Node.symlink (some link) => link
            | _ => "") with
      | none => (tw, Status.error)
      | some hdr =>
        match tw.writeHeader
            { hdr with name := trimPrefix (trimPrefix path buildDir) "/" } with
        | none => (tw, Status.error)
        | some tw1 =>
          match fi with
          | Node.file _ none => (tw1, Status.error)
          | Node.file _ (some content) =>
            if (tw1.copy content).2 then ((tw1.copy content).1, Status.ok)
            else ((tw1.copy content).1, Status.error)
          | _ => (tw1, Status.ok)

mutual
/-- Go `filepath.walk`: the walk function is called on `path`; for a directory
whose listing succeeded and on which the function returned nil, the listed
names are walked in order. -/
def walk (buildDir path : String) (node : Node) (tw : TarWriter) : TarWriter × Status :=
  match node with
  | Node.dir listable entries =>
    match snapshotVisit buildDir path (Node.dir listable entries) tw with
    | (tw1, Status.ok) =>
      if listable then walkEntries buildDir path entries tw1 else (tw1, Status.ok)
    | r => r
  | n => snapshotVisit buildDir path n tw
/-- The loop of `filepath.walk` over the listed names. -/
def walkEntries (buildDir path : String) (entries : Entries) (tw : TarWriter) :
    TarWriter × Status :=
  match entries with
  | Entries.nil => (tw, Status.ok)
  | Entries.cons name node rest =>
    match walk buildDir (join [path, name]) node tw with
    | (tw1, Status.ok) => walkEntries buildDir path rest tw1
    | r => r
end

/-- Go `createSnapshot`: `filepath.Walk` from `buildDir`, where `root` is what
is found at `buildDir` (`Node.noStat` when `Lstat(buildDir)` fails). -/
def createSnapshot (tw : TarWriter) (buildDir : String) (root : Node) :
    TarWriter × Status :=
  walk buildDir buildDir root tw

mutual
/-- The calls `filepath.Walk` makes when no call returns an error: path and
file info, in call order. -/
def Node.visits (path : String) : Node → List (String × Node)
  | Node.dir listable entries =>
    (path, Node.dir listable entries) ::
      (if listable then entries.visits path else [])
  | Node.file size content => [(path, Node.file size content)]
  | Node.symlink target => [(path, Node.symlink target)]
  | Node.special socket => [(path, Node.special socket)]
  | Node.noStat => [(path, Node.noStat)]
/-- The calls made for the names of a listing. -/
def Entries.visits (path : String) : Entries → List (String × Node)
  | Entries.nil => []
  | Entries.cons name node rest =>
    node.visits (join [path, name]) ++ rest.visits path
end

/-- Go `PackOptions`. -/
structure PackOptions where
  Compress : Bool

/-- What is at the destination path when `PackFrom` starts.
* `absent creatable`: `os.Stat` reports that nothing is there; `os.Create`
  succeeds when `creatable`.
* `statError content`: `os.Stat` fails in another way.
* `present openable content`: `os.Stat` succeeds; the file holds `content`,
  and `os.OpenFile(_, O_WRONLY, _)` succeeds when `openable`.

The code looks at the content of the destination only to see whether its size
is zero; it is kept as a string, which is empty exactly when the file has no
byte. -/
inductive Dest where
  | absent (creatable : Bool)
  | statError (content : Option String)
  | present (openable : Bool) (content : String)

/-- What a file holds: plain bytes, or the (optionally gzip-filtered) tar
stream of the listed entries. -/
inductive Content where
  | raw (bytes : String)
  | archive (gzip : Bool) (entries : List TarEntry)
  deriving DecidableEq, Repr

/-- What `PackFrom` returns. -/
inductive PackStatus where
  | ok
  | statFailed
  | createFailed
  | openFailed
  | alreadyExists (snapshotName : String)
  | walkFailed
  | panic
  deriving DecidableEq, Repr

/-- The value `PackFrom` returns and what the destination path holds then. -/
structure PackResult where
  status : PackStatus
  content : Option Content
  deriving DecidableEq, Repr

/-- The return value of `createSnapshot` as `PackFrom` passes it on. -/
def PackStatus.ofWalk : Status → PackStatus
  | Status.ok => PackStatus.ok
  | Status.error => PackStatus.walkFailed
  | Status.panic => PackStatus.panic

/-- Go `PackFrom`. In the branch of an existing destination the opened file is
bound to a new variable `f` local to that branch, so the outer `f`, which the
writers are built on, stays nil. `f.Stat()` on the file just opened is taken
to succeed, and `os.OpenFile` without `O_TRUNC` leaves the content alone. -/
def PackFrom (snapshotName : String) (dest : Dest) (sourceRoot : String)
    (root : Node) (opts : PackOptions) : PackResult :=
  match dest with
  | Dest.absent false => { status := PackStatus.createFailed, content := none }
  | Dest.absent true =>
    { status := PackStatus.ofWalk
        (createSnapshot { sinkOk := true, entries := [], owed := 0 } sourceRoot root).2,
      content := some (Content.archive opts.Compress
        (createSnapshot { sinkOk := true, entries := [], owed := 0 } sourceRoot root).1.entries) }
  | Dest.statError content =>
    { status := PackStatus.statFailed, content := content.map Content.raw }
  | Dest.present false content =>
    { status := PackStatus.openFailed, content := some (Content.raw content) }
  | Dest.present true content =>
    if 0 < content.length then
      { status := PackStatus.alreadyExists snapshotName,
        content := some (Content.raw content) }
    else
      { status := PackStatus.ofWalk
          (createSnapshot { sinkOk := false, entries := [], owed := 0 } sourceRoot root).2,
        content := some (Content.raw content) }

/-! ## Statements about pack.go -/

/-- A tar writer on a freshly created destination file. -/
def freshWriter : TarWriter := { sinkOk := true, entries := [], owed := 0 }

/-- The name `createSnapshot` gives the entry of the visited path `path`. -/
def entryName (buildDir path : String) : String :=
  trimPrefix (trimPrefix path buildDir) "/"

/-- The entry `e` carries what the walk found at the visit `v`: the name the
code computes from the visited path, for a symlink the string `Readlink`
returned, for a regular file the content up to the size `Lstat` reported,
and nothing for a regular file that could not be opened. -/
def Carries (buildDir : String) (v : String × Node) (e : TarEntry) : Prop :=
  e.hdr.name = entryName buildDir v.1 ∧
  (∀ t, v.2 = Node.symlink (some t) →
    e.hdr.typeflag = TypeFlag.symlink ∧ e.hdr.linkname = t) ∧
  (∀ sz c, v.2 = Node.file sz (some c) →
    e.hdr.typeflag = TypeFlag.reg ∧ e.payload = c.take sz) ∧
  (∀ l es, v.2 = Node.dir l es → e.hdr.typeflag = TypeFlag.dir) ∧
  (∀ sz, v.2 = Node.file sz none → e.hdr.typeflag = TypeFlag.reg ∧ e.payload = [])

/-- The entry `e` carries the whole of what the walk found at the visit `v`:
as `Carries`, with the complete content of a regular file, which could be
opened. -/
def CarriesAll (buildDir : String) (v : String × Node) (e : TarEntry) : Prop :=
  Carries buildDir v e ∧
  (∀ sz c, v.2 = Node.file sz (some c) → e.payload = c) ∧
  (∀ sz, v.2 ≠ Node.file sz none)

/-- The visits on which the walk function writes an entry: all but those of
the path `buildDir` itself. -/
def emitting (buildDir : String) (vs : List (String × Node)) : List (String × Node) :=
  vs.filter (fun v => decide (v.1 ≠ buildDir))

/-- Starting from `tw`, the run `r` over the visits `vs` added one entry per
emitting visit, in order, stopping early only with a status other than ok;
every entry but the last carries the whole of its source, and so does the
last when the status is ok. -/
def Emitted (buildDir : String) (vs : List (String × Node)) (tw : TarWriter)
    (r : TarWriter × Status) : Prop :=
  ∃ done new, r.1.entries = tw.entries ++ new ∧
    List.Forall₂ (Carries buildDir) done new ∧
    done <+: emitting buildDir vs ∧
    (r.2 = Status.ok → done = emitting buildDir vs) ∧
    (r.2 = Status.ok → List.Forall₂ (CarriesAll buildDir) done new) ∧
    List.Forall₂ (CarriesAll buildDir) done.dropLast new.dropLast

/-- The names a listing holds, in order. -/
def Entries.names : Entries → List String
  | Entries.nil => []
  | Entries.cons name _ rest => name :: rest.names

/-- Among the visits `pre` is a directory whose listing holds a name under
which the walk reached the path `p`. -/
def ParentBefore (pre : List (String × Node)) (p : String) : Prop :=
  ∃ q l es name, (q, Node.dir l es) ∈ pre ∧ name ∈ es.names ∧ p = join [q, name]

/-- The claim that every emitted entry carries its source unchanged: the
link target for a symlink, the complete byte content for a regular file. -/
def EntriesCarrySource (buildDir : String) (root : Node) (tw : TarWriter) : Prop :=
  ∀ (i : Nat) (e : TarEntry), (createSnapshot tw buildDir root).1.entries[i]? = some e →
    ∃ p n, (emitting buildDir (root.visits buildDir))[i]? = some (p, n) ∧
      (∀ t, n = Node.symlink (some t) → e.hdr.linkname = t) ∧
      (∀ sz c, n = Node.file sz (some c) → e.payload = c)

/-- The claim that a parent directory's name is the name of an earlier entry
whenever an entry's name has a parent directory other than the root. -/
def NamedParentsFirst (entries : List TarEntry) : Prop :=
  ∀ (pre : List TarEntry) (e : TarEntry) (post : List TarEntry),
    entries = pre ++ e :: post → dir e.hdr.name ≠ "." →
    ∃ d ∈ pre, d.hdr.name = dir e.hdr.name

/-- A directory holding the pseudo-file `cpuinfo`: `Lstat` reports size zero,
reading returns the one byte `X`. -/
def pseudoTree : Node :=
  Node.dir true (Entries.cons "cpuinfo" (Node.file 0 (some [88])) Entries.nil)

/-- A directory holding the regular file `secret` of one byte, which cannot
be opened. -/
def lockedTree : Node :=
  Node.dir true (Entries.cons "secret" (Node.file 1 none) Entries.nil)

/-- A directory holding the regular file `e` of two bytes, the UTF-8 encoding
of one non-ASCII character, followed by the empty regular file `z`. -/
def twoByteTree : Node :=
  Node.dir true
    (Entries.cons "e" (Node.file 2 (some [195, 169]))
      (Entries.cons "z" (Node.file 0 (some [])) Entries.nil))

/-- A directory with a hidden regular file holding the byte `X`, and a
subdirectory holding a symlink. -/
def sampleTree : Node :=
  Node.dir true
    (Entries.cons ".hidden" (Node.file 1 (some [88]))
      (Entries.cons "d"
        (Node.dir true (Entries.cons "l" (Node.symlink (some "../.hidden")) Entries.nil))
        Entries.nil))

/-- A directory holding one regular file `a` of one byte. -/
def oneFileTree : Node :=
  Node.dir true (Entries.cons "a" (Node.file 1 (some [88])) Entries.nil)

/-- A directory holding one hidden regular file of one byte. -/
def hiddenTree : Node :=
  Node.dir true (Entries.cons ".hidden" (Node.file 1 (some [88])) Entries.nil)

/-- The entry written for the file `.hidden` of `sampleTree`. -/
def sampleHidden : TarEntry :=
  { hdr := { name := ".hidden", typeflag := TypeFlag.reg, linkname := "", size := 1 },
    payload := [88] }

/-- The entry written for the directory `d` of `sampleTree`. -/
def sampleDir : TarEntry :=
  { hdr := { name := "d", typeflag := TypeFlag.dir, linkname := "", size := 0 },
    payload := [] }

/-- The entry written for the symlink `d/l` of `sampleTree`. -/
def sampleLink : TarEntry :=
  { hdr := { name := "d/l", typeflag := TypeFlag.symlink, linkname := "../.hidden",
             size := 0 },
    payload := [] }

/-! ## Statements about clonetree_pci.go -/

/-- The file specs `scanPCIDeviceRoot` adds for the entry `entryName` of
`root`: the entry path, then the eight attribute paths under the directory
the entry resolves to. -/
def entrySpecs (h : Host) (root entryName : String) : List String :=
  [ join [root, entryName],
    join [findPCIEntryFromPath h root entryName, "class"],
    join [findPCIEntryFromPath h root entryName, "device"],
    join [findPCIEntryFromPath h root entryName, "irq"],
    join [findPCIEntryFromPath h root entryName, "local_cpulist"],
    join [findPCIEntryFromPath h root entryName, "modalias"],
    join [findPCIEntryFromPath h root entryName, "numa_node"],
    join [findPCIEntryFromPath h root entryName, "revision"],
    join [findPCIEntryFromPath h root entryName, "vendor"] ]

/-- The new roots `scanPCIDeviceRoot` adds for the listed names: the resolved
directories of the bus-address entries that are PCI bridges. -/
def bridgeRoots (isAddr : String → Bool) (h : Host) (root : String)
    (entries : List String) : List String :=
  ((entries.filter isAddr).filter (fun n => isPCIBridge h (join [root, n]))).map
    (findPCIEntryFromPath h root)

/-- A sample bus-address test for concrete hosts: `dddd:dd:dd.d` by length
and separators. -/
def sampleIsAddr (name : String) : Bool :=
  match name.data with
  | [_, _, _, _, ':', _, _, ':', _, _, '.', _] => true
  | _ => false

/-- A host with two bridge entries in the PCI root that both resolve to the
same directory, which holds one plain device. -/
def bridgeHost : Host where
  lstat := fun p =>
    if p = "/sys/bus/pci/devices/0000:00:01.0" ∨ p = "/sys/bus/pci/devices/0000:00:02.0"
    then some { kind := FileKind.symlink, size := 0 }
    else if p = "/sys/devices/pci0000:00/0000:00:01.0/0000:01:00.0"
    then some { kind := FileKind.directory, size := 0 }
    else none
  readDir := fun p =>
    if p = "/sys/bus/pci/devices" then some ["0000:00:01.0", "0000:00:02.0"]
    else if p = "/sys/devices/pci0000:00/0000:00:01.0"
    then some ["0000:01:00.0", "class", "power"]
    else none
  readlink := fun p =>
    if p = "/sys/bus/pci/devices/0000:00:01.0" ∨ p = "/sys/bus/pci/devices/0000:00:02.0"
    then some "../../../devices/pci0000:00/0000:00:01.0"
    else none
  readFile := fun p =>
    if p = "/sys/bus/pci/devices/0000:00:01.0/class"
      ∨ p = "/sys/bus/pci/devices/0000:00:02.0/class" then some "0x060400\n"
    else if p = "/sys/devices/pci0000:00/0000:00:01.0/0000:01:00.0/class"
    then some "0x020000\n"
    else if p = "/proc/cpuinfo" ∨ p = "/proc/meminfo" ∨ p = "/etc/mtab" then some "x"
    else none
  glob := fun _ => some []

/-- The levels of `bridgeHost`: the PCI root and the directory of the bridge. -/
def bridgeLevels (i : Nat) : String :=
  if i = 0 then "/sys/bus/pci/devices" else "/sys/devices/pci0000:00/0000:00:01.0"

/-- The listings of the levels of `bridgeHost`. -/
def bridgeNames (i : Nat) : List String :=
  if i = 0 then ["0000:00:01.0", "0000:00:02.0"] else ["0000:01:00.0", "class", "power"]

/-! ## Statements about clonetree.go -/

/-- The primitives through which the code changes the scratch tree. -/
def Prim (op : Tree → Step) : Prop :=
  (∃ p, op = mkdirAll p) ∨ (∃ target p, op = symlink target p) ∨
    (∃ p buf, op = writeFile p buf)

/-- A relation between the state before and after an operation that holds
across every primitive and composes along a run. -/
structure StepRel (R : Mirror → Mirror → Prop) : Prop where
  refl : ∀ m, R m m
  trans : ∀ a b c, R a b → R b c → R a c
  prim : ∀ (m : Mirror) (op : Tree → Step) (t : Tree),
    Prim op → op m.tree = Step.done t → R m { m with tree := t }

/-- The claim that every file spec the PCI scanner returns is among the file
specs `CloneTreeInto` hands to `CopyFilesInto` (the patterns it expands). -/
def ScannerSpecsPassed (isAddr : String → Bool) (h : Host) (fuel : Nat)
    (scratchDir : String) (m : Mirror) : Prop :=
  ∀ out, PCIDevicesCloneContent isAddr h fuel = some out →
    ∀ s ∈ out, s ∈ (CloneTreeInto h scratchDir m).mirror.globbed

/-- A clone operation that has not started: an empty scratch tree and no
pattern expanded. -/
def emptyMirror : Mirror := { tree := Tree.empty, globbed := [] }

/-- `bridgeHost` with a `/sys/block` that lists the loop device `loop0` and the
disk `sda`; the directory of `sda` holds the attribute `size`, the partition
`sda1`, the `queue` directory and a `subsystem` symlink. -/
def sampleHost : Host where
  lstat := fun p =>
    if p = "/sys/devices/pci0/block/sda/size" ∨ p = "/sys/devices/pci0/block/sda/sda1/start"
    then some { kind := FileKind.regular, size := 4096 }
    else if p = "/sys/devices/pci0/block/sda/subsystem"
      ∨ p = "/sys/devices/pci0/block/sda/sda1/subsystem"
    then some { kind := FileKind.symlink, size := 0 }
    else if p = "/sys/devices/pci0/block/sda/queue" ∨ p = "/sys/devices/pci0/block/sda/sda1"
      ∨ p = "/sys/devices/pci0/block/sda/sda1/power"
    then some { kind := FileKind.directory, size := 0 }
    else bridgeHost.lstat p
  readDir := fun p =>
    if p = "/sys/block" then some ["loop0", "sda"]
    else if p = "/sys/devices/pci0/block/sda"
    then some ["queue", "sda1", "size", "subsystem"]
    else if p = "/sys/devices/pci0/block/sda/sda1" then some ["power", "start", "subsystem"]
    else bridgeHost.readDir p
  readlink := fun p =>
    if p = "/sys/block/sda" then some "../devices/pci0/block/sda"
    else if p = "/sys/block/loop0" then some "../devices/virtual/block/loop0"
    else bridgeHost.readlink p
  readFile := fun p =>
    if p = "/sys/devices/pci0/block/sda/size" then some "1024\n"
    else if p = "/sys/devices/pci0/block/sda/sda1/start" then some "2048\n"
    else if p = "/sys/devices/pci0/block/sda/queue/rotational" then some "1\n"
    else bridgeHost.readFile p
  glob := fun _ => some []

/-- The scratch tree right after `CloneTreeInto` made its fixed directories
under `/tmp/s`. -/
def skeletonMirror : Mirror :=
  (createPathsLoop "/tmp/s" createPaths emptyMirror).mirror

/-- `Lstat` succeeds on `p` and reports the file kind `k`. -/
def kindAt (h : Host) (p : String) (k : FileKind) : Prop :=
  ∃ fi, h.lstat p = some fi ∧ fi.kind = k

/-- Every path the later state holds was held by the earlier state or lies
in `S`. -/
def Adds (S : String → Prop) (m m1 : Mirror) : Prop :=
  ∀ q, m1.tree q ≠ none → m.tree q ≠ none ∨ S q

/-- Paths of a mirrored partition directory `b` that come from the source
partition directory `s`: one per listed name that `Lstat` reports a regular
file. -/
def PartitionPaths (h : Host) (b s q : String) : Prop :=
  ∃ names, h.readDir s = some names ∧
    ∃ g ∈ names, kindAt h (join [s, g]) FileKind.regular ∧ q = join [b, g]

/-- Paths of a mirrored device directory `b` that come from the source device
directory `s`: one per listed regular file; for a listed directory whose
name starts with the device name, the partition directory with the
directories leading to it and its own paths; and the `queue` directory with
its `rotational` file. -/
def DeviceDirPaths (h : Host) (b s q : String) : Prop :=
  (∃ names, h.readDir s = some names ∧ ∃ f ∈ names,
    (kindAt h (join [s, f]) FileKind.regular ∧ q = join [b, f]) ∨
    (kindAt h (join [s, f]) FileKind.directory ∧ hasPrefix f (base s) = true ∧
      (q ∈ pathPrefixes (join [b, f]) ∨
        PartitionPaths h (join [b, f]) (join [s, f]) q))) ∨
  q ∈ pathPrefixes (join [b, "queue"]) ∨
  q = join [join [b, "queue"], "rotational"]

/-- Paths of the mirror that `createBlockDevices` accounts for: for a name
listed in `/sys/block` that does not start with `loop` and whose link target
was read, the link itself, the device directory with the directories
leading to it, and the paths of the device directory. -/
def MirrorPaths (h : Host) (buildDir q : String) : Prop :=
  ∃ devLinks, h.readDir "/sys/block" = some devLinks ∧
    ∃ dname ∈ devLinks, hasPrefix dname "loop" = false ∧
      ∃ target, h.readlink (join ["/sys/block", dname]) = some target ∧
        (q = join [buildDir, "sys/block", dname] ∨
         q ∈ pathPrefixes (join [buildDir, "sys/block", trimPrefix target "/"]) ∨
         DeviceDirPaths h (join [buildDir, "sys/block", trimPrefix target "/"])
           (join ["/sys/block", trimPrefix target "/"]) q)

/-- The source path `p` is matched by one of the patterns. -/
def Matched (h : Host) (fileSpecs : List String) (p : String) : Prop :=
  ∃ spec ∈ fileSpecs, ∃ matched, h.glob spec = some matched ∧ p ∈ matched

/-- What the copy of the source path `p` is to be: a symlink with the target
`Readlink` returns when `IsSymlink` says so, otherwise a regular file with
the bytes `ReadFile` returns. -/
def expectedNode (h : Host) (opts : CopyFileOptions) (p : String) : Option SNode :=
  match h.lstat p with
  | none => none
  | some fi =>
    if opts.IsSymlink p fi then (h.readlink p).map SNode.symlink
    else (h.readFile p).map SNode.file

/-- The scratch tree holds the copy of `p` at `Join(destDir, p)`. -/
def HoldsCopy (h : Host) (opts : CopyFileOptions) (destDir : String) (t : Tree)
    (p : String) : Prop :=
  ∃ node, expectedNode h opts p = some node ∧ t (join [destDir, p]) = some node

/-- The claim that after a successful `CopyFilesInto` the path `destDir/p` is,
for every matched source path `p`, a symlink with `p`'s target when `p` is a
symlink and otherwise a regular file holding `p`'s bytes. -/
def CloneHoldsSources (h : Host) (fileSpecs : List String) (destDir : String)
    (m : Mirror) : Prop :=
  (CopyFilesInto h fileSpecs destDir none m).isOk = true →
    ∀ p, Matched h fileSpecs p →
      HoldsCopy h { IsSymlink := isSymlink } destDir
        (CopyFilesInto h fileSpecs destDir none m).mirror.tree p

/-- A host on which `/a/link` is a symlink to a directory elsewhere, so that
`/a/f` and `/a/link/../f` are two different files. -/
def aliasHost : Host where
  lstat := fun p =>
    if p = "/a/f" ∨ p = "/a/link/../f" then some { kind := FileKind.regular, size := 1 }
    else if p = "/a/link" then some { kind := FileKind.symlink, size := 0 }
    else none
  readDir := fun _ => none
  readlink := fun p => if p = "/a/link" then some "/b/c" else none
  readFile := fun p =>
    if p = "/a/f" then some "A" else if p = "/a/link/../f" then some "B" else none
  glob := fun pattern =>
    if pattern = "/a/f" ∨ pattern = "/a/link/../f" ∨ pattern = "/a/link" then some [pattern]
    else some []

/-- A plain path element: not empty, not `.` or `..`, no separator inside. -/
def ValidName (c : List Char) : Prop :=
  c ≠ [] ∧ c ≠ ['.'] ∧ c ≠ ['.', '.'] ∧ '/' ∉ c

/-- The path is absolute, cleaned, and not the root directory. -/
def CleanAbs (p : String) : Bool :=
  decide (clean p = p) && decide (p.data.head? = some '/') && decide (p ≠ "/")


instance (c : List Char) : Decidable (ValidName c) := by
  unfold ValidName
  infer_instance

/-- The path is `/` followed by plain names: an absolute cleaned path other
than the root directory. -/
def AbsShape (p : String) : Prop :=
  ∃ comps, comps ≠ [] ∧ (∀ c ∈ comps, ValidName c) ∧ p.data = '/' :: joinSep comps

/-- Every directory listing of the host holds plain names, as the listings of
an operating system do. -/
def ValidListings (h : Host) : Prop :=
  ∀ d names, h.readDir d = some names → ∀ n ∈ names, ValidName n.data

/-- The path `q` lies apart from the directory `b`: it is neither `b` or a
directory above it, nor `b` or a path below it. -/
def Apart (b q : String) : Prop :=
  q ∉ pathPrefixes b ∧ b ∉ pathPrefixes q

/-- The claim that no listed entry of a source device directory that `Lstat`
reports a symlink has a counterpart in the mirrored device directory. -/
def MirrorExcludesLinks (h : Host) (buildDir : String) (m : Mirror) : Prop :=
  ∀ devLinks d t names s, h.readDir "/sys/block" = some devLinks → d ∈ devLinks →
    hasPrefix d "loop" = false → h.readlink (join ["/sys/block", d]) = some t →
    h.readDir (join ["/sys/block", trimPrefix t "/"]) = some names → s ∈ names →
    kindAt h (join [join ["/sys/block", trimPrefix t "/"], s]) FileKind.symlink →
    m.tree (join [join [buildDir, "sys/block", trimPrefix t "/"], s]) = none →
    (createBlockDevices h buildDir m).mirror.tree
      (join [join [buildDir, "sys/block", trimPrefix t "/"], s]) = none

/-- The host `sampleHost` with the entry `queue` of the directory of `sda`
turned into a symlink to a directory elsewhere, through which the file
`queue/rotational` is still read. -/
def queueLinkHost : Host where
  lstat := fun p =>
    if p = "/sys/devices/pci0/block/sda/queue"
    then some { kind := FileKind.symlink, size := 0 }
    else sampleHost.lstat p
  readDir := sampleHost.readDir
  readlink := fun p =>
    if p = "/sys/devices/pci0/block/sda/queue" then some "../../queues/sda"
    else sampleHost.readlink p
  readFile := sampleHost.readFile
  glob := sampleHost.glob

/-- A host on which `/src/link` is a symlink to the directory `/src/real`
beside it, which holds the files `f` and `g`; the patterns name `g` through
the link. -/
def linkHost : Host where
  lstat := fun p =>
    if p = "/src/real/f" ∨ p = "/src/link/g" then some { kind := FileKind.regular, size := 1 }
    else if p = "/src/link" then some { kind := FileKind.symlink, size := 0 }
    else none
  readDir := fun _ => none
  readlink := fun p => if p = "/src/link" then some "real" else none
  readFile := fun p =>
    if p = "/src/real/f" then some "F" else if p = "/src/link/g" then some "G" else none
  glob := fun pattern =>
    if pattern = "/src/real/f" ∨ pattern = "/src/link" ∨ pattern = "/src/link/g"
    then some [pattern] else some []

/-- The run was decided within the model: it returned nil or an error without
a call going through a symlink of the scratch tree. -/
def Result.decided (r : Result) : Prop :=
  r.isOk = true ∨ r.isFail = true

/-- The matched source path `p` is copied as a symlink. -/
def CopiedAsLink (h : Host) (opts : CopyFileOptions) (fileSpecs : List String)
    (p : String) : Prop :=
  Matched h fileSpecs p ∧ ∃ fi, h.lstat p = some fi ∧ opts.IsSymlink p fi = true

/-- Every symlink of the tree stands at the destination of a matched source
path that is copied as a symlink. -/
def LinksAreCopies (h : Host) (opts : CopyFileOptions) (fileSpecs : List String)
    (destDir : String) (t : Tree) : Prop :=
  ∀ q target, t q = some (SNode.symlink target) →
    ∃ p, CopiedAsLink h opts fileSpecs p ∧ q = join [destDir, p]

/-- No destination runs through the copy of a symlink: the destination of a
matched path copied as a symlink is none of the directories `os.MkdirAll`
walks for a matched path, and neither the directory holding the destination
of a matched path nor a directory leading there. -/
def LinkFreeWays (h : Host) (opts : CopyFileOptions) (fileSpecs : List String)
    (destDir : String) : Prop :=
  ∀ p1 p2, CopiedAsLink h opts fileSpecs p1 → Matched h fileSpecs p2 →
    join [destDir, p1] ∉ pathPrefixes (join [destDir, dir p2]) ∧
    join [destDir, p1] ∉ pathPrefixes (dir (join [destDir, p2]))

/-! ## Statements about failures, repeated specs and cyclic topologies -/

/-- A root directory whose subdirectory `d` cannot be listed; `d` holds the
listing `inside`. -/
def unlistableTree (inside : Entries) : Node :=
  Node.dir true (Entries.cons "d" (Node.dir false inside) Entries.nil)

/-- A root directory listing the name `gone`, whose `Lstat` fails. -/
def vanishedTree : Node :=
  Node.dir true (Entries.cons "gone" Node.noStat Entries.nil)

/-- A bridge root is reachable by the scan: the PCI root, or a root that
`scanPCIDeviceRoot` adds for a reachable root. -/
inductive ReachableRoot (isAddr : String → Bool) (h : Host) : String → Prop where
  | start : ReachableRoot isAddr h "/sys/bus/pci/devices"
  | step (r r1 : String) : ReachableRoot isAddr h r →
      r1 ∈ (scanPCIDeviceRoot isAddr h r).2 → ReachableRoot isAddr h r1

/-- A bridge root is reachable from the worklist `roots`: a root of the
worklist, or a root that `scanPCIDeviceRoot` adds for a root reachable from
it. -/
inductive ReachableFrom (isAddr : String → Bool) (h : Host) (roots : List String) :
    String → Prop where
  | base (r : String) : r ∈ roots → ReachableFrom isAddr h roots r
  | step (r r1 : String) : ReachableFrom isAddr h roots r →
      r1 ∈ (scanPCIDeviceRoot isAddr h r).2 → ReachableFrom isAddr h roots r1

/-- Scanning the root `r` leads back to it: the scan of `r` adds a root from
which `r` is reached again (`r` itself when a bridge entry of `r` resolves to
`r`). -/
def LeadsBack (isAddr : String → Bool) (h : Host) (r : String) : Prop :=
  ∃ c, c ∈ (scanPCIDeviceRoot isAddr h r).2 ∧ ReachableFrom isAddr h [c] r

/-- The claim that `PCIDevicesCloneContent` terminates on the host `h`. -/
def ScanTerminates (isAddr : String → Bool) (h : Host) : Prop :=
  ∃ fuel out, PCIDevicesCloneContent isAddr h fuel = some out

/-- A host whose PCI root lists one bridge entry, a symlink with target `.`,
which resolves to the PCI root itself; the file `class` of the PCI root is
what is read as the entry's class. -/
def cycleHost : Host where
  lstat := fun p =>
    if p = "/sys/bus/pci/devices/0000:00:01.0"
    then some { kind := FileKind.symlink, size := 0 }
    else if p = "/sys/bus/pci/devices/class"
    then some { kind := FileKind.regular, size := 4096 }
    else none
  readDir := fun p =>
    if p = "/sys/bus/pci/devices" then some ["0000:00:01.0", "class"] else none
  readlink := fun p =>
    if p = "/sys/bus/pci/devices/0000:00:01.0" then some "." else none
  readFile := fun p =>
    if p = "/sys/bus/pci/devices/0000:00:01.0/class" ∨ p = "/sys/bus/pci/devices/class"
    then some "0x060400\n" else none
  glob := fun _ => some []

/-- A host whose PCI root lists the bridge `0000:00:01.0` as a directory; the
bridge's directory lists the bridge entry `0000:01:00.0`, a symlink with
target `..`, which resolves to the PCI root, the directory above; the file
`class` of the PCI root is what is read as that entry's class. -/
def backHost : Host where
  lstat := fun p =>
    if p = "/sys/bus/pci/devices/0000:00:01.0"
    then some { kind := FileKind.directory, size := 0 }
    else if p = "/sys/bus/pci/devices/0000:00:01.0/0000:01:00.0"
    then some { kind := FileKind.symlink, size := 0 }
    else if p = "/sys/bus/pci/devices/class" ∨ p = "/sys/bus/pci/devices/0000:00:01.0/class"
    then some { kind := FileKind.regular, size := 4096 }
    else none
  readDir := fun p =>
    if p = "/sys/bus/pci/devices" then some ["0000:00:01.0", "class"]
    else if p = "/sys/bus/pci/devices/0000:00:01.0" then some ["0000:01:00.0", "class"]
    else none
  readlink := fun p =>
    if p = "/sys/bus/pci/devices/0000:00:01.0/0000:01:00.0" then some ".." else none
  readFile := fun p =>
    if p = "/sys/bus/pci/devices/0000:00:01.0/class"
      ∨ p = "/sys/bus/pci/devices/0000:00:01.0/0000:01:00.0/class"
      ∨ p = "/sys/bus/pci/devices/class"
    then some "0x060400\n" else none
  glob := fun _ => some []

/-- A host whose PCI root lists one bridge entry, a symlink that resolves to
`/sys/devices`, a directory above every device directory that lists no
bus-address entry; its file `class` is what is read as the entry's class. -/
def strayHost : Host where
  lstat := fun p =>
    if p = "/sys/bus/pci/devices/0000:00:01.0"
    then some { kind := FileKind.symlink, size := 0 }
    else if p = "/sys/devices/class" then some { kind := FileKind.regular, size := 4096 }
    else none
  readDir := fun p =>
    if p = "/sys/bus/pci/devices" then some ["0000:00:01.0"]
    else if p = "/sys/devices" then some ["class", "pci0000:00", "system"]
    else none
  readlink := fun p =>
    if p = "/sys/bus/pci/devices/0000:00:01.0" then some "../../../devices" else none
  readFile := fun p =>
    if p = "/sys/bus/pci/devices/0000:00:01.0/class" ∨ p = "/sys/devices/class"
    then some "0x060400\n" else none
  glob := fun _ => some []

/-- The host `bridgeHost` with the entry `0000:00:02.0` of the PCI root turned
into a symlink with target `.`: beside the bridge `0000:00:01.0`, which heads
a chain of one bridge, the root lists a bridge that resolves to the root; the
file `class` of the PCI root is what is read as that entry's class. -/
def loopChainHost : Host where
  lstat := fun p =>
    if p = "/sys/bus/pci/devices/class" then some { kind := FileKind.regular, size := 4096 }
    else bridgeHost.lstat p
  readDir := fun p =>
    if p = "/sys/bus/pci/devices" then some ["0000:00:01.0", "0000:00:02.0", "class"]
    else bridgeHost.readDir p
  readlink := fun p =>
    if p = "/sys/bus/pci/devices/0000:00:02.0" then some "."
    else bridgeHost.readlink p
  readFile := fun p =>
    if p = "/sys/bus/pci/devices/class" then some "0x060400\n"
    else bridgeHost.readFile p
  glob := bridgeHost.glob

/-- The listings of the levels of `loopChainHost`. -/
def loopChainNames (i : Nat) : List String :=
  if i = 0 then ["0000:00:01.0", "0000:00:02.0", "class"]
  else ["0000:01:00.0", "class", "power"]

/-- A host laid out as sysfs lays out a chain of two bridges: the PCI root
lists every device as a symlink into the nested device directories: the
bridge `0000:00:01.0`, the bridge `0000:01:00.0` behind it, and the plain
device `0000:02:00.0` behind that one. -/
def flatHost : Host where
  lstat := fun p =>
    if p = "/sys/bus/pci/devices/0000:00:01.0" ∨ p = "/sys/bus/pci/devices/0000:01:00.0"
      ∨ p = "/sys/bus/pci/devices/0000:02:00.0"
    then some { kind := FileKind.symlink, size := 0 }
    else if p = "/sys/devices/pci0000:00/0000:00:01.0/0000:01:00.0"
      ∨ p = "/sys/devices/pci0000:00/0000:00:01.0/0000:01:00.0/0000:02:00.0"
    then some { kind := FileKind.directory, size := 0 }
    else none
  readDir := fun p =>
    if p = "/sys/bus/pci/devices"
    then some ["0000:00:01.0", "0000:01:00.0", "0000:02:00.0"]
    else if p = "/sys/devices/pci0000:00/0000:00:01.0"
    then some ["0000:01:00.0", "class"]
    else if p = "/sys/devices/pci0000:00/0000:00:01.0/0000:01:00.0"
    then some ["0000:02:00.0", "class"]
    else none
  readlink := fun p =>
    if p = "/sys/bus/pci/devices/0000:00:01.0"
    then some "../../../devices/pci0000:00/0000:00:01.0"
    else if p = "/sys/bus/pci/devices/0000:01:00.0"
    then some "../../../devices/pci0000:00/0000:00:01.0/0000:01:00.0"
    else if p = "/sys/bus/pci/devices/0000:02:00.0"
    then some "../../../devices/pci0000:00/0000:00:01.0/0000:01:00.0/0000:02:00.0"
    else none
  readFile := fun p =>
    if p = "/sys/bus/pci/devices/0000:00:01.0/class"
      ∨ p = "/sys/bus/pci/devices/0000:01:00.0/class"
      ∨ p = "/sys/devices/pci0000:00/0000:00:01.0/class"
      ∨ p = "/sys/devices/pci0000:00/0000:00:01.0/0000:01:00.0/class"
    then some "0x060400\n"
    else if p = "/sys/bus/pci/devices/0000:02:00.0/class"
      ∨ p = "/sys/devices/pci0000:00/0000:00:01.0/0000:01:00.0/0000:02:00.0/class"
    then some "0x020000\n"
    else none
  glob := fun _ => some []

/-- The levels of `flatHost`: the PCI root and the directories of the two
bridges. -/
def flatLevels (i : Nat) : String :=
  if i = 0 then "/sys/bus/pci/devices"
  else if i = 1 then "/sys/devices/pci0000:00/0000:00:01.0"
  else "/sys/devices/pci0000:00/0000:00:01.0/0000:01:00.0"

/-- The listings of the levels of `flatHost`. -/
def flatNames (i : Nat) : List String :=
  if i = 0 then ["0000:00:01.0", "0000:01:00.0", "0000:02:00.0"]
  else if i = 1 then ["0000:01:00.0", "class"]
  else ["0000:02:00.0", "class"]

/-- A rank on the bridge roots of `flatHost`: each level above the next. -/
def flatRank (r : String) : Nat :=
  if r = "/sys/bus/pci/devices" then 2
  else if r = "/sys/devices/pci0000:00/0000:00:01.0" then 1 else 0

/-- A rank on the bridge roots of `bridgeHost`: the PCI root above the bridge
directory. -/
def bridgeRank (r : String) : Nat :=
  if r = "/sys/bus/pci/devices" then 1 else 0

mutual
/-- Every listing of the tree holds plain names, as the listings that
`readDirNames` returns do. -/
def Node.plainNames : Node → Prop
  | Node.dir _ entries => entries.plainNames
  | Node.file _ _ => True
  | Node.symlink _ => True
  | Node.special _ => True
  | Node.noStat => True
/-- Every name of the listing is plain, and so is every listing below it. -/
def Entries.plainNames : Entries → Prop
  | Entries.nil => True
  | Entries.cons name node rest =>
    ValidName name.data ∧ node.plainNames ∧ rest.plainNames
end

/-- The path `q` lies below the directory `path`: it is `path` followed by
plain names, each after a separator. -/
def Below (path q : String) : Prop :=
  ∃ ns, ns ≠ [] ∧ (∀ c ∈ ns, ValidName c) ∧ q.data = path.data ++ '/' :: joinSep ns
/-! ## Theorems about pack.go -/

/-- C1. When the destination exists as a file of size greater than zero,
`PackFrom` returns an error (the already-exists error once the file could be
opened) and the file holds afterwards exactly what it held before, for every
source root, source tree and value of `Compress`. -/
theorem PackFrom_rejects_nonempty_destination (snapshotName sourceRoot : String)
    (root : Node) (opts : PackOptions) (openable : Bool) (content : String)
    (h : 0 < content.length) :
    ((PackFrom snapshotName (Dest.present openable content) sourceRoot root opts).status
        = PackStatus.openFailed ∨
      (PackFrom snapshotName (Dest.present openable content) sourceRoot root opts).status
        = PackStatus.alreadyExists snapshotName) ∧
    (openable = true →
      (PackFrom snapshotName (Dest.present openable content) sourceRoot root opts).status
        = PackStatus.alreadyExists snapshotName) ∧
    (PackFrom snapshotName (Dest.present openable content) sourceRoot root opts).content
      = some (Content.raw content) := by
  cases openable <;> simp [PackFrom, h]

/-- Witness for C1: packing `sampleTree` with compression into a file that
holds `old` is rejected and leaves `old` in place. -/
theorem PackFrom_rejects_nonempty_destination_witness :
    0 < "old".length ∧
    (PackFrom "out.tar.gz" (Dest.present true "old") "/tmp/x" sampleTree
        { Compress := true }).status = PackStatus.alreadyExists "out.tar.gz" ∧
    (PackFrom "out.tar.gz" (Dest.present true "old") "/tmp/x" sampleTree
        { Compress := true }).content = some (Content.raw "old") :=
  ⟨by decide,
   (PackFrom_rejects_nonempty_destination "out.tar.gz" "/tmp/x" sampleTree
      { Compress := true } true "old" (by decide)).2.1 rfl,
   (PackFrom_rejects_nonempty_destination "out.tar.gz" "/tmp/x" sampleTree
      { Compress := true } true "old" (by decide)).2.2⟩

theorem appendToLast_concat (b : Bytes) (l : List TarEntry) (e : TarEntry) :
    appendToLast b (l ++ [e]) = l ++ [{ e with payload := e.payload ++ b }] := by
  induction l with
  | nil => rfl
  | cons x l ih =>
    cases l with
    | nil => rfl
    | cons y r =>
      have h1 : appendToLast b (x :: y :: (r ++ [e])) =
          x :: appendToLast b (y :: (r ++ [e])) := rfl
      simp only [List.cons_append] at ih ⊢
      rw [h1, ih]

theorem snapshotVisit_other (buildDir path : String) (fi : Node) (tw : TarWriter)
    (hp : path ≠ buildDir) :
    (∃ e, (snapshotVisit buildDir path fi tw).1.entries = tw.entries ++ [e] ∧
      Carries buildDir (path, fi) e ∧
      ((snapshotVisit buildDir path fi tw).2 = Status.ok →
        CarriesAll buildDir (path, fi) e)) ∨
    ((snapshotVisit buildDir path fi tw).1.entries = tw.entries ∧
      (snapshotVisit buildDir path fi tw).2 ≠ Status.ok) := by
  unfold snapshotVisit
  rw [if_neg hp]
  cases fi with
  | noStat => right; simp
  | special socket =>
    cases socket with
    | true => right; simp [fileInfoHeader]
    | false =>
      simp only [fileInfoHeader, TarWriter.writeHeader]
      by_cases h1 : 0 < tw.owed
      · right; simp [h1]
      · by_cases h2 : tw.sinkOk = false
        · right; simp [h1, h2]
        · left; simp [h1, h2, Carries, CarriesAll, entryName]
  | dir l es =>
    simp only [fileInfoHeader, TarWriter.writeHeader]
    by_cases h1 : 0 < tw.owed
    · right; simp [h1]
    · by_cases h2 : tw.sinkOk = false
      · right; simp [h1, h2]
      · left; simp [h1, h2, Carries, CarriesAll, entryName]
  | symlink target =>
    cases target with
    | none => right; simp
    | some t =>
      simp only [fileInfoHeader, TarWriter.writeHeader]
      by_cases h1 : 0 < tw.owed
      · right; simp [h1]
      · by_cases h2 : tw.sinkOk = false
        · right; simp [h1, h2]
        · left; simp [h1, h2, Carries, CarriesAll, entryName]
  | file sz content =>
    simp only [fileInfoHeader, TarWriter.writeHeader]
    by_cases h1 : 0 < tw.owed
    · right; simp [h1]
    · by_cases h2 : tw.sinkOk = false
      · right; simp [h1, h2]
      · left
        cases content with
        | none => simp [h1, h2, Carries, CarriesAll, entryName]
        | some c =>
          simp only [h1, h2, if_false, TarWriter.copy]
          by_cases h3 : sz < c.length
          · simp [h3, appendToLast_concat, Carries, CarriesAll, entryName]
          · have h4 : c.length ≤ sz := Nat.le_of_not_lt h3
            have h5 : List.take sz c = c := List.take_of_length_le h4
            simp [h3, appendToLast_concat, Carries, CarriesAll, entryName, h5]

theorem snapshotVisit_self (buildDir : String) (fi : Node) (tw : TarWriter) :
    snapshotVisit buildDir buildDir fi tw = (tw, Status.ok) := by
  simp [snapshotVisit]

theorem emitted_visit (buildDir path : String) (fi : Node) (tw : TarWriter) :
    Emitted buildDir [(path, fi)] tw (snapshotVisit buildDir path fi tw) := by
  by_cases hp : path = buildDir
  · subst hp
    rw [snapshotVisit_self]
    exact ⟨[], [], by simp, List.Forall₂.nil, by simp [emitting], by simp [emitting],
      fun _ => List.Forall₂.nil, List.Forall₂.nil⟩
  · rcases snapshotVisit_other buildDir path fi tw hp with ⟨e, he, hc, hall⟩ | ⟨he, hs⟩
    · exact ⟨[(path, fi)], [e], he, List.Forall₂.cons hc List.Forall₂.nil,
        by simp [emitting, hp], by simp [emitting, hp],
        fun hk => List.Forall₂.cons (hall hk) List.Forall₂.nil, List.Forall₂.nil⟩
    · exact ⟨[], [], by simp [he], List.Forall₂.nil, by simp,
        fun h => absurd h hs, fun _ => List.Forall₂.nil, List.Forall₂.nil⟩

theorem emitted_nil (buildDir : String) (tw : TarWriter) :
    Emitted buildDir [] tw (tw, Status.ok) :=
  ⟨[], [], by simp, List.Forall₂.nil, by simp [emitting], by simp [emitting],
    fun _ => List.Forall₂.nil, List.Forall₂.nil⟩

theorem emitted_stop (buildDir : String) (vs1 vs2 : List (String × Node))
    (tw : TarWriter) (r : TarWriter × Status) (h : Emitted buildDir vs1 tw r)
    (hs : r.2 ≠ Status.ok) : Emitted buildDir (vs1 ++ vs2) tw r := by
  obtain ⟨done, new, h1, h2, h3, _, _, h6⟩ := h
  refine ⟨done, new, h1, h2, ?_, fun hk => absurd hk hs, fun hk => absurd hk hs, h6⟩
  unfold emitting at h3 ⊢
  rw [List.filter_append]
  exact h3.trans (List.prefix_append _ _)

theorem forall₂_dropLast {α β : Type} {R : α → β → Prop} {l1 : List α} {l2 : List β}
    (h : List.Forall₂ R l1 l2) : List.Forall₂ R l1.dropLast l2.dropLast := by
  rw [List.dropLast_eq_take, List.dropLast_eq_take, h.length_eq]
  exact List.forall₂_take _ h

theorem emitted_seq (buildDir : String) (vs1 vs2 : List (String × Node))
    (tw tw1 : TarWriter) (r : TarWriter × Status)
    (h1 : Emitted buildDir vs1 tw (tw1, Status.ok))
    (h2 : Emitted buildDir vs2 tw1 r) : Emitted buildDir (vs1 ++ vs2) tw r := by
  obtain ⟨d1, n1, a1, a2, _, a4, a5, _⟩ := h1
  obtain ⟨d2, n2, b1, b2, b3, b4, b5, b6⟩ := h2
  have hd1 := a4 rfl
  have hall1 := a5 rfl
  refine ⟨d1 ++ d2, n1 ++ n2, ?_, ?_, ?_, ?_, ?_, ?_⟩
  · rw [b1, a1, List.append_assoc]
  · exact List.rel_append a2 b2
  · unfold emitting at *
    rw [List.filter_append, hd1]
    exact (List.prefix_append_right_inj _).mpr b3
  · intro hk
    unfold emitting at *
    rw [List.filter_append, hd1, b4 hk]
  · intro hk
    exact List.rel_append hall1 (b5 hk)
  · cases b2 with
    | nil =>
      simp only [List.append_nil]
      exact forall₂_dropLast hall1
    | cons hab hrest =>
      rw [List.dropLast_append_of_ne_nil _ (List.cons_ne_nil _ _),
        List.dropLast_append_of_ne_nil _ (List.cons_ne_nil _ _)]
      exact List.rel_append hall1 b6

mutual
theorem walk_emitted (buildDir : String) :
    ∀ (node : Node) (path : String) (tw : TarWriter),
      Emitted buildDir (node.visits path) tw (walk buildDir path node tw)
  | Node.dir listable entries, path, tw => by
    have hv := emitted_visit buildDir path (Node.dir listable entries) tw
    rw [walk, Node.visits]
    rcases hr : snapshotVisit buildDir path (Node.dir listable entries) tw with ⟨tw1, st⟩
    rw [hr] at hv
    cases st with
    | ok =>
      cases listable with
      | true =>
        simp only [if_true]
        exact emitted_seq buildDir [_] _ tw tw1 _ hv
          (walkEntries_emitted buildDir entries path tw1)
      | false =>
        simpa using hv
    | error =>
      exact emitted_stop buildDir [_] _ tw _ hv (by simp)
    | panic =>
      exact emitted_stop buildDir [_] _ tw _ hv (by simp)
  | Node.file size content, path, tw => by
    rw [walk, Node.visits]
    · exact emitted_visit buildDir path _ tw
    · intro _ _ h; cases h
  | Node.symlink target, path, tw => by
    rw [walk, Node.visits]
    · exact emitted_visit buildDir path _ tw
    · intro _ _ h; cases h
  | Node.special socket, path, tw => by
    rw [walk, Node.visits]
    · exact emitted_visit buildDir path _ tw
    · intro _ _ h; cases h
  | Node.noStat, path, tw => by
    rw [walk, Node.visits]
    · exact emitted_visit buildDir path _ tw
    · intro _ _ h; cases h
theorem walkEntries_emitted (buildDir : String) :
    ∀ (entries : Entries) (path : String) (tw : TarWriter),
      Emitted buildDir (entries.visits path) tw (walkEntries buildDir path entries tw)
  | Entries.nil, path, tw => by
    rw [walkEntries, Entries.visits]; exact emitted_nil buildDir tw
  | Entries.cons name node rest, path, tw => by
    have hv := walk_emitted buildDir node (join [path, name]) tw
    rw [walkEntries, Entries.visits]
    rcases hr : walk buildDir (join [path, name]) node tw with ⟨tw1, st⟩
    rw [hr] at hv
    cases st with
    | ok => exact emitted_seq buildDir _ _ tw tw1 _ hv (walkEntries_emitted buildDir rest path tw1)
    | error => exact emitted_stop buildDir _ _ tw _ hv (by simp)
    | panic => exact emitted_stop buildDir _ _ tw _ hv (by simp)
end

theorem forall₂_getElem?_right {α β : Type} {R : α → β → Prop} {l1 : List α}
    {l2 : List β} (h : List.Forall₂ R l1 l2) :
    ∀ (i : Nat) (e : β), l2[i]? = some e → ∃ v, l1[i]? = some v ∧ R v e := by
  induction h with
  | nil => intro i e he; simp at he
  | cons hab _ ih =>
    intro i e he
    cases i with
    | zero =>
      simp only [List.getElem?_cons_zero, Option.some.injEq] at he
      subst he
      exact ⟨_, by simp, hab⟩
    | succ k =>
      simp only [List.getElem?_cons_succ] at he ⊢
      exact ih k e he

theorem prefix_getElem? {α : Type} {l1 l2 : List α} (h : l1 <+: l2) (i : Nat) (v : α)
    (hv : l1[i]? = some v) : l2[i]? = some v := by
  obtain ⟨t, rfl⟩ := h
  have hi : i < l1.length := by
    rcases Nat.lt_or_ge i l1.length with hlt | hge
    · exact hlt
    · rw [List.getElem?_eq_none hge] at hv; cases hv
  rw [List.getElem?_append_left hi]
  exact hv

theorem getElem?_dropLast_of_lt {α : Type} (l : List α) (i : Nat)
    (h : i + 1 < l.length) : l.dropLast[i]? = l[i]? := by
  rw [List.dropLast_eq_take, List.getElem?_take]
  rw [if_pos (by omega)]

/-- C2 (as amended). Every entry `createSnapshot` writes was written for a
visit of the walk, in order, and carries what was found there: for a symlink
the link target is exactly the string `Readlink` returned. Every entry of a
run that returns nil, and every entry but the last of a run that fails,
carries its source unchanged, with the complete byte content of a regular
file as payload. The last entry of a failing run, the one at which the run
failed, has the file's content up to the size `Lstat` reported as payload,
hence the complete content whenever the content is no longer than that size,
and an empty payload when the file could not be opened. -/
theorem createSnapshot_entries_carry_source (buildDir : String) (root : Node)
    (tw : TarWriter) (htw : tw.entries = []) :
    ((createSnapshot tw buildDir root).2 = Status.ok →
      EntriesCarrySource buildDir root tw) ∧
    ∀ (i : Nat) (e : TarEntry),
      (createSnapshot tw buildDir root).1.entries[i]? = some e →
      ∃ p n, (emitting buildDir (root.visits buildDir))[i]? = some (p, n) ∧
        (∀ t, n = Node.symlink (some t) →
          e.hdr.typeflag = TypeFlag.symlink ∧ e.hdr.linkname = t) ∧
        (∀ sz c, n = Node.file sz (some c) →
          e.hdr.typeflag = TypeFlag.reg ∧ e.payload = c.take sz ∧
          (c.length ≤ sz → e.payload = c)) ∧
        (∀ sz, n = Node.file sz none →
          e.hdr.typeflag = TypeFlag.reg ∧ e.payload = [] ∧
          (createSnapshot tw buildDir root).2 ≠ Status.ok ∧
          i + 1 = (createSnapshot tw buildDir root).1.entries.length) ∧
        ((createSnapshot tw buildDir root).2 = Status.ok ∨
            i + 1 < (createSnapshot tw buildDir root).1.entries.length →
          (∀ sz c, n = Node.file sz (some c) → e.payload = c) ∧
          (∀ sz, n ≠ Node.file sz none)) := by
  obtain ⟨done, new, h1, h2, h3, _, h5, h6⟩ := walk_emitted buildDir root buildDir tw
  rw [htw, List.nil_append] at h1
  have hfull : ∀ (i : Nat) (e : TarEntry), new[i]? = some e →
      ((createSnapshot tw buildDir root).2 = Status.ok ∨ i + 1 < new.length) →
      ∃ v, done[i]? = some v ∧ CarriesAll buildDir v e := by
    intro i e he hor
    rcases hor with hok | hlt
    · exact forall₂_getElem?_right (h5 hok) i e he
    · have he2 : new.dropLast[i]? = some e := by
        rw [getElem?_dropLast_of_lt new i hlt]; exact he
      obtain ⟨v, hv, hc⟩ := forall₂_getElem?_right h6 i e he2
      refine ⟨v, ?_, hc⟩
      have hlen : i + 1 < done.length := by rw [h2.length_eq]; exact hlt
      rw [getElem?_dropLast_of_lt done i hlen] at hv
      exact hv
  unfold createSnapshot
  rw [h1]
  constructor
  · intro hok i e he
    rw [show (createSnapshot tw buildDir root).1.entries = new from h1] at he
    obtain ⟨v, hv, hc⟩ := hfull i e he (Or.inl hok)
    exact ⟨v.1, v.2, prefix_getElem? h3 i v hv, fun t ht => (hc.1.2.1 t ht).2, hc.2.1⟩
  · intro i e he
    obtain ⟨v, hv, hc⟩ := forall₂_getElem?_right h2 i e he
    refine ⟨v.1, v.2, prefix_getElem? h3 i v hv, hc.2.1, ?_, ?_, ?_⟩
    · intro sz c hn
      obtain ⟨ht, hp⟩ := hc.2.2.1 sz c hn
      refine ⟨ht, hp, fun hle => ?_⟩
      rw [hp]
      exact List.take_of_length_le hle
    · intro sz hn
      obtain ⟨ht, hp⟩ := hc.2.2.2.2 sz hn
      have hnot : ¬ ((createSnapshot tw buildDir root).2 = Status.ok ∨ i + 1 < new.length) := by
        intro hor
        obtain ⟨w, hw, hcw⟩ := hfull i e he hor
        rw [hv] at hw
        injection hw with hw
        subst hw
        exact hcw.2.2 sz hn
      have hi : i < new.length := by
        rcases Nat.lt_or_ge i new.length with hlt | hge
        · exact hlt
        · rw [List.getElem?_eq_none hge] at he; cases he
      refine ⟨ht, hp, fun hk => hnot (Or.inl hk), ?_⟩
      have : ¬ i + 1 < new.length := fun hk => hnot (Or.inr hk)
      omega
    · intro hor
      obtain ⟨w, hw, hcw⟩ := hfull i e he hor
      rw [hv] at hw
      injection hw with hw
      subst hw
      exact hcw.2

/-- Witness for C2: in the archive of `sampleTree`, packed without error, the
third entry is the one of the symlink `d/l`, with the link target as read. -/
theorem createSnapshot_entries_carry_source_witness :
    freshWriter.entries = [] ∧
    (createSnapshot freshWriter "/tmp/x" sampleTree).2 = Status.ok ∧
    (createSnapshot freshWriter "/tmp/x" sampleTree).1.entries
      = [sampleHidden, sampleDir, sampleLink] ∧
    EntriesCarrySource "/tmp/x" sampleTree freshWriter :=
  ⟨rfl, by decide, by decide,
   (createSnapshot_entries_carry_source "/tmp/x" sampleTree freshWriter rfl).1
     (by decide)⟩

/-- Counterexample for C2 as stated: for the pseudo-file `cpuinfo`, whose
reported size is zero, the entry written has an empty payload, not the
file's content; the run returns the error of the copy. -/
theorem createSnapshot_pseudo_file_payload_cut :
    (createSnapshot freshWriter "/proc" pseudoTree).2 = Status.error ∧
    (createSnapshot freshWriter "/proc" pseudoTree).1.entries =
      [{ hdr := { name := "cpuinfo", typeflag := TypeFlag.reg, linkname := "",
                  size := 0 },
         payload := [] }] ∧
    ¬ EntriesCarrySource "/proc" pseudoTree freshWriter := by
  refine ⟨by decide, by decide, ?_⟩
  intro h
  obtain ⟨p, n, hv, _, hf⟩ := h 0
    { hdr := { name := "cpuinfo", typeflag := TypeFlag.reg, linkname := "", size := 0 },
      payload := [] } (by decide)
  have h0 : (emitting "/proc" (pseudoTree.visits "/proc"))[0]? =
      some ("/proc/cpuinfo", Node.file 0 (some [88])) := by rfl
  rw [h0] at hv
  have hn : Node.file 0 (some [88]) = n := by
    injection hv with hv
    injection hv
  have := hf 0 [88] hn.symm
  exact absurd this (by decide)

/-- A regular file that cannot be opened: its header is written, the run
returns the error of `os.Open`, and the entry is left without payload. -/
theorem createSnapshot_unopenable_file :
    (createSnapshot freshWriter "/tmp/x" lockedTree).2 = Status.error ∧
    (createSnapshot freshWriter "/tmp/x" lockedTree).1.entries =
      [{ hdr := { name := "secret", typeflag := TypeFlag.reg, linkname := "", size := 1 },
         payload := [] }] := by
  decide

/-- Sizes are counted in bytes: a file of two bytes whose header declares two
bytes is packed whole, and the entry after it is written. -/
theorem createSnapshot_two_byte_file :
    (createSnapshot freshWriter "/tmp/x" twoByteTree).2 = Status.ok ∧
    (createSnapshot freshWriter "/tmp/x" twoByteTree).1.entries =
      [{ hdr := { name := "e", typeflag := TypeFlag.reg, linkname := "", size := 2 },
         payload := [195, 169] },
       { hdr := { name := "z", typeflag := TypeFlag.reg, linkname := "", size := 0 },
         payload := [] }] := by
  decide

/-- C3 (failing input). Packing the root `.` that holds the regular file
`.hidden`: the walk visits `.` and `.hidden` and the one entry written is
named `hidden`, so joining the root with the name does not give back the
visited path. For the root `./foo` holding `a` the entry is named `foo/a`,
and joining gives `foo/foo/a` instead of the visited `foo/a`. -/
theorem createSnapshot_entry_name_not_root_relative :
    (hiddenTree.visits ".").map Prod.fst = [".", ".hidden"] ∧
    (createSnapshot freshWriter "." hiddenTree).2 = Status.ok ∧
    (createSnapshot freshWriter "." hiddenTree).1.entries.map (fun e => e.hdr.name)
      = ["hidden"] ∧
    join [".", "hidden"] = "hidden" ∧
    (oneFileTree.visits "./foo").map Prod.fst = ["./foo", "foo/a"] ∧
    (createSnapshot freshWriter "./foo" oneFileTree).1.entries.map (fun e => e.hdr.name)
      = ["foo/a"] ∧
    join ["./foo", "foo/a"] = "foo/foo/a" := by
  decide

theorem append_eq_split {α : Type} {l1 l2 pre post : List α} {x : α}
    (h : l1 ++ l2 = pre ++ x :: post) :
    (∃ post1, l1 = pre ++ x :: post1 ∧ post = post1 ++ l2) ∨
    (∃ pre2, pre = l1 ++ pre2 ∧ l2 = pre2 ++ x :: post) := by
  rcases List.append_eq_append_iff.mp h with ⟨a, ha, hb⟩ | ⟨c, hc, hd⟩
  · exact Or.inr ⟨a, ha, hb⟩
  · cases c with
    | nil =>
      simp only [List.append_nil, List.nil_append] at hc hd
      exact Or.inr ⟨[], by simp [hc], hd.symm⟩
    | cons y c =>
      simp only [List.cons_append, List.cons.injEq] at hd
      obtain ⟨rfl, hd⟩ := hd
      exact Or.inl ⟨c, hc, hd⟩

theorem parentBefore_mono {pre pre2 : List (String × Node)} {p : String}
    (hsub : ∀ v, v ∈ pre → v ∈ pre2) (h : ParentBefore pre p) : ParentBefore pre2 p := by
  obtain ⟨q, l, es, name, hm, hn, hp⟩ := h
  exact ⟨q, l, es, name, hsub _ hm, hn, hp⟩

theorem singleton_eq_split {α : Type} {a x : α} {pre post : List α}
    (h : [a] = pre ++ x :: post) : pre = [] ∧ x = a := by
  cases pre with
  | nil => simp at h; exact ⟨rfl, h.1.symm⟩
  | cons y pre =>
    simp only [List.cons_append, List.cons.injEq] at h
    have := h.2
    cases pre <;> simp at this

mutual
theorem visits_parent_node :
    ∀ (node : Node) (path : String) (pre : List (String × Node)) (v : String × Node)
      (post : List (String × Node)),
      node.visits path = pre ++ v :: post →
      (pre = [] ∧ v.1 = path) ∨ ParentBefore pre v.1
  | Node.dir listable entries, path, pre, v, post, h => by
    rw [Node.visits] at h
    cases pre with
    | nil =>
      simp only [List.nil_append, List.cons.injEq] at h
      exact Or.inl ⟨rfl, by rw [← h.1]⟩
    | cons y pre =>
      simp only [List.cons_append, List.cons.injEq] at h
      obtain ⟨hy, h⟩ := h
      right
      cases listable with
      | false => cases pre <;> simp at h
      | true =>
        simp only [if_true] at h
        rcases visits_parent_entries entries path pre v post h with ⟨name, hm, hn⟩ | hpb
        · exact ⟨path, true, entries, name, by simp [← hy], hm, hn⟩
        · exact parentBefore_mono (fun w hw => List.mem_cons_of_mem _ hw) hpb
  | Node.file size content, path, pre, v, post, h => by
    rw [Node.visits] at h
    obtain ⟨h1, h2⟩ := singleton_eq_split h
    exact Or.inl ⟨h1, by rw [h2]⟩
  | Node.symlink target, path, pre, v, post, h => by
    rw [Node.visits] at h
    obtain ⟨h1, h2⟩ := singleton_eq_split h
    exact Or.inl ⟨h1, by rw [h2]⟩
  | Node.special socket, path, pre, v, post, h => by
    rw [Node.visits] at h
    obtain ⟨h1, h2⟩ := singleton_eq_split h
    exact Or.inl ⟨h1, by rw [h2]⟩
  | Node.noStat, path, pre, v, post, h => by
    rw [Node.visits] at h
    obtain ⟨h1, h2⟩ := singleton_eq_split h
    exact Or.inl ⟨h1, by rw [h2]⟩
theorem visits_parent_entries :
    ∀ (entries : Entries) (path : String) (pre : List (String × Node))
      (v : String × Node) (post : List (String × Node)),
      entries.visits path = pre ++ v :: post →
      (∃ name ∈ entries.names, v.1 = join [path, name]) ∨ ParentBefore pre v.1
  | Entries.nil, path, pre, v, post, h => by
    rw [Entries.visits] at h
    cases pre <;> simp at h
  | Entries.cons name node rest, path, pre, v, post, h => by
    rw [Entries.visits] at h
    rcases append_eq_split h with ⟨post1, h1, _⟩ | ⟨pre2, h1, h2⟩
    · rcases visits_parent_node node (join [path, name]) pre v post1 h1 with ⟨_, hp⟩ | hpb
      · exact Or.inl ⟨name, by simp [Entries.names], hp⟩
      · exact Or.inr hpb
    · rcases visits_parent_entries rest path pre2 v post h2 with ⟨nm, hm, hn⟩ | hpb
      · exact Or.inl ⟨nm, by simp [Entries.names, hm], hn⟩
      · right
        refine parentBefore_mono (fun w hw => ?_) hpb
        rw [h1]
        exact List.mem_append_right _ hw
end

theorem filter_eq_split {α : Type} (f : α → Bool) :
    ∀ (l pre : List α) (x : α) (post : List α), l.filter f = pre ++ x :: post →
      ∃ lpre lpost, l = lpre ++ x :: lpost ∧ lpre.filter f = pre ∧ f x = true := by
  intro l
  induction l with
  | nil => intro pre x post h; cases pre <;> simp at h
  | cons a l ih =>
    intro pre x post h
    by_cases ha : f a = true
    · rw [List.filter_cons_of_pos ha] at h
      cases pre with
      | nil =>
        simp only [List.nil_append, List.cons.injEq] at h
        obtain ⟨rfl, _⟩ := h
        exact ⟨[], l, rfl, rfl, ha⟩
      | cons b pre =>
        simp only [List.cons_append, List.cons.injEq] at h
        obtain ⟨rfl, h⟩ := h
        obtain ⟨lpre, lpost, h1, h2, h3⟩ := ih pre x post h
        exact ⟨a :: lpre, lpost, by rw [h1]; rfl, by rw [List.filter_cons_of_pos ha, h2], h3⟩
    · rw [List.filter_cons_of_neg ha] at h
      obtain ⟨lpre, lpost, h1, h2, h3⟩ := ih pre x post h
      exact ⟨a :: lpre, lpost, by rw [h1]; rfl, by rw [List.filter_cons_of_neg ha, h2], h3⟩

theorem forall₂_getElem?_left {α β : Type} {R : α → β → Prop} {l1 : List α}
    {l2 : List β} (h : List.Forall₂ R l1 l2) :
    ∀ (i : Nat) (v : α), l1[i]? = some v → ∃ e, l2[i]? = some e ∧ R v e := by
  induction h with
  | nil => intro i v hv; simp at hv
  | cons hab _ ih =>
    intro i v hv
    cases i with
    | zero =>
      simp only [List.getElem?_cons_zero, Option.some.injEq] at hv
      subst hv
      exact ⟨_, by simp, hab⟩
    | succ k =>
      simp only [List.getElem?_cons_succ] at hv ⊢
      exact ih k v hv

theorem getElem?_split {α : Type} :
    ∀ (l : List α) (i : Nat) (v : α), l[i]? = some v →
      ∃ pre post, l = pre ++ v :: post ∧ pre.length = i := by
  intro l
  induction l with
  | nil => intro i v h; simp at h
  | cons a l ih =>
    intro i v h
    cases i with
    | zero =>
      simp only [List.getElem?_cons_zero, Option.some.injEq] at h
      subst h
      exact ⟨[], l, rfl, rfl⟩
    | succ k =>
      simp only [List.getElem?_cons_succ] at h
      obtain ⟨pre, post, h1, h2⟩ := ih k v h
      exact ⟨a :: pre, post, by rw [h1]; rfl, by simp [h2]⟩

theorem mem_getElem?_lt {α : Type} {l : List α} {a : α} (h : a ∈ l) :
    ∃ j, j < l.length ∧ l[j]? = some a := by
  obtain ⟨j, hj, he⟩ := List.mem_iff_getElem.mp h
  exact ⟨j, hj, by rw [List.getElem?_eq_getElem hj, he]⟩

/-- The order of the entries `createSnapshot` writes: the entry at each
position is the one written for the walk's visit at that position, and the
visited path was reached under a name listed either in the root directory or
in a directory whose own visit and entry, a directory entry, stand at an
earlier position. Entry names are the names the code computes from the
visited paths. -/
theorem createSnapshot_directories_first (buildDir : String) (root : Node)
    (tw : TarWriter) (htw : tw.entries = []) (i : Nat) (e : TarEntry)
    (he : (createSnapshot tw buildDir root).1.entries[i]? = some e) :
    ∃ p n, (emitting buildDir (root.visits buildDir))[i]? = some (p, n) ∧
      e.hdr.name = entryName buildDir p ∧
      ((∃ l es name, (buildDir, Node.dir l es) ∈ root.visits buildDir ∧
          name ∈ es.names ∧ p = join [buildDir, name]) ∨
       (∃ j d q l es name, j < i ∧
          (createSnapshot tw buildDir root).1.entries[j]? = some d ∧
          (emitting buildDir (root.visits buildDir))[j]? = some (q, Node.dir l es) ∧
          d.hdr.typeflag = TypeFlag.dir ∧ d.hdr.name = entryName buildDir q ∧
          name ∈ es.names ∧ p = join [q, name])) := by
  obtain ⟨done, new, h1, h2, h3, _, _, _⟩ := walk_emitted buildDir root buildDir tw
  rw [htw, List.nil_append] at h1
  unfold createSnapshot at he ⊢
  rw [h1] at he ⊢
  obtain ⟨v, hv, hc⟩ := forall₂_getElem?_right h2 i e he
  have hvi := prefix_getElem? h3 i v hv
  refine ⟨v.1, v.2, hvi, hc.1, ?_⟩
  obtain ⟨epre, epost, hsplit, hlen⟩ := getElem?_split _ i v hvi
  have hsplit2 := hsplit
  unfold emitting at hsplit2
  obtain ⟨vpre, vpost, hvs, hf, hne⟩ := filter_eq_split _ _ _ _ _ hsplit2
  have hne2 : v.1 ≠ buildDir := by simpa using hne
  rcases visits_parent_node root buildDir vpre v vpost hvs with
    ⟨_, hp⟩ | ⟨q, l, es, name, hm, hnm, hp⟩
  · exact absurd hp hne2
  · by_cases hq : q = buildDir
    · left
      refine ⟨l, es, name, ?_, hnm, by rw [hp, hq]⟩
      rw [hvs, ← hq]
      exact List.mem_append_left _ hm
    · right
      have hmem : (q, Node.dir l es) ∈ epre := by
        rw [← hf]
        exact List.mem_filter.mpr ⟨hm, by simpa using hq⟩
      obtain ⟨j, hj, hje⟩ := mem_getElem?_lt hmem
      have hji : j < i := by rw [← hlen]; exact hj
      have hjem : (emitting buildDir (root.visits buildDir))[j]? = some (q, Node.dir l es) := by
        rw [hsplit, List.getElem?_append_left hj]
        exact hje
      have hjd : done[j]? = some (q, Node.dir l es) := by
        obtain ⟨t, ht⟩ := h3
        have hil : i < done.length := by
          rcases Nat.lt_or_ge i done.length with hlt | hge
          · exact hlt
          · rw [List.getElem?_eq_none hge] at hv; cases hv
        rw [← ht, List.getElem?_append_left (Nat.lt_trans hji hil)] at hjem
        exact hjem
      obtain ⟨d, hd, hcd⟩ := forall₂_getElem?_left h2 j _ hjd
      exact ⟨j, d, q, l, es, name, hji, hd, hjem, hcd.2.2.2.1 l es rfl, hcd.1, hnm, hp⟩

/-- In the archive of `sampleTree` the entry `d/l` at position 2 comes after
the entry of the directory `d` it was listed in. -/
theorem createSnapshot_directories_first_witness :
    freshWriter.entries = [] ∧
    (createSnapshot freshWriter "/tmp/x" sampleTree).1.entries[2]? = some sampleLink ∧
    ∃ p n, (emitting "/tmp/x" (sampleTree.visits "/tmp/x"))[2]? = some (p, n) ∧
      sampleLink.hdr.name = entryName "/tmp/x" p ∧
      ((∃ l es name, ("/tmp/x", Node.dir l es) ∈ sampleTree.visits "/tmp/x" ∧
          name ∈ es.names ∧ p = join ["/tmp/x", name]) ∨
       (∃ j d q l es name, j < 2 ∧
          (createSnapshot freshWriter "/tmp/x" sampleTree).1.entries[j]? = some d ∧
          (emitting "/tmp/x" (sampleTree.visits "/tmp/x"))[j]? = some (q, Node.dir l es) ∧
          d.hdr.typeflag = TypeFlag.dir ∧ d.hdr.name = entryName "/tmp/x" q ∧
          name ∈ es.names ∧ p = join [q, name])) :=
  ⟨rfl, by decide,
   createSnapshot_directories_first "/tmp/x" sampleTree freshWriter rfl 2 sampleLink
     (by decide)⟩

/-- C4 (failing input). Packing the root `./foo` that holds the regular file
`a` returns nil and writes the one entry `foo/a`: its name has the parent
directory `foo`, a directory other than the root, and no entry named `foo`
precedes it. Under the root `/tmp/x` the same tree gives the entry `a`, whose
parent is the root. -/
theorem createSnapshot_named_parent_missing :
    (createSnapshot freshWriter "./foo" oneFileTree).2 = Status.ok ∧
    (createSnapshot freshWriter "./foo" oneFileTree).1.entries.map (fun e => e.hdr.name)
      = ["foo/a"] ∧
    dir "foo/a" = "foo" ∧
    ¬ NamedParentsFirst (createSnapshot freshWriter "./foo" oneFileTree).1.entries ∧
    (createSnapshot freshWriter "/tmp/x" oneFileTree).1.entries.map (fun e => e.hdr.name)
      = ["a"] ∧
    dir "a" = "." := by
  refine ⟨by decide, by decide, by decide, ?_, by decide, by decide⟩
  intro h
  obtain ⟨d, hd, _⟩ := h []
    { hdr := { name := "foo/a", typeflag := TypeFlag.reg, linkname := "", size := 1 },
      payload := [88] } [] (by decide) (by decide)
  cases hd

/-! ## Theorems about clonetree_pci.go -/

theorem entrySpecs_eq (h : Host) (root n : String) :
    entrySpecs h root n = [join [root, n]] ++
      perDevEntries.map (fun a => join [findPCIEntryFromPath h root n, a]) := rfl

theorem scanPCIDeviceRootLoop_eq (isAddr : String → Bool) (h : Host) (root : String) :
    ∀ (entries fileSpecs pciRoots : List String),
      scanPCIDeviceRootLoop isAddr h root entries fileSpecs pciRoots =
        (fileSpecs ++ (entries.filter isAddr).flatMap (entrySpecs h root),
         pciRoots ++ bridgeRoots isAddr h root entries) := by
  intro entries
  induction entries with
  | nil => intro fs rs; simp [scanPCIDeviceRootLoop, bridgeRoots]
  | cons n rest ih =>
    intro fs rs
    by_cases hn : isAddr n = true
    · have hn2 : ¬ (isAddr n = false) := by simp [hn]
      rw [scanPCIDeviceRootLoop, if_neg hn2, ih]
      by_cases hb : isPCIBridge h (join [root, n]) = true
      · simp [bridgeRoots, hn, hb, entrySpecs_eq, List.filter_cons]
      · simp [bridgeRoots, hn, hb, entrySpecs_eq, List.filter_cons]
    · have hn2 : isAddr n = false := by simpa using hn
      rw [scanPCIDeviceRootLoop, if_pos hn2, ih]
      simp [bridgeRoots, hn2, List.filter_cons]

theorem scanPCIDeviceRoot_eq (isAddr : String → Bool) (h : Host) (root : String)
    (entries : List String) (hl : h.readDir root = some entries) :
    scanPCIDeviceRoot isAddr h root =
      ((entries.filter isAddr).flatMap (entrySpecs h root),
       bridgeRoots isAddr h root entries) := by
  simp [scanPCIDeviceRoot, hl, scanPCIDeviceRootLoop_eq]

theorem length_flatMap_entrySpecs (h : Host) (root : String) (l : List String) :
    (l.flatMap (entrySpecs h root)).length = 9 * l.length := by
  induction l with
  | nil => rfl
  | cons n rest ih =>
    rw [List.flatMap_cons, List.length_append, ih]
    simp only [entrySpecs, List.length_cons, List.length_nil]
    omega

/-- C8. For every root whose listing succeeds, the file specs
`scanPCIDeviceRoot` returns are the concatenation, in listing order over the
entries whose name parses as a PCI bus address, of the entry path followed by
the paths `class`, `device`, `irq`, `local_cpulist`, `modalias`, `numa_node`,
`revision`, `vendor` under the entry's resolved directory; other entries add
nothing, so there are exactly nine specs per bus-address entry. -/
theorem scanPCIDeviceRoot_fileSpecs (isAddr : String → Bool) (h : Host) (root : String)
    (entries : List String) (hl : h.readDir root = some entries) :
    (scanPCIDeviceRoot isAddr h root).1 =
      (entries.filter isAddr).flatMap (fun entryName =>
        [ join [root, entryName],
          join [findPCIEntryFromPath h root entryName, "class"],
          join [findPCIEntryFromPath h root entryName, "device"],
          join [findPCIEntryFromPath h root entryName, "irq"],
          join [findPCIEntryFromPath h root entryName, "local_cpulist"],
          join [findPCIEntryFromPath h root entryName, "modalias"],
          join [findPCIEntryFromPath h root entryName, "numa_node"],
          join [findPCIEntryFromPath h root entryName, "revision"],
          join [findPCIEntryFromPath h root entryName, "vendor"] ]) ∧
    (scanPCIDeviceRoot isAddr h root).1.length = 9 * (entries.filter isAddr).length := by
  rw [scanPCIDeviceRoot_eq isAddr h root entries hl]
  exact ⟨rfl, length_flatMap_entrySpecs h root _⟩

/-- Witness for C8: the bridge directory of `bridgeHost` lists one bus-address
entry next to two other names, and the scan returns its nine specs. -/
theorem scanPCIDeviceRoot_fileSpecs_witness :
    bridgeHost.readDir "/sys/devices/pci0000:00/0000:00:01.0"
      = some ["0000:01:00.0", "class", "power"] ∧
    (scanPCIDeviceRoot sampleIsAddr bridgeHost "/sys/devices/pci0000:00/0000:00:01.0").1 =
      [ "/sys/devices/pci0000:00/0000:00:01.0/0000:01:00.0",
        "/sys/devices/pci0000:00/0000:00:01.0/0000:01:00.0/class",
        "/sys/devices/pci0000:00/0000:00:01.0/0000:01:00.0/device",
        "/sys/devices/pci0000:00/0000:00:01.0/0000:01:00.0/irq",
        "/sys/devices/pci0000:00/0000:00:01.0/0000:01:00.0/local_cpulist",
        "/sys/devices/pci0000:00/0000:00:01.0/0000:01:00.0/modalias",
        "/sys/devices/pci0000:00/0000:00:01.0/0000:01:00.0/numa_node",
        "/sys/devices/pci0000:00/0000:00:01.0/0000:01:00.0/revision",
        "/sys/devices/pci0000:00/0000:00:01.0/0000:01:00.0/vendor" ] ∧
    (scanPCIDeviceRoot sampleIsAddr bridgeHost
      "/sys/devices/pci0000:00/0000:00:01.0").1.length = 9 * 1 :=
  ⟨by decide,
   ((scanPCIDeviceRoot_fileSpecs sampleIsAddr bridgeHost
      "/sys/devices/pci0000:00/0000:00:01.0" ["0000:01:00.0", "class", "power"]
      (by decide)).1).trans (by decide),
   (scanPCIDeviceRoot_fileSpecs sampleIsAddr bridgeHost
      "/sys/devices/pci0000:00/0000:00:01.0" ["0000:01:00.0", "class", "power"]
      (by decide)).2⟩

theorem cloneContentLoop_round (isAddr : String → Bool) (h : Host) :
    ∀ (roots rest fileSpecs : List String) (fuel : Nat),
      cloneContentLoop isAddr h (fuel + roots.length) (roots ++ rest) fileSpecs =
        cloneContentLoop isAddr h fuel
          (rest ++ roots.flatMap (fun r => (scanPCIDeviceRoot isAddr h r).2))
          (fileSpecs ++ roots.flatMap (fun r => (scanPCIDeviceRoot isAddr h r).1)) := by
  intro roots
  induction roots with
  | nil => intro rest fs fuel; simp
  | cons r roots ih =>
    intro rest fs fuel
    have hf : fuel + (r :: roots).length = (fuel + roots.length) + 1 := by
      simp only [List.length_cons]; omega
    rw [hf, List.cons_append, cloneContentLoop, List.append_assoc roots, ih]
    simp [List.append_assoc]

theorem cloneContentLoop_chain (isAddr : String → Bool) (h : Host) (N : Nat)
    (dirs : Nat → String)
    (hnext : ∀ i, i < N → ∀ r ∈ (scanPCIDeviceRoot isAddr h (dirs i)).2, r = dirs (i + 1))
    (hsome : ∀ i, i < N → (scanPCIDeviceRoot isAddr h (dirs i)).2 ≠ [])
    (hend : (scanPCIDeviceRoot isAddr h (dirs N)).2 = []) :
    ∀ (k i : Nat), i + k = N → ∀ (roots fileSpecs : List String),
      roots ≠ [] → (∀ r ∈ roots, r = dirs i) →
      ∃ fuel out, cloneContentLoop isAddr h fuel roots fileSpecs = some out ∧
        (∀ s ∈ fileSpecs, s ∈ out) ∧
        ∀ j, i ≤ j → j ≤ N → ∀ s ∈ (scanPCIDeviceRoot isAddr h (dirs j)).1, s ∈ out := by
  intro k
  induction k with
  | zero =>
    intro i hi roots fs hne hall
    have hiN : i = N := by omega
    subst hiN
    have hchildren : roots.flatMap (fun r => (scanPCIDeviceRoot isAddr h r).2) = [] := by
      rw [List.flatMap_eq_nil_iff]
      intro r hr
      rw [hall r hr]; exact hend
    refine ⟨0 + roots.length,
      fs ++ roots.flatMap (fun r => (scanPCIDeviceRoot isAddr h r).1), ?_, ?_, ?_⟩
    · have := cloneContentLoop_round isAddr h roots [] fs 0
      rw [List.append_nil] at this
      rw [this, hchildren]
      simp [cloneContentLoop]
    · intro s hs; exact List.mem_append_left _ hs
    · intro j hj1 hj2 s hs
      have hj : j = i := by omega
      subst hj
      apply List.mem_append_right
      obtain ⟨r, hr⟩ := List.exists_mem_of_ne_nil roots hne
      exact List.mem_flatMap.mpr ⟨r, hr, by rw [hall r hr]; exact hs⟩
  | succ k ih =>
    intro i hi roots fs hne hall
    have hiN : i < N := by omega
    have hchildren : ∀ r ∈ roots.flatMap (fun r => (scanPCIDeviceRoot isAddr h r).2),
        r = dirs (i + 1) := by
      intro r hr
      obtain ⟨q, hq, hrq⟩ := List.mem_flatMap.mp hr
      rw [hall q hq] at hrq
      exact hnext i hiN r hrq
    have hchne : roots.flatMap (fun r => (scanPCIDeviceRoot isAddr h r).2) ≠ [] := by
      obtain ⟨q, hq⟩ := List.exists_mem_of_ne_nil roots hne
      obtain ⟨r, hr⟩ := List.exists_mem_of_ne_nil _ (hsome i hiN)
      intro hnil
      have : r ∈ roots.flatMap (fun r => (scanPCIDeviceRoot isAddr h r).2) :=
        List.mem_flatMap.mpr ⟨q, hq, by rw [hall q hq]; exact hr⟩
      rw [hnil] at this
      cases this
    obtain ⟨fuel, out, hrun, hfs, hlev⟩ := ih (i + 1) (by omega) _
      (fs ++ roots.flatMap (fun r => (scanPCIDeviceRoot isAddr h r).1)) hchne hchildren
    refine ⟨fuel + roots.length, out, ?_, ?_, ?_⟩
    · have := cloneContentLoop_round isAddr h roots [] fs fuel
      rw [List.append_nil, List.nil_append] at this
      rw [this]; exact hrun
    · intro s hs; exact hfs s (List.mem_append_left _ hs)
    · intro j hj1 hj2 s hs
      rcases Nat.eq_or_lt_of_le hj1 with hj | hj
      · subst hj
        apply hfs
        apply List.mem_append_right
        obtain ⟨r, hr⟩ := List.exists_mem_of_ne_nil roots hne
        exact List.mem_flatMap.mpr ⟨r, hr, by rw [hall r hr]; exact hs⟩
      · exact hlev j hj hj2 s hs

theorem bridgeRoots_mem {isAddr : String → Bool} {h : Host} {root : String}
    {entries : List String} {r : String} (hr : r ∈ bridgeRoots isAddr h root entries) :
    ∃ n ∈ entries, isAddr n = true ∧ isPCIBridge h (join [root, n]) = true ∧
      findPCIEntryFromPath h root n = r := by
  unfold bridgeRoots at hr
  obtain ⟨n, hn, rfl⟩ := List.mem_map.mp hr
  obtain ⟨hn1, hn2⟩ := List.mem_filter.mp hn
  obtain ⟨hn3, hn4⟩ := List.mem_filter.mp hn1
  exact ⟨n, hn3, hn4, hn2, rfl⟩

theorem reachableFrom_mono {isAddr : String → Bool} {h : Host} {roots roots2 : List String}
    (hsub : ∀ r ∈ roots, r ∈ roots2) {y : String}
    (hy : ReachableFrom isAddr h roots y) : ReachableFrom isAddr h roots2 y := by
  induction hy with
  | base r hr => exact ReachableFrom.base r (hsub r hr)
  | step r r1 _ hmem ih => exact ReachableFrom.step r r1 ih hmem

theorem reachableFrom_nil {isAddr : String → Bool} {h : Host} {y : String}
    (hy : ReachableFrom isAddr h [] y) : False := by
  induction hy with
  | base r hr => cases hr
  | step r r1 _ _ ih => exact ih

theorem reachableFrom_pop {isAddr : String → Bool} {h : Host} {x : String}
    {rest : List String} {y : String} (hy : ReachableFrom isAddr h (x :: rest) y) :
    y = x ∨ ReachableFrom isAddr h (rest ++ (scanPCIDeviceRoot isAddr h x).2) y := by
  induction hy with
  | base r hr =>
    rcases List.mem_cons.mp hr with hx | hrest
    · exact Or.inl hx
    · exact Or.inr (ReachableFrom.base r (List.mem_append_left _ hrest))
  | step r r1 _ hmem ih =>
    right
    rcases ih with hx | hreach
    · rw [hx] at hmem
      exact ReachableFrom.base r1 (List.mem_append_right _ hmem)
    · exact ReachableFrom.step r r1 hreach hmem

theorem reachableFrom_children {isAddr : String → Bool} {h : Host} {roots : List String}
    {y : String} (hy : ReachableFrom isAddr h roots y) :
    y ∈ roots ∨
    ReachableFrom isAddr h (roots.flatMap (fun r => (scanPCIDeviceRoot isAddr h r).2)) y := by
  induction hy with
  | base r hr => exact Or.inl hr
  | step r r1 _ hmem ih =>
    right
    rcases ih with hr | hreach
    · exact ReachableFrom.base r1 (List.mem_flatMap.mpr ⟨r, hr, hmem⟩)
    · exact ReachableFrom.step r r1 hreach hmem

theorem reachableRoot_of_from {isAddr : String → Bool} {h : Host} {roots : List String}
    (hroots : ∀ r ∈ roots, ReachableRoot isAddr h r) {y : String}
    (hy : ReachableFrom isAddr h roots y) : ReachableRoot isAddr h y := by
  induction hy with
  | base r hr => exact hroots r hr
  | step r r1 _ hmem ih => exact ReachableRoot.step r r1 ih hmem

theorem reachableFrom_of_root {isAddr : String → Bool} {h : Host} {y : String}
    (hy : ReachableRoot isAddr h y) :
    ReachableFrom isAddr h ["/sys/bus/pci/devices"] y := by
  induction hy with
  | start => exact ReachableFrom.base _ (List.mem_singleton.mpr rfl)
  | step r r1 _ hmem ih => exact ReachableFrom.step r r1 ih hmem

theorem cloneContentLoop_ranked_out (isAddr : String → Bool) (h : Host)
    (rank : String → Nat)
    (hrank : ∀ r, ReachableRoot isAddr h r →
      ∀ r1 ∈ (scanPCIDeviceRoot isAddr h r).2, rank r1 < rank r) :
    ∀ (n : Nat) (roots fileSpecs : List String),
      (∀ r ∈ roots, ReachableRoot isAddr h r ∧ rank r < n) →
      ∃ fuel out, cloneContentLoop isAddr h fuel roots fileSpecs = some out ∧
        (∀ s ∈ fileSpecs, s ∈ out) ∧
        ∀ r, ReachableFrom isAddr h roots r →
          ∀ s ∈ (scanPCIDeviceRoot isAddr h r).1, s ∈ out := by
  intro n
  induction n with
  | zero =>
    intro roots fs hall
    cases roots with
    | nil =>
      exact ⟨0, fs, rfl, fun s hs => hs, fun r hr => absurd hr reachableFrom_nil⟩
    | cons r rest => exact absurd (hall r (List.mem_cons_self _ _)).2 (Nat.not_lt_zero _)
  | succ n ih =>
    intro roots fs hall
    have hchildren : ∀ r1 ∈ roots.flatMap (fun r => (scanPCIDeviceRoot isAddr h r).2),
        ReachableRoot isAddr h r1 ∧ rank r1 < n := by
      intro r1 h1
      obtain ⟨r, hrm, hr1⟩ := List.mem_flatMap.mp h1
      have hr := hall r hrm
      exact ⟨ReachableRoot.step r r1 hr.1 hr1,
        Nat.lt_of_lt_of_le (hrank r hr.1 r1 hr1) (Nat.le_of_lt_succ hr.2)⟩
    obtain ⟨fuel, out, hrun, hfs, hreach⟩ := ih _
      (fs ++ roots.flatMap (fun r => (scanPCIDeviceRoot isAddr h r).1)) hchildren
    refine ⟨fuel + roots.length, out, ?_, ?_, ?_⟩
    · have := cloneContentLoop_round isAddr h roots [] fs fuel
      rw [List.append_nil, List.nil_append] at this
      rw [this]; exact hrun
    · intro s hs; exact hfs s (List.mem_append_left _ hs)
    · intro r hr s hs
      rcases reachableFrom_children hr with hmem | hch
      · exact hfs s (List.mem_append_right _ (List.mem_flatMap.mpr ⟨r, hmem, hs⟩))
      · exact hreach r hch s hs

theorem cloneContentLoop_leadsBack (isAddr : String → Bool) (h : Host) (r : String)
    (hback : LeadsBack isAddr h r) :
    ∀ (fuel : Nat) (roots fileSpecs : List String), ReachableFrom isAddr h roots r →
      cloneContentLoop isAddr h fuel roots fileSpecs = none := by
  intro fuel
  induction fuel with
  | zero =>
    intro roots fs hr
    cases roots with
    | nil => exact absurd hr reachableFrom_nil
    | cons x rest => rfl
  | succ k ih =>
    intro roots fs hr
    cases roots with
    | nil => exact absurd hr reachableFrom_nil
    | cons x rest =>
      rw [cloneContentLoop]
      apply ih
      rcases reachableFrom_pop hr with hx | hreach
      · obtain ⟨c, hc, hcr⟩ := hback
        rw [hx] at hc
        exact reachableFrom_mono
          (fun q hq => by
            rw [List.mem_singleton.mp hq]
            exact List.mem_append_right _ hc) hcr
      · exact hreach

theorem flatHost_reachable {r : String}
    (hr : ReachableRoot sampleIsAddr flatHost r) :
    r = "/sys/bus/pci/devices" ∨ r = "/sys/devices/pci0000:00/0000:00:01.0" ∨
      r = "/sys/devices/pci0000:00/0000:00:01.0/0000:01:00.0" := by
  induction hr with
  | start => exact Or.inl rfl
  | step r r1 _ hmem ih =>
    rcases ih with rfl | rfl | rfl
    · have hs : (scanPCIDeviceRoot sampleIsAddr flatHost "/sys/bus/pci/devices").2 =
          ["/sys/devices/pci0000:00/0000:00:01.0",
           "/sys/devices/pci0000:00/0000:00:01.0/0000:01:00.0"] := by decide
      rw [hs] at hmem
      right
      simpa using hmem
    · have hs : (scanPCIDeviceRoot sampleIsAddr flatHost
          "/sys/devices/pci0000:00/0000:00:01.0").2 =
          ["/sys/devices/pci0000:00/0000:00:01.0/0000:01:00.0"] := by decide
      rw [hs] at hmem
      right; right
      simpa using hmem
    · have hs : (scanPCIDeviceRoot sampleIsAddr flatHost
          "/sys/devices/pci0000:00/0000:00:01.0/0000:01:00.0").2 = [] := by decide
      rw [hs] at hmem
      cases hmem

theorem flatHost_ranked :
    ∀ r, ReachableRoot sampleIsAddr flatHost r →
      ∀ r1 ∈ (scanPCIDeviceRoot sampleIsAddr flatHost r).2, flatRank r1 < flatRank r := by
  intro r hr r1 hmem
  rcases flatHost_reachable hr with rfl | rfl | rfl
  · have hs : (scanPCIDeviceRoot sampleIsAddr flatHost "/sys/bus/pci/devices").2 =
        ["/sys/devices/pci0000:00/0000:00:01.0",
         "/sys/devices/pci0000:00/0000:00:01.0/0000:01:00.0"] := by decide
    rw [hs] at hmem
    have : r1 = "/sys/devices/pci0000:00/0000:00:01.0" ∨
        r1 = "/sys/devices/pci0000:00/0000:00:01.0/0000:01:00.0" := by simpa using hmem
    rcases this with rfl | rfl <;> decide
  · have hs : (scanPCIDeviceRoot sampleIsAddr flatHost
        "/sys/devices/pci0000:00/0000:00:01.0").2 =
        ["/sys/devices/pci0000:00/0000:00:01.0/0000:01:00.0"] := by decide
    rw [hs] at hmem
    have : r1 = "/sys/devices/pci0000:00/0000:00:01.0/0000:01:00.0" := by simpa using hmem
    rw [this]
    decide
  · have hs : (scanPCIDeviceRoot sampleIsAddr flatHost
        "/sys/devices/pci0000:00/0000:00:01.0/0000:01:00.0").2 = [] := by decide
    rw [hs] at hmem
    cases hmem

/-- C9 (as amended). When the PCI root heads a chain of `N` nested PCI-to-PCI
bridges (level `i < N` lists a bridge that resolves to the directory of level
`i + 1`), whatever else the levels list, and the roots reachable from the PCI
root carry a rank that strictly decreases from a scanned root to every root
the scan adds for it, `PCIDevicesCloneContent` terminates: some number of
rounds of its loop empties the worklist, and the output holds, for every
device at all `N + 1` levels, the entry path and the file specs `class`,
`device`, `irq`, `local_cpulist`, `modalias`, `numa_node`, `revision` and
`vendor` under the directory the entry resolves to. Several bridges may
resolve to the same directory. -/
theorem PCIDevicesCloneContent_bridge_chain (isAddr : String → Bool) (h : Host)
    (rank : String → Nat)
    (hrank : ∀ r, ReachableRoot isAddr h r →
      ∀ r1 ∈ (scanPCIDeviceRoot isAddr h r).2, rank r1 < rank r)
    (N : Nat) (dirs : Nat → String) (names : Nat → List String)
    (h0 : dirs 0 = "/sys/bus/pci/devices")
    (hlist : ∀ i, i ≤ N → h.readDir (dirs i) = some (names i))
    (hbridge : ∀ i, i < N → ∃ n ∈ names i, isAddr n = true ∧
      isPCIBridge h (join [dirs i, n]) = true ∧
      findPCIEntryFromPath h (dirs i) n = dirs (i + 1)) :
    ∃ fuel out, PCIDevicesCloneContent isAddr h fuel = some out ∧
      ∀ i, i ≤ N → ∀ n ∈ names i, isAddr n = true →
        join [dirs i, n] ∈ out ∧
        join [findPCIEntryFromPath h (dirs i) n, "class"] ∈ out ∧
        join [findPCIEntryFromPath h (dirs i) n, "device"] ∈ out ∧
        join [findPCIEntryFromPath h (dirs i) n, "irq"] ∈ out ∧
        join [findPCIEntryFromPath h (dirs i) n, "local_cpulist"] ∈ out ∧
        join [findPCIEntryFromPath h (dirs i) n, "modalias"] ∈ out ∧
        join [findPCIEntryFromPath h (dirs i) n, "numa_node"] ∈ out ∧
        join [findPCIEntryFromPath h (dirs i) n, "revision"] ∈ out ∧
        join [findPCIEntryFromPath h (dirs i) n, "vendor"] ∈ out := by
  have hscan : ∀ i, i ≤ N → scanPCIDeviceRoot isAddr h (dirs i) =
      (((names i).filter isAddr).flatMap (entrySpecs h (dirs i)),
        bridgeRoots isAddr h (dirs i) (names i)) :=
    fun i hi => scanPCIDeviceRoot_eq isAddr h (dirs i) (names i) (hlist i hi)
  have hlevel : ∀ i, i ≤ N →
      ReachableFrom isAddr h ["/sys/bus/pci/devices"] (dirs i) := by
    intro i
    induction i with
    | zero => intro _; rw [h0]; exact ReachableFrom.base _ (List.mem_singleton.mpr rfl)
    | succ k ih =>
      intro hk
      have hkN : k < N := by omega
      obtain ⟨n, hn, ha, hb, hf⟩ := hbridge k hkN
      refine ReachableFrom.step (dirs k) _ (ih (Nat.le_of_lt hkN)) ?_
      rw [hscan k (Nat.le_of_lt hkN), ← hf]
      exact List.mem_map.mpr
        ⟨n, List.mem_filter.mpr ⟨List.mem_filter.mpr ⟨hn, ha⟩, hb⟩, rfl⟩
  obtain ⟨fuel, out, hrun, _, hreach⟩ := cloneContentLoop_ranked_out isAddr h rank hrank
    (rank "/sys/bus/pci/devices" + 1) ["/sys/bus/pci/devices"] []
    (fun r hr => by
      rw [List.mem_singleton.mp hr]
      exact ⟨ReachableRoot.start, Nat.lt_succ_self _⟩)
  refine ⟨fuel, out, hrun, ?_⟩
  intro i hi n hn ha
  have hsub : ∀ s ∈ entrySpecs h (dirs i) n, s ∈ out := by
    intro s hs
    apply hreach (dirs i) (hlevel i hi)
    rw [hscan i hi]
    exact List.mem_flatMap.mpr ⟨n, List.mem_filter.mpr ⟨hn, ha⟩, hs⟩
  refine ⟨hsub _ ?_, hsub _ ?_, hsub _ ?_, hsub _ ?_, hsub _ ?_, hsub _ ?_, hsub _ ?_,
    hsub _ ?_, hsub _ ?_⟩ <;> simp [entrySpecs]

/-- Witness for C9: on `flatHost`, where the PCI root lists the two bridges of
the chain side by side, the levels are ranked, the scan terminates and the
output holds the specs of all three levels. -/
theorem PCIDevicesCloneContent_bridge_chain_witness :
    (∀ r, ReachableRoot sampleIsAddr flatHost r →
      ∀ r1 ∈ (scanPCIDeviceRoot sampleIsAddr flatHost r).2, flatRank r1 < flatRank r) ∧
    flatLevels 0 = "/sys/bus/pci/devices" ∧
    (∀ i, i ≤ 2 → flatHost.readDir (flatLevels i) = some (flatNames i)) ∧
    (∀ i, i < 2 → ∃ n ∈ flatNames i, sampleIsAddr n = true ∧
      isPCIBridge flatHost (join [flatLevels i, n]) = true ∧
      findPCIEntryFromPath flatHost (flatLevels i) n = flatLevels (i + 1)) ∧
    ∃ fuel out, PCIDevicesCloneContent sampleIsAddr flatHost fuel = some out ∧
      ∀ i, i ≤ 2 → ∀ n ∈ flatNames i, sampleIsAddr n = true →
        join [flatLevels i, n] ∈ out ∧
        join [findPCIEntryFromPath flatHost (flatLevels i) n, "class"] ∈ out ∧
        join [findPCIEntryFromPath flatHost (flatLevels i) n, "device"] ∈ out ∧
        join [findPCIEntryFromPath flatHost (flatLevels i) n, "irq"] ∈ out ∧
        join [findPCIEntryFromPath flatHost (flatLevels i) n, "local_cpulist"] ∈ out ∧
        join [findPCIEntryFromPath flatHost (flatLevels i) n, "modalias"] ∈ out ∧
        join [findPCIEntryFromPath flatHost (flatLevels i) n, "numa_node"] ∈ out ∧
        join [findPCIEntryFromPath flatHost (flatLevels i) n, "revision"] ∈ out ∧
        join [findPCIEntryFromPath flatHost (flatLevels i) n, "vendor"] ∈ out :=
  ⟨flatHost_ranked, by decide, by decide, by decide,
   PCIDevicesCloneContent_bridge_chain sampleIsAddr flatHost flatRank flatHost_ranked 2
     flatLevels flatNames (by decide) (by decide) (by decide)⟩

/-- Counterexample for C9 as stated: on `loopChainHost` the PCI root heads a
chain of one bridge, and beside it lists a bridge that resolves to the PCI
root itself; no number of rounds empties the worklist, so there is no
output. -/
theorem PCIDevicesCloneContent_chain_beside_loop :
    bridgeLevels 0 = "/sys/bus/pci/devices" ∧
    (∀ i, i ≤ 1 → loopChainHost.readDir (bridgeLevels i) = some (loopChainNames i)) ∧
    (∀ i, i < 1 → ∃ n ∈ loopChainNames i, sampleIsAddr n = true ∧
      isPCIBridge loopChainHost (join [bridgeLevels i, n]) = true ∧
      findPCIEntryFromPath loopChainHost (bridgeLevels i) n = bridgeLevels (i + 1)) ∧
    ¬ ScanTerminates sampleIsAddr loopChainHost := by
  refine ⟨by decide, by decide, by decide, ?_⟩
  intro ⟨fuel, out, hrun⟩
  have hback : LeadsBack sampleIsAddr loopChainHost "/sys/bus/pci/devices" :=
    ⟨"/sys/bus/pci/devices", by decide,
      ReachableFrom.base _ (List.mem_singleton.mpr rfl)⟩
  have hnone := cloneContentLoop_leadsBack sampleIsAddr loopChainHost
    "/sys/bus/pci/devices" hback fuel ["/sys/bus/pci/devices"] []
    (ReachableFrom.base _ (List.mem_singleton.mpr rfl))
  unfold PCIDevicesCloneContent at hrun
  rw [hnone] at hrun
  cases hrun

/-- On `bridgeHost`, where two bridge entries of the PCI root resolve to the
same directory, the scan ends after three rounds; the directory is scanned
once per entry, so its device is listed twice. -/
theorem PCIDevicesCloneContent_shared_directory :
    findPCIEntryFromPath bridgeHost "/sys/bus/pci/devices" "0000:00:01.0" =
      findPCIEntryFromPath bridgeHost "/sys/bus/pci/devices" "0000:00:02.0" ∧
    (PCIDevicesCloneContent sampleIsAddr bridgeHost 3).isSome = true ∧
    ((PCIDevicesCloneContent sampleIsAddr bridgeHost 3).getD []).count
      "/sys/devices/pci0000:00/0000:00:01.0/0000:01:00.0" = 2 := by
  decide
/-! ## Theorems about clonetree.go -/

theorem run_rel {R : Mirror → Mirror → Prop} (hR : StepRel R) (m : Mirror)
    (op : Tree → Step) (hp : Prim op) : R m (m.run op).mirror := by
  unfold Mirror.run
  cases hop : op m.tree with
  | failed => exact hR.refl m
  | beyond => exact hR.refl m
  | done t => exact hR.prim m op t hp hop

theorem andThen_rel {R : Mirror → Mirror → Prop} (hR : StepRel R) {m : Mirror}
    {r : Result} {k : Mirror → Result} (h1 : R m r.mirror)
    (h2 : ∀ m1, R m1 (k m1).mirror) : R m (r.andThen k).mirror := by
  cases r with
  | ok m1 => exact hR.trans _ _ _ h1 (h2 m1)
  | fail m1 => exact h1
  | beyond m1 => exact h1

theorem copyPseudoFile_rel {R : Mirror → Mirror → Prop} (hR : StepRel R) (h : Host)
    (path targetPath : String) (m : Mirror) :
    R m (copyPseudoFile h path targetPath m).mirror := by
  unfold copyPseudoFile
  cases h.readFile path with
  | none => exact hR.refl m
  | some buf => exact run_rel hR m _ (Or.inr (Or.inr ⟨_, _, rfl⟩))

theorem createPseudofilesLoop_rel {R : Mirror → Mirror → Prop} (hR : StepRel R)
    (h : Host) (buildDir : String) :
    ∀ (paths : List String) (m : Mirror),
      R m (createPseudofilesLoop h buildDir paths m).mirror := by
  intro paths
  induction paths with
  | nil => intro m; exact hR.refl m
  | cons p rest ih =>
    intro m
    rw [createPseudofilesLoop]
    exact andThen_rel hR (copyPseudoFile_rel hR h _ _ m) ih

theorem createPartitionDirLoop_rel {R : Mirror → Mirror → Prop} (hR : StepRel R)
    (h : Host) (b s : String) :
    ∀ (names : List String) (m : Mirror),
      R m (createPartitionDirLoop h b s names m).mirror := by
  intro names
  induction names with
  | nil => intro m; exact hR.refl m
  | cons n rest ih =>
    intro m
    rw [createPartitionDirLoop]
    cases h.lstat (join [s, n]) with
    | none => exact hR.refl m
    | some fi =>
      simp only
      split
      · exact ih m
      · split
        · exact ih m
        · split
          · exact andThen_rel hR (copyPseudoFile_rel hR h _ _ m) ih
          · exact ih m

theorem createPartitionDir_rel {R : Mirror → Mirror → Prop} (hR : StepRel R)
    (h : Host) (b s : String) (m : Mirror) :
    R m (createPartitionDir h b s m).mirror := by
  unfold createPartitionDir
  cases h.readDir s with
  | none => exact hR.refl m
  | some names => exact createPartitionDirLoop_rel hR h b s names m

theorem createBlockDeviceDirLoop_rel {R : Mirror → Mirror → Prop} (hR : StepRel R)
    (h : Host) (b s : String) :
    ∀ (names : List String) (m : Mirror),
      R m (createBlockDeviceDirLoop h b s names m).mirror := by
  intro names
  induction names with
  | nil => intro m; exact hR.refl m
  | cons n rest ih =>
    intro m
    rw [createBlockDeviceDirLoop]
    cases h.lstat (join [s, n]) with
    | none => exact hR.refl m
    | some fi =>
      simp only
      split
      · exact ih m
      · split
        · split
          · exact andThen_rel hR
              (andThen_rel hR (run_rel hR m _ (Or.inl ⟨_, rfl⟩))
                (createPartitionDir_rel hR h _ _)) ih
          · exact ih m
        · split
          · exact andThen_rel hR (copyPseudoFile_rel hR h _ _ m) ih
          · exact ih m

theorem createQueueRotational_rel {R : Mirror → Mirror → Prop} (hR : StepRel R)
    (h : Host) (b s : String) (m : Mirror) :
    R m (createQueueRotational h b s m).mirror := by
  unfold createQueueRotational
  exact andThen_rel hR (run_rel hR m _ (Or.inl ⟨_, rfl⟩)) (copyPseudoFile_rel hR h _ _)

theorem createBlockDeviceDir_rel {R : Mirror → Mirror → Prop} (hR : StepRel R)
    (h : Host) (b s : String) (m : Mirror) :
    R m (createBlockDeviceDir h b s m).mirror := by
  unfold createBlockDeviceDir
  cases h.readDir s with
  | none => exact hR.refl m
  | some names =>
    exact andThen_rel hR (createBlockDeviceDirLoop_rel hR h b s names m)
      (createQueueRotational_rel hR h b s)

theorem createBlockDevice_rel {R : Mirror → Mirror → Prop} (hR : StepRel R)
    (h : Host) (buildDir dname : String) (m : Mirror) :
    R m (createBlockDevice h buildDir dname m).mirror := by
  unfold createBlockDevice
  cases h.readlink (join ["/sys/block", dname]) with
  | none => exact hR.refl m
  | some link =>
    exact andThen_rel hR
      (andThen_rel hR (run_rel hR m _ (Or.inl ⟨_, rfl⟩))
        (fun m1 => run_rel hR m1 _ (Or.inr (Or.inl ⟨_, _, rfl⟩))))
      (createBlockDeviceDir_rel hR h _ _)

theorem createBlockDevicesLoop_rel {R : Mirror → Mirror → Prop} (hR : StepRel R)
    (h : Host) (buildDir : String) :
    ∀ (names : List String) (m : Mirror),
      R m (createBlockDevicesLoop h buildDir names m).mirror := by
  intro names
  induction names with
  | nil => intro m; exact hR.refl m
  | cons n rest ih =>
    intro m
    rw [createBlockDevicesLoop]
    split
    · exact ih m
    · exact andThen_rel hR (createBlockDevice_rel hR h buildDir n m) ih

theorem createBlockDevices_rel {R : Mirror → Mirror → Prop} (hR : StepRel R)
    (h : Host) (buildDir : String) (m : Mirror) :
    R m (createBlockDevices h buildDir m).mirror := by
  unfold createBlockDevices
  cases h.readDir "/sys/block" with
  | none => exact hR.refl m
  | some names => exact createBlockDevicesLoop_rel hR h buildDir names m

theorem copyLink_rel {R : Mirror → Mirror → Prop} (hR : StepRel R) (h : Host)
    (path targetPath : String) (m : Mirror) :
    R m (copyLink h path targetPath m).mirror := by
  unfold copyLink
  cases h.readlink path with
  | none => exact hR.refl m
  | some target => exact run_rel hR m _ (Or.inr (Or.inl ⟨_, _, rfl⟩))

theorem copyPathInto_rel {R : Mirror → Mirror → Prop} (hR : StepRel R) (h : Host)
    (destDir : String) (opts : CopyFileOptions) (path : String) (m : Mirror) :
    R m (copyPathInto h destDir opts path m).mirror := by
  unfold copyPathInto
  refine andThen_rel hR (run_rel hR m _ (Or.inl ⟨_, rfl⟩)) (fun m1 => ?_)
  cases h.lstat path with
  | none => exact hR.refl m1
  | some fi =>
    simp only
    split
    · exact copyLink_rel hR h _ _ m1
    · exact copyPseudoFile_rel hR h _ _ m1

theorem copyFileTreeInto_rel {R : Mirror → Mirror → Prop} (hR : StepRel R) (h : Host)
    (destDir : String) (opts : CopyFileOptions) :
    ∀ (paths : List String) (m : Mirror),
      R m (copyFileTreeInto h destDir opts paths m).mirror := by
  intro paths
  induction paths with
  | nil => intro m; exact hR.refl m
  | cons p rest ih =>
    intro m
    rw [copyFileTreeInto]
    exact andThen_rel hR (copyPathInto_rel hR h destDir opts p m) ih

theorem createPathsLoop_rel {R : Mirror → Mirror → Prop} (hR : StepRel R)
    (scratchDir : String) :
    ∀ (paths : List String) (m : Mirror),
      R m (createPathsLoop scratchDir paths m).mirror := by
  intro paths
  induction paths with
  | nil => intro m; exact hR.refl m
  | cons p rest ih =>
    intro m
    rw [createPathsLoop]
    exact andThen_rel hR (run_rel hR m _ (Or.inl ⟨_, rfl⟩)) ih

theorem keepsGlobbed_stepRel :
    StepRel (fun m m1 : Mirror => m1.globbed = m.globbed) where
  refl := fun _ => rfl
  trans := fun _ _ _ h1 h2 => h2.trans h1
  prim := fun _ _ _ _ _ => rfl

theorem copyFilesLoop_globbed (h : Host) (destDir : String) (opts : CopyFileOptions) :
    ∀ (specs : List String) (m : Mirror),
      (∃ k, (copyFilesLoop h destDir opts specs m).mirror.globbed
          = m.globbed ++ specs.take k) ∧
      ((copyFilesLoop h destDir opts specs m).isOk = true →
        (copyFilesLoop h destDir opts specs m).mirror.globbed = m.globbed ++ specs) := by
  intro specs
  induction specs with
  | nil => intro m; exact ⟨⟨0, by simp [copyFilesLoop, Result.mirror]⟩,
      fun _ => by simp [copyFilesLoop, Result.mirror]⟩
  | cons spec rest ih =>
    intro m
    rw [copyFilesLoop]
    cases h.glob spec with
    | none =>
      exact ⟨⟨1, by simp [Result.mirror]⟩, fun hk => by simp [Result.isOk] at hk⟩
    | some matched =>
      simp only
      have hkeep := copyFileTreeInto_rel keepsGlobbed_stepRel h destDir opts matched
        { m with globbed := m.globbed ++ [spec] }
      cases hr : copyFileTreeInto h destDir opts matched
          { m with globbed := m.globbed ++ [spec] } with
      | fail m1 =>
        rw [hr] at hkeep
        simp only [Result.mirror] at hkeep
        exact ⟨⟨1, by simp [Result.andThen, Result.mirror, hkeep]⟩,
          fun hk => by simp [Result.andThen, Result.isOk] at hk⟩
      | beyond m1 =>
        rw [hr] at hkeep
        simp only [Result.mirror] at hkeep
        exact ⟨⟨1, by simp [Result.andThen, Result.mirror, hkeep]⟩,
          fun hk => by simp [Result.andThen, Result.isOk] at hk⟩
      | ok m1 =>
        rw [hr] at hkeep
        simp only [Result.mirror] at hkeep
        obtain ⟨⟨k, hk⟩, hok⟩ := ih m1
        simp only [Result.andThen]
        refine ⟨⟨k + 1, ?_⟩, fun hs => ?_⟩
        · rw [hk, hkeep]; simp
        · rw [hok hs, hkeep]; simp

/-- C10 (as amended). `CloneTreeInto` hands `CopyFilesInto` the sixteen fixed
generic sysfs patterns and nothing else, whatever the host state: the patterns
expanded during a clone are a leading part of that fixed list, and the whole
list when the clone succeeds. `PCIDevicesCloneContent` is not consulted. -/
theorem CloneTreeInto_expands_fixed_specs (h : Host) (scratchDir : String) (m : Mirror) :
    (∃ k, (CloneTreeInto h scratchDir m).mirror.globbed
        = m.globbed ++ cloneFileSpecs.take k) ∧
    ((CloneTreeInto h scratchDir m).isOk = true →
      (CloneTreeInto h scratchDir m).mirror.globbed = m.globbed ++ cloneFileSpecs) ∧
    cloneFileSpecs.length = 16 := by
  have hpre : ∀ r : Result,
      r = ((createPathsLoop scratchDir createPaths m).andThen
        (createPseudofiles h scratchDir)).andThen (createBlockDevices h scratchDir) →
      r.mirror.globbed = m.globbed := by
    intro r hr
    rw [hr]
    exact andThen_rel keepsGlobbed_stepRel
      (andThen_rel keepsGlobbed_stepRel
        (createPathsLoop_rel keepsGlobbed_stepRel scratchDir createPaths m)
        (fun m1 => createPseudofilesLoop_rel keepsGlobbed_stepRel h scratchDir _ m1))
      (createBlockDevices_rel keepsGlobbed_stepRel h scratchDir)
  unfold CloneTreeInto
  cases hr : ((createPathsLoop scratchDir createPaths m).andThen
        (createPseudofiles h scratchDir)).andThen (createBlockDevices h scratchDir) with
  | fail m1 =>
    have := hpre _ hr.symm
    simp only [Result.mirror] at this
    exact ⟨⟨0, by simp [Result.andThen, Result.mirror, this]⟩,
      fun hk => by simp [Result.andThen, Result.isOk] at hk, rfl⟩
  | beyond m1 =>
    have := hpre _ hr.symm
    simp only [Result.mirror] at this
    exact ⟨⟨0, by simp [Result.andThen, Result.mirror, this]⟩,
      fun hk => by simp [Result.andThen, Result.isOk] at hk, rfl⟩
  | ok m1 =>
    have := hpre _ hr.symm
    simp only [Result.mirror] at this
    obtain ⟨⟨k, hk⟩, hok⟩ := copyFilesLoop_globbed h scratchDir
      ((none : Option CopyFileOptions).getD { IsSymlink := isSymlink }) cloneFileSpecs m1
    simp only [Result.andThen, CopyFilesInto]
    exact ⟨⟨k, by rw [hk, this]⟩, fun hs => by rw [hok hs, this], rfl⟩

/-- Witness for C10: the clone of `sampleHost` succeeds and expands exactly the
fixed list. -/
theorem CloneTreeInto_expands_fixed_specs_witness :
    (CloneTreeInto sampleHost "/tmp/s" emptyMirror).isOk = true ∧
    (CloneTreeInto sampleHost "/tmp/s" emptyMirror).mirror.globbed
      = emptyMirror.globbed ++ cloneFileSpecs :=
  ⟨by decide,
   (CloneTreeInto_expands_fixed_specs sampleHost "/tmp/s" emptyMirror).2.1 (by decide)⟩

/-- Counterexample for C10 as stated: on `sampleHost` the scanner returns the
spec `/sys/bus/pci/devices/0000:00:01.0`, which is not among the patterns the
successful clone expands. -/
theorem CloneTreeInto_omits_scanner_specs :
    ¬ ScannerSpecsPassed sampleIsAddr sampleHost 3 "/tmp/s" emptyMirror := by
  intro hc
  have hout : ∃ out, PCIDevicesCloneContent sampleIsAddr sampleHost 3 = some out ∧
      "/sys/bus/pci/devices/0000:00:01.0" ∈ out := by
    cases hp : PCIDevicesCloneContent sampleIsAddr sampleHost 3 with
    | none => exact absurd hp (by decide)
    | some out =>
      refine ⟨out, rfl, ?_⟩
      have : (PCIDevicesCloneContent sampleIsAddr sampleHost 3).any
          (fun o => o.contains "/sys/bus/pci/devices/0000:00:01.0") = true := by decide
      rw [hp] at this
      simpa using this
  obtain ⟨out, ho, hm⟩ := hout
  have := hc out ho _ hm
  exact absurd this (by decide)

theorem isOk_eq_ok {r : Result} (h : r.isOk = true) : r = Result.ok r.mirror := by
  cases r with
  | ok m => rfl
  | fail m => cases h
  | beyond m => cases h

theorem andThen_ok {r : Result} {k : Mirror → Result} {m1 : Mirror}
    (h : r.andThen k = Result.ok m1) : ∃ m0, r = Result.ok m0 ∧ k m0 = Result.ok m1 := by
  cases r with
  | ok m0 => exact ⟨m0, rfl, h⟩
  | fail m0 => cases h
  | beyond m0 => cases h

theorem run_ok {m m1 : Mirror} {op : Tree → Step}
    (h : m.run op = Result.ok m1) :
    ∃ t, op m.tree = Step.done t ∧ m1 = { m with tree := t } := by
  unfold Mirror.run at h
  cases hop : op m.tree with
  | failed => rw [hop] at h; cases h
  | beyond => rw [hop] at h; cases h
  | done t =>
    rw [hop] at h
    injection h with h
    exact ⟨t, rfl, h.symm⟩

theorem mkdirStep_frame {t t1 : Tree} {p : String} (h : mkdirStep t p = Step.done t1) :
    t1 p = some SNode.dir ∧
    ∀ q, t1 q = t q ∨ (t q = none ∧ t1 q = some SNode.dir ∧ q = p) := by
  unfold mkdirStep at h
  split at h
  · rename_i hnone
    injection h with h
    subst h
    refine ⟨by simp [Tree.set], fun q => ?_⟩
    by_cases hq : q = p
    · right; subst hq; exact ⟨hnone, by simp [Tree.set], rfl⟩
    · left; simp [Tree.set, hq]
  · rename_i hdir
    injection h with h
    subst h
    exact ⟨hdir, fun q => Or.inl rfl⟩
  · cases h
  · cases h

theorem mkdirAllFrom_frame :
    ∀ (ps : List String) (t t1 : Tree), mkdirAllFrom ps t = Step.done t1 →
      (∀ p ∈ ps, t1 p = some SNode.dir) ∧
      ∀ q, t1 q = t q ∨ (t q = none ∧ t1 q = some SNode.dir ∧ q ∈ ps) := by
  intro ps
  induction ps with
  | nil =>
    intro t t1 h
    rw [mkdirAllFrom] at h
    injection h with h
    subst h
    exact ⟨fun p hp => absurd hp (List.not_mem_nil p), fun q => Or.inl rfl⟩
  | cons p rest ih =>
    intro t t1 h
    rw [mkdirAllFrom] at h
    cases hs : mkdirStep t p with
    | failed => rw [hs] at h; cases h
    | beyond => rw [hs] at h; cases h
    | done t0 =>
      rw [hs] at h
      have h0 : mkdirAllFrom rest t0 = Step.done t1 := h
      obtain ⟨hp0, hf0⟩ := mkdirStep_frame hs
      obtain ⟨hall, hf⟩ := ih t0 t1 h0
      constructor
      · intro q hq
        rcases List.mem_cons.mp hq with rfl | hq
        · rcases hf q with h1 | ⟨h1, _, _⟩
          · rw [h1]; exact hp0
          · rw [hp0] at h1; cases h1
        · exact hall q hq
      · intro q
        rcases hf q with h1 | ⟨h1, h2, h3⟩
        · rcases hf0 q with h4 | ⟨h4, h5, h6⟩
          · left; rw [h1, h4]
          · right; exact ⟨h4, by rw [h1, h5], by rw [h6]; exact List.mem_cons_self _ _⟩
        · rcases hf0 q with h4 | ⟨_, h5, _⟩
          · right; exact ⟨by rw [← h4]; exact h1, h2, List.mem_cons_of_mem _ h3⟩
          · rw [h5] at h1; cases h1

theorem mkdirAll_frame {p : String} {t t1 : Tree} (h : mkdirAll p t = Step.done t1) :
    (∀ q ∈ pathPrefixes p, t1 q = some SNode.dir) ∧
    ∀ q, t1 q = t q ∨ (t q = none ∧ t1 q = some SNode.dir ∧ q ∈ pathPrefixes p) := by
  unfold mkdirAll at h
  split at h
  · cases h
  · exact mkdirAllFrom_frame _ t t1 h

theorem parentMissing_ne_done {t t1 : Tree} {p : String}
    (h : parentMissing t p = Step.done t1) : False := by
  unfold parentMissing at h
  split at h <;> cases h

theorem symlink_eq {target p : String} {t t1 : Tree}
    (h : symlink target p t = Step.done t1) :
    t p = none ∧ t1 = t.set p (SNode.symlink target) := by
  unfold symlink at h
  split at h
  · cases h
  · split at h
    · exact absurd h (fun h => parentMissing_ne_done h)
    · split at h
      · rename_i hn
        injection h with h
        exact ⟨hn, h.symm⟩
      · cases h

theorem writeFile_eq {p buf : String} {t t1 : Tree}
    (h : writeFile p buf t = Step.done t1) :
    (t p = none ∨ ∃ c, t p = some (SNode.file c)) ∧ t1 = t.set p (SNode.file buf) := by
  unfold writeFile at h
  split at h
  · cases h
  · split at h
    · exact absurd h (fun h => parentMissing_ne_done h)
    · split at h
      · rename_i hn
        injection h with h
        exact ⟨Or.inl hn, h.symm⟩
      · rename_i c hc
        injection h with h
        exact ⟨Or.inr ⟨c, hc⟩, h.symm⟩
      · cases h
      · cases h

/-- What a primitive may change: a path that held nothing, or the content of
a regular file. -/
theorem prim_frame {op : Tree → Step} {t t1 : Tree} (hp : Prim op)
    (h : op t = Step.done t1) :
    ∀ q, t1 q = t q ∨ t q = none ∨ ∃ c, t q = some (SNode.file c) := by
  intro q
  rcases hp with ⟨p, rfl⟩ | ⟨target, p, rfl⟩ | ⟨p, buf, rfl⟩
  · rcases (mkdirAll_frame h).2 q with h1 | ⟨h1, _, _⟩
    · exact Or.inl h1
    · exact Or.inr (Or.inl h1)
  · obtain ⟨h1, rfl⟩ := symlink_eq h
    by_cases hq : q = p
    · subst hq; exact Or.inr (Or.inl h1)
    · left; simp [Tree.set, hq]
  · obtain ⟨h1, rfl⟩ := writeFile_eq h
    by_cases hq : q = p
    · subst hq; exact Or.inr h1
    · left; simp [Tree.set, hq]

theorem symlinksStay_stepRel :
    StepRel (fun m m1 : Mirror => ∀ p target,
      m.tree p = some (SNode.symlink target) → m1.tree p = some (SNode.symlink target)) where
  refl := fun _ _ _ h => h
  trans := fun _ _ _ h1 h2 p target h => h2 p target (h1 p target h)
  prim := by
    intro m op t hp hop p target h
    rcases prim_frame hp hop p with h1 | h1 | ⟨c, h1⟩
    · show t p = _
      rw [h1]; exact h
    · rw [h1] at h; cases h
    · rw [h1] at h; cases h

theorem createBlockDevice_link {h : Host} {buildDir dname target : String} {m m1 : Mirror}
    (ht : h.readlink (join ["/sys/block", dname]) = some target)
    (hok : createBlockDevice h buildDir dname m = Result.ok m1) :
    m1.tree (join [buildDir, "sys/block", dname]) = some (SNode.symlink target) := by
  unfold createBlockDevice at hok
  rw [ht] at hok
  obtain ⟨mb, h1, h2⟩ := andThen_ok hok
  obtain ⟨ma, _, h4⟩ := andThen_ok h1
  obtain ⟨t, h5, rfl⟩ := run_ok h4
  obtain ⟨_, rfl⟩ := symlink_eq h5
  have := createBlockDeviceDir_rel symlinksStay_stepRel h
    (join [buildDir, "sys/block", trimPrefix target "/"])
    (join ["/sys/block", trimPrefix target "/"])
    { ma with tree := ma.tree.set (join [buildDir, "sys/block", dname]) (SNode.symlink target) }
  rw [h2] at this
  exact this _ target (by simp [Tree.set])

theorem createBlockDevicesLoop_link (h : Host) (buildDir name target : String)
    (hloop : hasPrefix name "loop" = false)
    (ht : h.readlink (join ["/sys/block", name]) = some target) :
    ∀ (names : List String) (m m1 : Mirror), name ∈ names →
      createBlockDevicesLoop h buildDir names m = Result.ok m1 →
      m1.tree (join [buildDir, "sys/block", name]) = some (SNode.symlink target) := by
  intro names
  induction names with
  | nil => intro m m1 hn; cases hn
  | cons n rest ih =>
    intro m m1 hn hok
    rw [createBlockDevicesLoop] at hok
    by_cases hl : hasPrefix n "loop" = true
    · rw [if_pos hl] at hok
      rcases List.mem_cons.mp hn with rfl | hn
      · rw [hloop] at hl; cases hl
      · exact ih m m1 hn hok
    · rw [if_neg hl] at hok
      obtain ⟨m0, h1, h2⟩ := andThen_ok hok
      by_cases hmem : name ∈ rest
      · exact ih m0 m1 hmem h2
      · rcases List.mem_cons.mp hn with rfl | hn
        · have hlink := createBlockDevice_link ht h1
          have := createBlockDevicesLoop_rel symlinksStay_stepRel h buildDir rest m0
          rw [h2] at this
          exact this _ target hlink
        · exact absurd hn hmem

/-- C6. For every name listed in `/sys/block` that does not start with `loop`
and whose symlink target string is `target`: after `createBlockDevices`
succeeds, the path `buildDir/sys/block/<name>` of the scratch tree is a symlink
whose target is exactly `target`, the string `Readlink` returned. -/
theorem createBlockDevices_link_target_verbatim (h : Host) (buildDir : String)
    (m : Mirror) (devLinks : List String) (name target : String)
    (hlist : h.readDir "/sys/block" = some devLinks) (hname : name ∈ devLinks)
    (hloop : hasPrefix name "loop" = false)
    (htarget : h.readlink (join ["/sys/block", name]) = some target)
    (hok : (createBlockDevices h buildDir m).isOk = true) :
    (createBlockDevices h buildDir m).mirror.tree (join [buildDir, "sys/block", name])
      = some (SNode.symlink target) := by
  have hok2 := isOk_eq_ok hok
  generalize (createBlockDevices h buildDir m).mirror = m1 at hok2 ⊢
  unfold createBlockDevices at hok2
  rw [hlist] at hok2
  exact createBlockDevicesLoop_link h buildDir name target hloop htarget devLinks m m1
    hname hok2

/-- Witness for C6: on `sampleHost` the mirror of `sda` is a symlink with the
relative target read from `/sys/block/sda`. -/
theorem createBlockDevices_link_target_verbatim_witness :
    sampleHost.readDir "/sys/block" = some ["loop0", "sda"] ∧
    hasPrefix "sda" "loop" = false ∧
    sampleHost.readlink (join ["/sys/block", "sda"]) = some "../devices/pci0/block/sda" ∧
    (createBlockDevices sampleHost "/tmp/s" skeletonMirror).isOk = true ∧
    (createBlockDevices sampleHost "/tmp/s" skeletonMirror).mirror.tree "/tmp/s/sys/block/sda"
      = some (SNode.symlink "../devices/pci0/block/sda") :=
  ⟨by decide, by decide, by decide, by decide,
   createBlockDevices_link_target_verbatim sampleHost "/tmp/s" skeletonMirror
     ["loop0", "sda"] "sda" "../devices/pci0/block/sda" (by decide) (by decide)
     (by decide) (by decide) (by decide)⟩

theorem adds_refl (S : String → Prop) (m : Mirror) : Adds S m m :=
  fun _ hq => Or.inl hq

theorem adds_trans {S : String → Prop} {a b c : Mirror} (h1 : Adds S a b)
    (h2 : Adds S b c) : Adds S a c := by
  intro q hq
  rcases h2 q hq with h | h
  · exact h1 q h
  · exact Or.inr h

theorem adds_mono {S S1 : String → Prop} {a b : Mirror} (hs : ∀ q, S q → S1 q)
    (h : Adds S a b) : Adds S1 a b := by
  intro q hq
  rcases h q hq with h | h
  · exact Or.inl h
  · exact Or.inr (hs q h)

theorem adds_andThen {S : String → Prop} {m : Mirror} {r : Result}
    {k : Mirror → Result} (h1 : Adds S m r.mirror)
    (h2 : ∀ m1, Adds S m1 (k m1).mirror) : Adds S m (r.andThen k).mirror := by
  cases r with
  | ok m1 => exact adds_trans h1 (h2 m1)
  | fail m1 => exact h1
  | beyond m1 => exact h1

theorem adds_mkdirAll (p : String) (m : Mirror) :
    Adds (fun q => q ∈ pathPrefixes p) m (m.run (mkdirAll p)).mirror := by
  unfold Mirror.run
  cases hop : mkdirAll p m.tree with
  | failed => exact adds_refl _ m
  | beyond => exact adds_refl _ m
  | done t =>
    intro q hq
    rcases (mkdirAll_frame hop).2 q with h1 | ⟨_, _, h3⟩
    · left
      have hq2 : t q ≠ none := hq
      rw [h1] at hq2; exact hq2
    · exact Or.inr h3

theorem adds_symlink (target p : String) (m : Mirror) :
    Adds (fun q => q = p) m (m.run (symlink target p)).mirror := by
  unfold Mirror.run
  cases hop : symlink target p m.tree with
  | failed => exact adds_refl _ m
  | beyond => exact adds_refl _ m
  | done t =>
    intro q hq
    obtain ⟨_, rfl⟩ := symlink_eq hop
    by_cases hqp : q = p
    · exact Or.inr hqp
    · left
      have hq2 : (m.tree.set p (SNode.symlink target)) q ≠ none := hq
      simpa [Tree.set, hqp] using hq2

theorem adds_copyPseudoFile (h : Host) (path targetPath : String) (m : Mirror) :
    Adds (fun q => q = targetPath) m (copyPseudoFile h path targetPath m).mirror := by
  unfold copyPseudoFile
  cases h.readFile path with
  | none => exact adds_refl _ m
  | some buf =>
    simp only
    unfold Mirror.run
    cases hop : writeFile targetPath buf m.tree with
    | failed => exact adds_refl _ m
    | beyond => exact adds_refl _ m
    | done t =>
      intro q hq
      obtain ⟨_, rfl⟩ := writeFile_eq hop
      by_cases hqp : q = targetPath
      · exact Or.inr hqp
      · left
        have hq2 : (m.tree.set targetPath (SNode.file buf)) q ≠ none := hq
        simpa [Tree.set, hqp] using hq2

theorem adds_createPartitionDirLoop (h : Host) (b s : String) :
    ∀ (names : List String) (m : Mirror),
      Adds (fun q => ∃ g ∈ names, kindAt h (join [s, g]) FileKind.regular ∧ q = join [b, g])
        m (createPartitionDirLoop h b s names m).mirror := by
  intro names
  induction names with
  | nil => intro m; exact adds_refl _ m
  | cons n rest ih =>
    intro m
    have ih2 : ∀ m1, Adds (fun q => ∃ g ∈ n :: rest,
        kindAt h (join [s, g]) FileKind.regular ∧ q = join [b, g])
        m1 (createPartitionDirLoop h b s rest m1).mirror :=
      fun m1 => adds_mono (fun q ⟨g, hg, hk⟩ => ⟨g, List.mem_cons_of_mem _ hg, hk⟩) (ih m1)
    rw [createPartitionDirLoop]
    cases hls : h.lstat (join [s, n]) with
    | none => exact adds_refl _ m
    | some fi =>
      simp only
      by_cases hk1 : fi.kind = FileKind.symlink
      · rw [if_pos hk1]; exact ih2 m
      · rw [if_neg hk1]
        by_cases hk2 : fi.kind = FileKind.directory
        · rw [if_pos hk2]; exact ih2 m
        · rw [if_neg hk2]
          by_cases hk3 : fi.kind = FileKind.regular
          · rw [if_pos hk3]
            refine adds_andThen (adds_mono (fun q hq => ?_)
              (adds_copyPseudoFile h _ _ m)) ih2
            exact ⟨n, List.mem_cons_self _ _, ⟨fi, hls, hk3⟩, hq⟩
          · rw [if_neg hk3]; exact ih2 m

theorem adds_createPartitionDir (h : Host) (b s : String) (m : Mirror) :
    Adds (PartitionPaths h b s) m (createPartitionDir h b s m).mirror := by
  unfold createPartitionDir
  cases hl : h.readDir s with
  | none => exact adds_refl _ m
  | some names =>
    exact adds_mono (fun q hq => ⟨names, hl, hq⟩)
      (adds_createPartitionDirLoop h b s names m)

theorem adds_createBlockDeviceDirLoop (h : Host) (b s : String) :
    ∀ (names : List String) (m : Mirror),
      Adds (fun q => ∃ f ∈ names,
          (kindAt h (join [s, f]) FileKind.regular ∧ q = join [b, f]) ∨
          (kindAt h (join [s, f]) FileKind.directory ∧ hasPrefix f (base s) = true ∧
            (q ∈ pathPrefixes (join [b, f]) ∨
              PartitionPaths h (join [b, f]) (join [s, f]) q)))
        m (createBlockDeviceDirLoop h b s names m).mirror := by
  intro names
  induction names with
  | nil => intro m; exact adds_refl _ m
  | cons n rest ih =>
    intro m
    have ih2 : ∀ m1, Adds (fun q => ∃ f ∈ n :: rest,
          (kindAt h (join [s, f]) FileKind.regular ∧ q = join [b, f]) ∨
          (kindAt h (join [s, f]) FileKind.directory ∧ hasPrefix f (base s) = true ∧
            (q ∈ pathPrefixes (join [b, f]) ∨
              PartitionPaths h (join [b, f]) (join [s, f]) q)))
        m1 (createBlockDeviceDirLoop h b s rest m1).mirror :=
      fun m1 => adds_mono (fun q ⟨g, hg, hk⟩ => ⟨g, List.mem_cons_of_mem _ hg, hk⟩) (ih m1)
    rw [createBlockDeviceDirLoop]
    cases hls : h.lstat (join [s, n]) with
    | none => exact adds_refl _ m
    | some fi =>
      simp only
      by_cases hk1 : fi.kind = FileKind.symlink
      · rw [if_pos hk1]; exact ih2 m
      · rw [if_neg hk1]
        by_cases hk2 : fi.kind = FileKind.directory
        · rw [if_pos hk2]
          by_cases hpre : hasPrefix n (base s) = true
          · rw [if_pos hpre]
            refine adds_andThen (adds_andThen (adds_mono (fun q hq => ?_)
              (adds_mkdirAll _ m)) (fun m1 => adds_mono (fun q hq => ?_)
              (adds_createPartitionDir h _ _ m1))) ih2
            · exact ⟨n, List.mem_cons_self _ _, Or.inr ⟨⟨fi, hls, hk2⟩, hpre, Or.inl hq⟩⟩
            · exact ⟨n, List.mem_cons_self _ _, Or.inr ⟨⟨fi, hls, hk2⟩, hpre, Or.inr hq⟩⟩
          · rw [if_neg hpre]; exact ih2 m
        · rw [if_neg hk2]
          by_cases hk3 : fi.kind = FileKind.regular
          · rw [if_pos hk3]
            refine adds_andThen (adds_mono (fun q hq => ?_)
              (adds_copyPseudoFile h _ _ m)) ih2
            exact ⟨n, List.mem_cons_self _ _, Or.inl ⟨⟨fi, hls, hk3⟩, hq⟩⟩
          · rw [if_neg hk3]; exact ih2 m

theorem adds_createBlockDeviceDir (h : Host) (b s : String) (m : Mirror) :
    Adds (DeviceDirPaths h b s) m (createBlockDeviceDir h b s m).mirror := by
  unfold createBlockDeviceDir
  cases hl : h.readDir s with
  | none => exact adds_refl _ m
  | some names =>
    simp only
    refine adds_andThen (adds_mono (fun q hq => Or.inl ⟨names, hl, hq⟩)
      (adds_createBlockDeviceDirLoop h b s names m)) (fun m1 => ?_)
    unfold createQueueRotational
    exact adds_andThen (adds_mono (fun q hq => Or.inr (Or.inl hq)) (adds_mkdirAll _ m1))
      (fun m2 => adds_mono (fun q hq => Or.inr (Or.inr hq))
        (adds_copyPseudoFile h _ _ m2))

theorem adds_createBlockDevicesLoop (h : Host) (buildDir : String) :
    ∀ (names : List String) (m : Mirror),
      Adds (fun q => ∃ dname ∈ names, hasPrefix dname "loop" = false ∧
          ∃ target, h.readlink (join ["/sys/block", dname]) = some target ∧
            (q = join [buildDir, "sys/block", dname] ∨
             q ∈ pathPrefixes (join [buildDir, "sys/block", trimPrefix target "/"]) ∨
             DeviceDirPaths h (join [buildDir, "sys/block", trimPrefix target "/"])
               (join ["/sys/block", trimPrefix target "/"]) q))
        m (createBlockDevicesLoop h buildDir names m).mirror := by
  intro names
  induction names with
  | nil => intro m; exact adds_refl _ m
  | cons n rest ih =>
    intro m
    have ih2 : ∀ m1, Adds (fun q => ∃ dname ∈ n :: rest, hasPrefix dname "loop" = false ∧
          ∃ target, h.readlink (join ["/sys/block", dname]) = some target ∧
            (q = join [buildDir, "sys/block", dname] ∨
             q ∈ pathPrefixes (join [buildDir, "sys/block", trimPrefix target "/"]) ∨
             DeviceDirPaths h (join [buildDir, "sys/block", trimPrefix target "/"])
               (join ["/sys/block", trimPrefix target "/"]) q))
        m1 (createBlockDevicesLoop h buildDir rest m1).mirror :=
      fun m1 => adds_mono (fun q ⟨g, hg, hk⟩ => ⟨g, List.mem_cons_of_mem _ hg, hk⟩) (ih m1)
    rw [createBlockDevicesLoop]
    by_cases hl : hasPrefix n "loop" = true
    · rw [if_pos hl]; exact ih2 m
    · rw [if_neg hl]
      have hl2 : hasPrefix n "loop" = false := by simpa using hl
      refine adds_andThen ?_ ih2
      unfold createBlockDevice
      cases ht : h.readlink (join ["/sys/block", n]) with
      | none => exact adds_refl _ m
      | some target =>
        simp only
        exact adds_andThen
          (adds_andThen
            (adds_mono (fun q hq => ⟨n, List.mem_cons_self _ _, hl2, target, ht,
              Or.inr (Or.inl hq)⟩) (adds_mkdirAll _ m))
            (fun m1 => adds_mono (fun q hq => ⟨n, List.mem_cons_self _ _, hl2, target, ht,
              Or.inl hq⟩) (adds_symlink _ _ m1)))
          (fun m2 => adds_mono (fun q hq => ⟨n, List.mem_cons_self _ _, hl2, target, ht,
              Or.inr (Or.inr hq)⟩) (adds_createBlockDeviceDir h _ _ m2))

/-- For every state of `/sys/block` and every starting state of the scratch
tree, whether or not `createBlockDevices` succeeds, every path it adds to the
scratch tree is accounted for by a name of `/sys/block` that does not start
with `loop`: it is that device's link, its device directory or a directory
leading there, the copy of a listed entry that `Lstat` reports a regular
file, a partition directory made for a listed entry that `Lstat` reports a
directory, the `queue` directory or the `queue/rotational` file. -/
theorem createBlockDevices_adds_only_accounted_paths (h : Host) (buildDir : String)
    (m : Mirror) (q : String)
    (hq : (createBlockDevices h buildDir m).mirror.tree q ≠ none) :
    m.tree q ≠ none ∨ MirrorPaths h buildDir q := by
  have key : Adds (MirrorPaths h buildDir) m (createBlockDevices h buildDir m).mirror := by
    unfold createBlockDevices
    cases hl : h.readDir "/sys/block" with
    | none => exact adds_refl _ m
    | some names =>
      exact adds_mono (fun q hq => ⟨names, hl, hq⟩)
        (adds_createBlockDevicesLoop h buildDir names m)
  exact key q hq

/-- On `sampleHost` the copy of the attribute `size` of `sda` is accounted
for, and the mirror holds no path for `loop0` and no copy of the `subsystem`
symlinks of the device and partition directories. -/
theorem createBlockDevices_sampleHost_paths :
    (createBlockDevices sampleHost "/tmp/s" skeletonMirror).mirror.tree
      "/tmp/s/sys/devices/pci0/block/sda/size" ≠ none ∧
    (skeletonMirror.tree "/tmp/s/sys/devices/pci0/block/sda/size" ≠ none ∨
      MirrorPaths sampleHost "/tmp/s" "/tmp/s/sys/devices/pci0/block/sda/size") ∧
    (createBlockDevices sampleHost "/tmp/s" skeletonMirror).mirror.tree
      "/tmp/s/sys/block/loop0" = none ∧
    (createBlockDevices sampleHost "/tmp/s" skeletonMirror).mirror.tree
      "/tmp/s/sys/devices/virtual/block/loop0" = none ∧
    (createBlockDevices sampleHost "/tmp/s" skeletonMirror).mirror.tree
      "/tmp/s/sys/devices/pci0/block/sda/subsystem" = none ∧
    (createBlockDevices sampleHost "/tmp/s" skeletonMirror).mirror.tree
      "/tmp/s/sys/devices/pci0/block/sda/sda1/subsystem" = none :=
  ⟨by decide,
   createBlockDevices_adds_only_accounted_paths sampleHost "/tmp/s" skeletonMirror
     "/tmp/s/sys/devices/pci0/block/sda/size" (by decide),
   by decide, by decide, by decide, by decide⟩

theorem dirsStay_stepRel :
    StepRel (fun m m1 : Mirror => ∀ q,
      m.tree q = some SNode.dir → m1.tree q = some SNode.dir) where
  refl := fun _ _ h => h
  trans := fun _ _ _ h1 h2 q h => h2 q (h1 q h)
  prim := by
    intro m op t hp hop q h
    rcases prim_frame hp hop q with h1 | h1 | ⟨c, h1⟩
    · show t q = _
      rw [h1]; exact h
    · rw [h1] at h; cases h
    · rw [h1] at h; cases h

theorem holdsCopy_not_dir {h : Host} {opts : CopyFileOptions} {destDir : String}
    {t : Tree} {p : String} (hc : HoldsCopy h opts destDir t p) :
    t (join [destDir, p]) ≠ some SNode.dir ∧ t (join [destDir, p]) ≠ none := by
  obtain ⟨node, he, ht⟩ := hc
  unfold expectedNode at he
  cases hl : h.lstat p with
  | none => rw [hl] at he; cases he
  | some fi =>
    rw [hl] at he
    simp only at he
    split at he
    · cases hr : h.readlink p with
      | none => rw [hr] at he; cases he
      | some target =>
        rw [hr] at he
        injection he with he
        rw [ht, ← he]
        exact ⟨by simp, by simp⟩
    · cases hr : h.readFile p with
      | none => rw [hr] at he; cases he
      | some c =>
        rw [hr] at he
        injection he with he
        rw [ht, ← he]
        exact ⟨by simp, by simp⟩

theorem holdsCopy_mkdirAll {h : Host} {opts : CopyFileOptions} {destDir : String}
    {t t1 : Tree} {d p : String} (hm : mkdirAll d t = Step.done t1)
    (hc : HoldsCopy h opts destDir t p) : HoldsCopy h opts destDir t1 p := by
  obtain ⟨node, he, ht⟩ := hc
  refine ⟨node, he, ?_⟩
  rcases (mkdirAll_frame hm).2 (join [destDir, p]) with h1 | ⟨h1, _, _⟩
  · rw [h1]; exact ht
  · rw [h1] at ht; cases ht

theorem copyPathInto_spec (h : Host) (destDir : String) (opts : CopyFileOptions)
    (M : String → Prop) (p : String) (m m1 : Mirror)
    (hinj : ∀ p1, M p1 → join [destDir, p1] = join [destDir, p] → p1 = p)
    (hok : copyPathInto h destDir opts p m = Result.ok m1) :
    (∀ p1, M p1 → HoldsCopy h opts destDir m.tree p1 →
      HoldsCopy h opts destDir m1.tree p1) ∧
    HoldsCopy h opts destDir m1.tree p ∧
    ∀ q ∈ pathPrefixes (join [destDir, dir p]), m1.tree q = some SNode.dir := by
  unfold copyPathInto at hok
  obtain ⟨ma, h1, h2⟩ := andThen_ok hok
  obtain ⟨ta, hmk, rfl⟩ := run_ok h1
  obtain ⟨hdirs, _⟩ := mkdirAll_frame hmk
  cases hl : h.lstat p with
  | none => rw [hl] at h2; cases h2
  | some fi =>
    rw [hl] at h2
    simp only at h2
    by_cases hs : opts.IsSymlink p fi = true
    · rw [if_pos hs] at h2
      unfold copyLink at h2
      cases hr : h.readlink p with
      | none => rw [hr] at h2; cases h2
      | some target =>
        rw [hr] at h2
        obtain ⟨tb, hsym, rfl⟩ := run_ok h2
        obtain ⟨hnone, rfl⟩ := symlink_eq hsym
        have hexp : expectedNode h opts p = some (SNode.symlink target) := by
          simp [expectedNode, hl, hs, hr]
        refine ⟨?_, ⟨_, hexp, by simp [Tree.set]⟩, ?_⟩
        · intro p1 _ hc
          obtain ⟨node, he, ht⟩ := holdsCopy_mkdirAll hmk hc
          refine ⟨node, he, ?_⟩
          by_cases hq : join [destDir, p1] = join [destDir, p]
          · rw [hq] at ht
            have hn : ta (join [destDir, p]) = none := hnone
            rw [hn] at ht; cases ht
          · simpa [Tree.set, hq] using ht
        · intro q hq
          have hd := hdirs q hq
          by_cases hqp : q = join [destDir, p]
          · subst hqp
            have hn : ta (join [destDir, p]) = none := hnone
            rw [hn] at hd; cases hd
          · simpa [Tree.set, hqp] using hd
    · rw [if_neg hs] at h2
      unfold copyPseudoFile at h2
      cases hr : h.readFile p with
      | none => rw [hr] at h2; cases h2
      | some buf =>
        rw [hr] at h2
        obtain ⟨tb, hwr, rfl⟩ := run_ok h2
        obtain ⟨hold, rfl⟩ := writeFile_eq hwr
        have hexp : expectedNode h opts p = some (SNode.file buf) := by
          simp [expectedNode, hl, hs, hr]
        have hcp : HoldsCopy h opts destDir
            (ta.set (join [destDir, p]) (SNode.file buf)) p :=
          ⟨_, hexp, by simp [Tree.set]⟩
        refine ⟨?_, hcp, ?_⟩
        · intro p1 hM hc
          by_cases hq : join [destDir, p1] = join [destDir, p]
          · rw [hinj p1 hM hq]; exact hcp
          · obtain ⟨node, he, ht⟩ := holdsCopy_mkdirAll hmk hc
            exact ⟨node, he, by simpa [Tree.set, hq] using ht⟩
        · intro q hq
          have hd := hdirs q hq
          by_cases hqp : q = join [destDir, p]
          · subst hqp
            have hold2 : ta (join [destDir, p]) = none ∨
                ∃ c, ta (join [destDir, p]) = some (SNode.file c) := hold
            rcases hold2 with hn | ⟨c, hn⟩
            · rw [hn] at hd; cases hd
            · rw [hn] at hd; cases hd
          · simpa [Tree.set, hqp] using hd

theorem copyFileTreeInto_spec (h : Host) (destDir : String) (opts : CopyFileOptions)
    (M : String → Prop)
    (hinj : ∀ p1 p2, M p1 → M p2 → join [destDir, p1] = join [destDir, p2] → p1 = p2) :
    ∀ (paths : List String) (m m1 : Mirror), (∀ p ∈ paths, M p) →
      copyFileTreeInto h destDir opts paths m = Result.ok m1 →
      (∀ p1, M p1 → HoldsCopy h opts destDir m.tree p1 →
        HoldsCopy h opts destDir m1.tree p1) ∧
      ∀ p ∈ paths, HoldsCopy h opts destDir m1.tree p ∧
        ∀ q ∈ pathPrefixes (join [destDir, dir p]), m1.tree q = some SNode.dir := by
  intro paths
  induction paths with
  | nil =>
    intro m m1 _ hok
    rw [copyFileTreeInto] at hok
    injection hok with hok
    subst hok
    exact ⟨fun _ _ hc => hc, fun p hp => absurd hp (List.not_mem_nil p)⟩
  | cons p rest ih =>
    intro m m1 hM hok
    rw [copyFileTreeInto] at hok
    obtain ⟨m0, h1, h2⟩ := andThen_ok hok
    have hMp : M p := hM p (List.mem_cons_self _ _)
    obtain ⟨hkeep0, hcp0, hd0⟩ := copyPathInto_spec h destDir opts M p m m0
      (fun p1 hp1 he => hinj p1 p hp1 hMp he) h1
    obtain ⟨hkeep, hall⟩ := ih m0 m1 (fun q hq => hM q (List.mem_cons_of_mem _ hq)) h2
    have hdirs := copyFileTreeInto_rel dirsStay_stepRel h destDir opts rest m0
    rw [h2] at hdirs
    refine ⟨fun p1 hp1 hc => hkeep p1 hp1 (hkeep0 p1 hp1 hc), ?_⟩
    intro q hq
    rcases List.mem_cons.mp hq with rfl | hq
    · exact ⟨hkeep q hMp hcp0, fun r hr => hdirs r (hd0 r hr)⟩
    · exact hall q hq

theorem copyFilesLoop_spec (h : Host) (destDir : String) (opts : CopyFileOptions)
    (M : String → Prop)
    (hinj : ∀ p1 p2, M p1 → M p2 → join [destDir, p1] = join [destDir, p2] → p1 = p2) :
    ∀ (specs : List String) (m m1 : Mirror),
      (∀ spec ∈ specs, ∀ matched, h.glob spec = some matched → ∀ p ∈ matched, M p) →
      copyFilesLoop h destDir opts specs m = Result.ok m1 →
      (∀ p1, M p1 → HoldsCopy h opts destDir m.tree p1 →
        HoldsCopy h opts destDir m1.tree p1) ∧
      ∀ spec ∈ specs, ∀ matched, h.glob spec = some matched → ∀ p ∈ matched,
        HoldsCopy h opts destDir m1.tree p ∧
        ∀ q ∈ pathPrefixes (join [destDir, dir p]), m1.tree q = some SNode.dir := by
  intro specs
  induction specs with
  | nil =>
    intro m m1 _ hok
    rw [copyFilesLoop] at hok
    injection hok with hok
    subst hok
    exact ⟨fun _ _ hc => hc, fun s hs => absurd hs (List.not_mem_nil s)⟩
  | cons spec rest ih =>
    intro m m1 hM hok
    rw [copyFilesLoop] at hok
    cases hg : h.glob spec with
    | none => rw [hg] at hok; cases hok
    | some matched =>
      rw [hg] at hok
      simp only at hok
      obtain ⟨m0, h1, h2⟩ := andThen_ok hok
      obtain ⟨hkeep0, hall0⟩ := copyFileTreeInto_spec h destDir opts M hinj matched _ m0
        (hM spec (List.mem_cons_self _ _) matched hg) h1
      obtain ⟨hkeep, hall⟩ := ih m0 m1
        (fun s hs => hM s (List.mem_cons_of_mem _ hs)) h2
      have hdirs : ∀ q, m0.tree q = some SNode.dir → m1.tree q = some SNode.dir := by
        have : ∀ (ss : List String) (ma : Mirror) (q : String),
            ma.tree q = some SNode.dir →
            (copyFilesLoop h destDir opts ss ma).mirror.tree q = some SNode.dir := by
          intro ss
          induction ss with
          | nil => intro ma q hq; exact hq
          | cons s ss ihs =>
            intro ma q hq
            rw [copyFilesLoop]
            cases h.glob s with
            | none => exact hq
            | some mt =>
              simp only
              have hstep := copyFileTreeInto_rel dirsStay_stepRel h destDir opts mt
                { ma with globbed := ma.globbed ++ [s] } q hq
              cases hr : copyFileTreeInto h destDir opts mt
                  { ma with globbed := ma.globbed ++ [s] } with
              | fail mb => rw [hr] at hstep; exact hstep
              | beyond mb => rw [hr] at hstep; exact hstep
              | ok mb => rw [hr] at hstep; exact ihs mb q hstep
        intro q hq
        have := this rest m0 q hq
        rw [h2] at this
        exact this
      refine ⟨fun p1 hp1 hc => hkeep p1 hp1 (hkeep0 p1 hp1 hc), ?_⟩
      intro s hs mt hmt p hp
      rcases List.mem_cons.mp hs with rfl | hs
      · rw [hg] at hmt
        injection hmt with hmt
        subst hmt
        obtain ⟨hc, hd⟩ := hall0 p hp
        exact ⟨hkeep p (hM s (List.mem_cons_self _ _) matched hg p hp) hc,
          fun q hq => hdirs q (hd q hq)⟩
      · exact hall s hs mt hmt p hp

theorem adds_copyFileTreeInto (h : Host) (destDir : String) (opts : CopyFileOptions) :
    ∀ (paths : List String) (m : Mirror),
      Adds (fun q => ∃ p ∈ paths, q = join [destDir, p] ∨
          q ∈ pathPrefixes (join [destDir, dir p]))
        m (copyFileTreeInto h destDir opts paths m).mirror := by
  intro paths
  induction paths with
  | nil => intro m; exact adds_refl _ m
  | cons p rest ih =>
    intro m
    rw [copyFileTreeInto]
    refine adds_andThen ?_ (fun m1 => adds_mono
      (fun q ⟨g, hg, hk⟩ => ⟨g, List.mem_cons_of_mem _ hg, hk⟩) (ih m1))
    unfold copyPathInto
    refine adds_andThen (adds_mono (fun q hq => ⟨p, List.mem_cons_self _ _, Or.inr hq⟩)
      (adds_mkdirAll _ m)) (fun m1 => ?_)
    cases h.lstat p with
    | none => exact adds_refl _ m1
    | some fi =>
      simp only
      split
      · unfold copyLink
        cases h.readlink p with
        | none => exact adds_refl _ m1
        | some target =>
          exact adds_mono (fun q hq => ⟨p, List.mem_cons_self _ _, Or.inl hq⟩)
            (adds_symlink _ _ m1)
      · exact adds_mono (fun q hq => ⟨p, List.mem_cons_self _ _, Or.inl hq⟩)
          (adds_copyPseudoFile h _ _ m1)

theorem adds_copyFilesLoop (h : Host) (destDir : String) (opts : CopyFileOptions) :
    ∀ (specs : List String) (m : Mirror),
      Adds (fun q => ∃ p, Matched h specs p ∧ (q = join [destDir, p] ∨
          q ∈ pathPrefixes (join [destDir, dir p])))
        m (copyFilesLoop h destDir opts specs m).mirror := by
  intro specs
  induction specs with
  | nil => intro m; exact adds_refl _ m
  | cons spec rest ih =>
    intro m
    have ih2 : ∀ m1, Adds (fun q => ∃ p, Matched h (spec :: rest) p ∧
        (q = join [destDir, p] ∨ q ∈ pathPrefixes (join [destDir, dir p])))
        m1 (copyFilesLoop h destDir opts rest m1).mirror :=
      fun m1 => adds_mono (fun q ⟨p, ⟨s, hs, mt, hmt, hp⟩, hk⟩ =>
        ⟨p, ⟨s, List.mem_cons_of_mem _ hs, mt, hmt, hp⟩, hk⟩) (ih m1)
    rw [copyFilesLoop]
    cases hg : h.glob spec with
    | none => intro q hq; exact Or.inl hq
    | some matched =>
      simp only
      refine adds_andThen ?_ ih2
      have := adds_copyFileTreeInto h destDir opts matched
        { m with globbed := m.globbed ++ [spec] }
      intro q hq
      rcases this q hq with h1 | ⟨p, hp, hk⟩
      · exact Or.inl h1
      · exact Or.inr ⟨p, ⟨spec, List.mem_cons_self _ _, matched, hg, hp⟩, hk⟩

theorem splitSep_ne_nil (s : List Char) : splitSep s ≠ [] := by
  cases s with
  | nil => simp [splitSep]
  | cons c cs =>
    rw [splitSep]
    split
    · simp
    · split <;> simp

theorem splitSep_append (a b : List Char) :
    splitSep (a ++ '/' :: b) = splitSep a ++ splitSep b := by
  induction a with
  | nil => simp [splitSep]
  | cons c a ih =>
    rw [List.cons_append, splitSep, ih]
    by_cases hc : c = '/'
    · simp [hc, splitSep]
    · rw [if_neg hc]
      conv_rhs => rw [splitSep, if_neg hc]
      cases hs : splitSep a with
      | nil => exact absurd hs (splitSep_ne_nil a)
      | cons x xs => simp

theorem splitSep_noSep (s : List Char) (hs : '/' ∉ s) : splitSep s = [s] := by
  induction s with
  | nil => rfl
  | cons c cs ih =>
    have hc : c ≠ '/' := fun h => hs (by simp [h])
    have hcs : '/' ∉ cs := fun h => hs (List.mem_cons_of_mem _ h)
    rw [splitSep, if_neg hc, ih hcs]

theorem splitSep_joinSep (comps : List (List Char)) (hne : comps ≠ [])
    (hv : ∀ c ∈ comps, '/' ∉ c) : splitSep (joinSep comps) = comps := by
  induction comps with
  | nil => exact absurd rfl hne
  | cons x rest ih =>
    cases rest with
    | nil => simpa [joinSep] using splitSep_noSep x (hv x (by simp))
    | cons y r =>
      rw [joinSep, splitSep_append, splitSep_noSep x (hv x (by simp)),
        ih (by simp) (fun c hc => hv c (List.mem_cons_of_mem _ hc))]
      rfl

theorem splitSep_pieces (s : List Char) : ∀ c ∈ splitSep s, '/' ∉ c := by
  induction s with
  | nil => intro c hc; simp [splitSep] at hc; simp [hc]
  | cons a s ih =>
    intro c hc
    rw [splitSep] at hc
    by_cases ha : a = '/'
    · rw [if_pos ha] at hc
      rcases List.mem_cons.mp hc with rfl | hc
      · simp
      · exact ih c hc
    · rw [if_neg ha] at hc
      cases hs : splitSep s with
      | nil => exact absurd hs (splitSep_ne_nil s)
      | cons x xs =>
        rw [hs] at hc ih
        rcases List.mem_cons.mp hc with rfl | hc
        · intro hm
          rcases List.mem_cons.mp hm with h1 | h1
          · exact ha h1.symm
          · exact ih x (by simp) h1
        · exact ih c (List.mem_cons_of_mem _ hc)

theorem cleanStep_valid (stack : List (List Char)) (c : List Char)
    (hs : ∀ x ∈ stack, ValidName x) (hc : '/' ∉ c) :
    ∀ x ∈ cleanStep true stack c, ValidName x := by
  unfold cleanStep
  by_cases h1 : c = [] ∨ c = ['.']
  · rw [if_pos h1]; exact hs
  · rw [if_neg h1]
    by_cases h2 : c = ['.', '.']
    · rw [if_pos h2]
      cases stack with
      | nil => simp
      | cons top rest =>
        simp only
        have htop := hs top (by simp)
        rw [if_neg htop.2.2.1]
        exact fun x hx => hs x (List.mem_cons_of_mem _ hx)
    · rw [if_neg h2]
      intro x hx
      rcases List.mem_cons.mp hx with rfl | hx
      · exact ⟨fun h => h1 (Or.inl h), fun h => h1 (Or.inr h), h2, hc⟩
      · exact hs x hx

theorem foldl_cleanStep_valid (pieces : List (List Char)) :
    ∀ (stack : List (List Char)), (∀ x ∈ stack, ValidName x) →
      (∀ c ∈ pieces, '/' ∉ c) →
      ∀ x ∈ pieces.foldl (cleanStep true) stack, ValidName x := by
  induction pieces with
  | nil => intro stack hs _; exact hs
  | cons c rest ih =>
    intro stack hs hp
    rw [List.foldl_cons]
    exact ih _ (cleanStep_valid stack c hs (hp c (by simp)))
      (fun x hx => hp x (List.mem_cons_of_mem _ hx))

theorem foldl_cleanStep_push (r : Bool) (names : List (List Char))
    (hv : ∀ c ∈ names, ValidName c) :
    ∀ (stack : List (List Char)),
      names.foldl (cleanStep r) stack = names.reverse ++ stack := by
  induction names with
  | nil => intro stack; rfl
  | cons c rest ih =>
    intro stack
    have hc := hv c (by simp)
    have hstep : cleanStep r stack c = c :: stack := by
      unfold cleanStep
      rw [if_neg (fun h => h.elim hc.1 hc.2.1), if_neg hc.2.2.1]
    rw [List.foldl_cons, hstep, ih (fun x hx => hv x (List.mem_cons_of_mem _ hx))]
    simp

theorem joinSep_append (a b : List (List Char)) (ha : a ≠ []) (hb : b ≠ []) :
    joinSep (a ++ b) = joinSep a ++ '/' :: joinSep b := by
  induction a with
  | nil => exact absurd rfl ha
  | cons x rest ih =>
    cases rest with
    | nil =>
      cases b with
      | nil => exact absurd rfl hb
      | cons y r => simp [joinSep]
    | cons y r =>
      have := ih (by simp)
      simp only [List.cons_append] at this ⊢
      rw [joinSep, this, joinSep]
      simp

theorem stripLeading_append (a b : List Char) : stripLeading (a ++ b) a = some b := by
  induction a with
  | nil => cases b <;> rfl
  | cons c a ih => simp [stripLeading, ih]

/-- A cleaned absolute path other than the root: `/` followed by plain names. -/
theorem clean_abs_shape (d : List Char) (hd : cleanChars d = d)
    (hr : d.head? = some '/') (hne : d ≠ ['/']) :
    ∃ comps, comps ≠ [] ∧ (∀ c ∈ comps, ValidName c) ∧ d = '/' :: joinSep comps := by
  have hshape : d = '/' :: joinSep (cleanComps d) := by
    conv_lhs => rw [← hd]
    unfold cleanChars
    rw [if_pos hr]
  refine ⟨cleanComps d, ?_, ?_, hshape⟩
  · intro hnil
    rw [hnil] at hshape
    exact hne (by simpa [joinSep] using hshape)
  · intro c hc
    unfold cleanComps at hc
    rw [hr] at hc
    simp only [decide_True, List.mem_reverse] at hc
    exact foldl_cleanStep_valid _ [] (fun x hx => absurd hx (List.not_mem_nil x))
      (splitSep_pieces d) c hc

theorem cleanChars_concat_abs (cd cp : List (List Char)) (hcd : cd ≠ []) (hcp : cp ≠ [])
    (hvd : ∀ c ∈ cd, ValidName c) (hvp : ∀ c ∈ cp, ValidName c) :
    cleanChars (('/' :: joinSep cd) ++ '/' :: ('/' :: joinSep cp)) =
      ('/' :: joinSep cd) ++ ('/' :: joinSep cp) := by
  have hsplit : splitSep (('/' :: joinSep cd) ++ '/' :: ('/' :: joinSep cp)) =
      ([] :: cd) ++ ([] :: cp) := by
    rw [splitSep_append]
    have h1 : splitSep ('/' :: joinSep cd) = [] :: cd := by
      rw [splitSep, if_pos rfl, splitSep_joinSep cd hcd (fun c hc => (hvd c hc).2.2.2)]
    have h2 : splitSep ('/' :: joinSep cp) = [] :: cp := by
      rw [splitSep, if_pos rfl, splitSep_joinSep cp hcp (fun c hc => (hvp c hc).2.2.2)]
    rw [h1, h2]
  have hcomps : cleanComps (('/' :: joinSep cd) ++ '/' :: ('/' :: joinSep cp)) = cd ++ cp := by
    unfold cleanComps
    rw [hsplit]
    simp only [List.cons_append, List.head?_cons, decide_True, List.foldl_cons,
      List.foldl_append]
    have e1 : cleanStep true [] [] = [] := by simp [cleanStep]
    rw [e1, foldl_cleanStep_push true cd hvd]
    have e2 : cleanStep true (cd.reverse ++ []) [] = cd.reverse ++ [] := by simp [cleanStep]
    rw [e2, foldl_cleanStep_push true cp hvp]
    simp
  unfold cleanChars
  rw [if_pos (by simp), hcomps, joinSep_append cd cp hcd hcp]
  simp

theorem cleanAbs_shape {p : String} (hp : CleanAbs p = true) :
    ∃ comps, comps ≠ [] ∧ (∀ c ∈ comps, ValidName c) ∧ p.data = '/' :: joinSep comps := by
  unfold CleanAbs at hp
  simp only [Bool.and_eq_true, decide_eq_true_eq] at hp
  obtain ⟨⟨h1, h2⟩, h3⟩ := hp
  have h1d : cleanChars p.data = p.data := congrArg String.data h1
  have h3d : p.data ≠ ['/'] := fun h => h3 (String.ext h)
  exact clean_abs_shape p.data h1d h2 h3d

/-- Stripping a cleaned absolute `destDir` from `Join(destDir, p)` gives back
the cleaned absolute path `p`. -/
theorem trimPrefix_join_cleanAbs (destDir p : String) (hd : CleanAbs destDir = true)
    (hp : CleanAbs p = true) : trimPrefix (join [destDir, p]) destDir = p := by
  obtain ⟨cd, hcd, hvd, hds⟩ := cleanAbs_shape hd
  obtain ⟨cp, hcp, hvp, hps⟩ := cleanAbs_shape hp
  have hne : destDir ≠ "" := by
    intro h
    rw [h] at hds
    cases hds
  have hj : (join [destDir, p]).data = destDir.data ++ p.data := by
    rw [join, if_neg hne]
    show cleanChars (joinSep [destDir.data, p.data]) = _
    rw [joinSep, joinSep, hds, hps]
    exact cleanChars_concat_abs cd cp hcd hcp hvd hvp
  unfold trimPrefix
  rw [hj, stripLeading_append]

theorem cleanChars_concat_rel (cd cp : List (List Char)) (hcd : cd ≠ []) (hcp : cp ≠ [])
    (hvd : ∀ c ∈ cd, ValidName c) (hvp : ∀ c ∈ cp, ValidName c) :
    cleanChars (('/' :: joinSep cd) ++ '/' :: joinSep cp) =
      ('/' :: joinSep cd) ++ '/' :: joinSep cp := by
  have hsplit : splitSep (('/' :: joinSep cd) ++ '/' :: joinSep cp) = ([] :: cd) ++ cp := by
    rw [splitSep_append]
    have h1 : splitSep ('/' :: joinSep cd) = [] :: cd := by
      rw [splitSep, if_pos rfl, splitSep_joinSep cd hcd (fun c hc => (hvd c hc).2.2.2)]
    rw [h1, splitSep_joinSep cp hcp (fun c hc => (hvp c hc).2.2.2)]
  have hcomps : cleanComps (('/' :: joinSep cd) ++ '/' :: joinSep cp) = cd ++ cp := by
    unfold cleanComps
    rw [hsplit]
    simp only [List.cons_append, List.head?_cons, decide_True, List.foldl_cons,
      List.foldl_append]
    have e1 : cleanStep true [] [] = [] := by simp [cleanStep]
    rw [e1, foldl_cleanStep_push true cd hvd, foldl_cleanStep_push true cp hvp]
    simp
  unfold cleanChars
  rw [if_pos (by simp), hcomps, joinSep_append cd cp hcd hcp]
  simp

theorem absShape_ne_empty {B : String} (hB : AbsShape B) : B ≠ "" := by
  obtain ⟨cb, _, _, hs⟩ := hB
  intro h
  rw [h] at hs
  cases hs

theorem join_shape {B f : String} (hB : AbsShape B) (hf : ValidName f.data) :
    (join [B, f]).data = B.data ++ '/' :: f.data ∧ AbsShape (join [B, f]) := by
  have hne := absShape_ne_empty hB
  obtain ⟨cb, hcb, hvb, hs⟩ := hB
  have hj : (join [B, f]).data = B.data ++ '/' :: f.data := by
    rw [join, if_neg hne]
    show cleanChars (joinSep [B.data, f.data]) = _
    rw [joinSep, joinSep, hs]
    have := cleanChars_concat_rel cb [f.data] hcb (by simp) hvb
      (fun c hc => by rw [List.mem_singleton.mp hc]; exact hf)
    simpa [joinSep] using this
  refine ⟨hj, cb ++ [f.data], by simp, ?_, ?_⟩
  · intro c hc
    rcases List.mem_append.mp hc with h1 | h1
    · exact hvb c h1
    · rw [List.mem_singleton.mp h1]; exact hf
  · rw [hj, hs, joinSep_append cb [f.data] hcb (by simp)]
    simp [joinSep]

theorem join_inj_last {B f g : String} (hB : AbsShape B) (hf : ValidName f.data)
    (hg : ValidName g.data) (he : join [B, f] = join [B, g]) : f = g := by
  have h1 := (join_shape hB hf).1
  have h2 := (join_shape hB hg).1
  rw [he, h2] at h1
  have := List.append_cancel_left h1
  injection this with _ h3
  exact String.ext h3.symm

theorem pathPrefixesFrom_append (a b : List Char) :
    ∀ pre : List Char, pre ++ a ≠ [] →
      pathPrefixesFrom pre (a ++ '/' :: b) =
        pathPrefixesFrom pre a ++ pathPrefixesFrom (pre ++ a ++ ['/']) b := by
  induction a with
  | nil =>
    intro pre hne
    simp only [List.append_nil] at hne
    simp [pathPrefixesFrom, hne]
  | cons c a ih =>
    intro pre _
    have hne2 : (pre ++ [c]) ++ a ≠ [] := by simp
    have := ih (pre ++ [c]) hne2
    have e1 : pathPrefixesFrom pre ((c :: a) ++ '/' :: b) =
        if c = '/' ∧ pre ≠ [] then
          ⟨pre⟩ :: pathPrefixesFrom (pre ++ [c]) (a ++ '/' :: b)
        else pathPrefixesFrom (pre ++ [c]) (a ++ '/' :: b) := rfl
    have e2 : pathPrefixesFrom pre (c :: a) =
        if c = '/' ∧ pre ≠ [] then ⟨pre⟩ :: pathPrefixesFrom (pre ++ [c]) a
        else pathPrefixesFrom (pre ++ [c]) a := rfl
    rw [e1, e2, this]
    by_cases hc : c = '/' ∧ pre ≠ []
    · rw [if_pos hc, if_pos hc]
      simp
    · rw [if_neg hc, if_neg hc]
      simp

theorem pathPrefixesFrom_noSep (f : List Char) (hf : '/' ∉ f) :
    ∀ pre : List Char, pathPrefixesFrom pre f = [⟨pre ++ f⟩] := by
  induction f with
  | nil => intro pre; simp [pathPrefixesFrom]
  | cons c f ih =>
    intro pre
    have hc : c ≠ '/' := fun h => hf (by simp [h])
    have hf2 : '/' ∉ f := fun h => hf (List.mem_cons_of_mem _ h)
    rw [pathPrefixesFrom, if_neg (fun h => hc h.1), ih hf2]
    simp

theorem pathPrefixesFrom_length (s : List Char) :
    ∀ (pre : List Char) (x : String), x ∈ pathPrefixesFrom pre s →
      x.data.length ≤ pre.length + s.length := by
  induction s with
  | nil =>
    intro pre x hx
    simp only [pathPrefixesFrom, List.mem_singleton] at hx
    rw [hx]; simp
  | cons c s ih =>
    intro pre x hx
    rw [pathPrefixesFrom] at hx
    have hrest : ∀ y, y ∈ pathPrefixesFrom (pre ++ [c]) s →
        y.data.length ≤ pre.length + (c :: s).length := by
      intro y hy
      have := ih (pre ++ [c]) y hy
      simp only [List.length_append, List.length_cons, List.length_nil] at this ⊢
      omega
    split at hx
    · rcases List.mem_cons.mp hx with h1 | h1
      · rw [h1]; simp
      · exact hrest x h1
    · exact hrest x hx

theorem pathPrefixesFrom_last (s : List Char) :
    ∀ pre : List Char, (⟨pre ++ s⟩ : String) ∈ pathPrefixesFrom pre s := by
  induction s with
  | nil => intro pre; simp [pathPrefixesFrom]
  | cons c s ih =>
    intro pre
    have := ih (pre ++ [c])
    simp only [List.append_assoc, List.singleton_append] at this
    rw [pathPrefixesFrom]
    split
    · exact List.mem_cons_of_mem _ this
    · exact this

theorem self_mem_pathPrefixes (p : String) : p ∈ pathPrefixes p := by
  have := pathPrefixesFrom_last p.data []
  simpa [pathPrefixes] using this

theorem pathPrefixes_join {B f : String} (hB : AbsShape B) (hf : ValidName f.data) :
    pathPrefixes (join [B, f]) = pathPrefixes B ++ [join [B, f]] := by
  have hj := (join_shape hB hf).1
  have hne : B.data ≠ [] := by
    obtain ⟨cb, _, _, hs⟩ := hB
    rw [hs]; simp
  unfold pathPrefixes
  rw [hj, pathPrefixesFrom_append B.data f.data [] (by simpa using hne),
    pathPrefixesFrom_noSep f.data hf.2.2.2]
  simp only [List.nil_append, List.append_assoc, List.singleton_append]
  congr 2
  exact String.ext hj.symm

theorem join_not_mem_pathPrefixes {B f : String} (hB : AbsShape B)
    (hf : ValidName f.data) : join [B, f] ∉ pathPrefixes B := by
  intro hm
  have hl := pathPrefixesFrom_length B.data [] _ hm
  rw [(join_shape hB hf).1] at hl
  simp at hl

theorem cleanAbs_absShape {p : String} (hp : CleanAbs p = true) : AbsShape p :=
  cleanAbs_shape hp

theorem join3_shape {bd n : String} (hbd : AbsShape bd) (hn : ValidName n.data) :
    (join [bd, "sys/block", n]).data = bd.data ++ '/' :: ("sys/block".data ++ '/' :: n.data) := by
  have hne := absShape_ne_empty hbd
  obtain ⟨cb, hcb, hvb, hs⟩ := hbd
  rw [join, if_neg hne]
  show cleanChars (joinSep [bd.data, "sys/block".data, n.data]) = _
  have hj : joinSep [bd.data, "sys/block".data, n.data] =
      ('/' :: joinSep cb) ++ '/' :: joinSep ["sys".data, "block".data, n.data] := by
    rw [hs]
    simp [joinSep]
  have hv : ∀ c ∈ ["sys".data, "block".data, n.data], ValidName c := by
    intro c hc
    simp only [List.mem_cons, List.mem_singleton, List.not_mem_nil, or_false] at hc
    rcases hc with rfl | rfl | rfl
    · decide
    · decide
    · exact hn
  rw [hj, cleanChars_concat_rel cb _ hcb (by simp) hvb hv, hs]
  simp [joinSep]

theorem join3_inj {bd a b : String} (hbd : AbsShape bd) (ha : ValidName a.data)
    (hb : ValidName b.data) (he : join [bd, "sys/block", a] = join [bd, "sys/block", b]) :
    a = b := by
  have h1 := join3_shape hbd ha
  have h2 := join3_shape hbd hb
  rw [he, h2] at h1
  have h3 := List.append_cancel_left h1
  injection h3 with _ h4
  have h5 := List.append_cancel_left h4
  injection h5 with _ h6
  exact String.ext h6.symm

theorem kindAt_unique {h : Host} {p : String} {k1 k2 : FileKind} (h1 : kindAt h p k1)
    (h2 : kindAt h p k2) : k1 = k2 := by
  obtain ⟨f1, e1, r1⟩ := h1
  obtain ⟨f2, e2, r2⟩ := h2
  rw [e1] at e2
  injection e2 with e2
  rw [← r1, ← r2, e2]

theorem sep_split_unique :
    ∀ (a a1 b b1 : List Char), '/' ∉ a → '/' ∉ a1 → a ++ '/' :: b = a1 ++ '/' :: b1 →
      a = a1 ∧ b = b1 := by
  intro a
  induction a with
  | nil =>
    intro a1 b b1 _ h1 he
    cases a1 with
    | nil => simpa using he
    | cons c a1 =>
      simp only [List.nil_append, List.cons_append, List.cons.injEq] at he
      exact absurd (by simp [← he.1]) h1
  | cons c a ih =>
    intro a1 b b1 h0 h1 he
    cases a1 with
    | nil =>
      simp only [List.nil_append, List.cons_append, List.cons.injEq] at he
      exact absurd (by simp [he.1]) h0
    | cons c1 a1 =>
      simp only [List.cons_append, List.cons.injEq] at he
      obtain ⟨rfl, he⟩ := he
      obtain ⟨r1, r2⟩ := ih a1 b b1 (fun hm => h0 (List.mem_cons_of_mem _ hm))
        (fun hm => h1 (List.mem_cons_of_mem _ hm)) he
      exact ⟨by rw [r1], r2⟩

theorem join2_data {B f g : String} (hB : AbsShape B) (hf : ValidName f.data)
    (hg : ValidName g.data) :
    (join [join [B, f], g]).data = B.data ++ '/' :: (f.data ++ '/' :: g.data) := by
  obtain ⟨h1, h2⟩ := join_shape hB hf
  rw [(join_shape h2 hg).1, h1]
  simp

theorem join_ne_join2 {B s f g : String} (hB : AbsShape B) (hs : ValidName s.data)
    (hf : ValidName f.data) (hg : ValidName g.data) :
    join [B, s] ≠ join [join [B, f], g] := by
  intro he
  have h1 := (join_shape hB hs).1
  rw [he, join2_data hB hf hg] at h1
  have h2 := List.append_cancel_left h1
  injection h2 with _ h3
  apply hs.2.2.2
  rw [← h3]
  simp

theorem join2_not_mem_pathPrefixes {B f g : String} (hB : AbsShape B)
    (hf : ValidName f.data) (hg : ValidName g.data) :
    join [join [B, f], g] ∉ pathPrefixes B := by
  intro hm
  have hl := pathPrefixesFrom_length B.data [] _ hm
  rw [join2_data hB hf hg] at hl
  simp at hl

theorem join2_inj {B f g f1 g1 : String} (hB : AbsShape B) (hf : ValidName f.data)
    (hg : ValidName g.data) (hf1 : ValidName f1.data) (hg1 : ValidName g1.data)
    (he : join [join [B, f], g] = join [join [B, f1], g1]) : f = f1 ∧ g = g1 := by
  have h1 := join2_data hB hf hg
  rw [he, join2_data hB hf1 hg1] at h1
  have h2 := List.append_cancel_left h1
  injection h2 with _ h3
  obtain ⟨r1, r2⟩ := sep_split_unique _ _ _ _ hf1.2.2.2 hf.2.2.2 h3
  exact ⟨String.ext r1.symm, String.ext r2.symm⟩

theorem validName_queue : ValidName "queue".data := by decide

theorem validName_rotational : ValidName "rotational".data := by decide

theorem mem_pathPrefixes_join {B f x : String} (hB : AbsShape B) (hf : ValidName f.data)
    (hx : x ∈ pathPrefixes (join [B, f])) : x ∈ pathPrefixes B ∨ x = join [B, f] := by
  rw [pathPrefixes_join hB hf] at hx
  rcases List.mem_append.mp hx with h1 | h1
  · exact Or.inl h1
  · exact Or.inr (List.mem_singleton.mp h1)

theorem base_mem_pathPrefixes_join {B f : String} (hB : AbsShape B)
    (hf : ValidName f.data) : B ∈ pathPrefixes (join [B, f]) := by
  rw [pathPrefixes_join hB hf]
  exact List.mem_append_left _ (self_mem_pathPrefixes B)

theorem base_mem_pathPrefixes_join2 {B f g : String} (hB : AbsShape B)
    (hf : ValidName f.data) (hg : ValidName g.data) :
    B ∈ pathPrefixes (join [join [B, f], g]) := by
  rw [pathPrefixes_join (join_shape hB hf).2 hg]
  exact List.mem_append_left _ (base_mem_pathPrefixes_join hB hf)

/-- Every path of a mirrored device directory lies in the directory, or is
the directory or a directory above it. -/
theorem deviceDirPaths_inside {h : Host} {B S x : String} (hB : AbsShape B)
    (hval : ValidListings h) (hx : DeviceDirPaths h B S x) :
    x ∈ pathPrefixes B ∨ B ∈ pathPrefixes x := by
  rcases hx with ⟨names, hl, f, hf, hcase⟩ | hx | hx
  · have hvf := hval S names hl f hf
    rcases hcase with ⟨_, rfl⟩ | ⟨_, _, hx | ⟨pnames, hpl, g, hg, _, rfl⟩⟩
    · exact Or.inr (base_mem_pathPrefixes_join hB hvf)
    · rcases mem_pathPrefixes_join hB hvf hx with h1 | rfl
      · exact Or.inl h1
      · exact Or.inr (base_mem_pathPrefixes_join hB hvf)
    · exact Or.inr (base_mem_pathPrefixes_join2 hB hvf (hval _ pnames hpl g hg))
  · rcases mem_pathPrefixes_join hB validName_queue hx with h1 | rfl
    · exact Or.inl h1
    · exact Or.inr (base_mem_pathPrefixes_join hB validName_queue)
  · rw [hx]
    exact Or.inr (base_mem_pathPrefixes_join2 hB validName_queue validName_rotational)

/-- The mirrored device directory has no path for a listed entry that `Lstat`
reports a symlink, unless the entry is named `queue`. -/
theorem deviceDirPaths_not_link {h : Host} {B S s : String} {names : List String}
    (hB : AbsShape B) (hval : ValidListings h) (hl : h.readDir S = some names)
    (hs : s ∈ names) (hk : kindAt h (join [S, s]) FileKind.symlink) (hq : s ≠ "queue") :
    ¬ DeviceDirPaths h B S (join [B, s]) := by
  have hvs := hval S names hl s hs
  intro hx
  rcases hx with ⟨names1, hl1, f, hf, hcase⟩ | hx | hx
  · have hvf := hval S names1 hl1 f hf
    rcases hcase with ⟨hk1, he⟩ | ⟨hk1, _, hx | ⟨pnames, hpl, g, hg, _, he⟩⟩
    · have := join_inj_last hB hvs hvf he
      subst this
      exact absurd (kindAt_unique hk hk1) (by decide)
    · rcases mem_pathPrefixes_join hB hvf hx with h1 | he
      · exact join_not_mem_pathPrefixes hB hvs h1
      · have := join_inj_last hB hvs hvf he
        subst this
        exact absurd (kindAt_unique hk hk1) (by decide)
    · exact join_ne_join2 hB hvs hvf (hval _ pnames hpl g hg) he
  · rcases mem_pathPrefixes_join hB validName_queue hx with h1 | he
    · exact join_not_mem_pathPrefixes hB hvs h1
    · exact hq (join_inj_last hB hvs validName_queue he)
  · exact join_ne_join2 hB hvs validName_queue validName_rotational hx

/-- The mirrored device directory has no path for an entry of a listed
directory that `Lstat` reports a symlink, unless it is `queue/rotational`. -/
theorem deviceDirPaths_not_partition_link {h : Host} {B S f g : String}
    {names pnames : List String} (hB : AbsShape B) (hval : ValidListings h)
    (hl : h.readDir S = some names) (hf : f ∈ names)
    (hpl : h.readDir (join [S, f]) = some pnames) (hg : g ∈ pnames)
    (hk : kindAt h (join [join [S, f], g]) FileKind.symlink)
    (hq : ¬ (f = "queue" ∧ g = "rotational")) :
    ¬ DeviceDirPaths h B S (join [join [B, f], g]) := by
  have hvf := hval S names hl f hf
  have hvg := hval _ pnames hpl g hg
  intro hx
  rcases hx with ⟨names1, hl1, f1, hf1, hcase⟩ | hx | hx
  · have hvf1 := hval S names1 hl1 f1 hf1
    rcases hcase with ⟨_, he⟩ | ⟨_, _, hx | ⟨pnames1, hpl1, g1, hg1, hk1, he⟩⟩
    · exact join_ne_join2 hB hvf1 hvf hvg he.symm
    · rcases mem_pathPrefixes_join hB hvf1 hx with h1 | he
      · exact join2_not_mem_pathPrefixes hB hvf hvg h1
      · exact join_ne_join2 hB hvf1 hvf hvg he.symm
    · obtain ⟨r1, r2⟩ := join2_inj hB hvf hvg hvf1 (hval _ pnames1 hpl1 g1 hg1) he
      subst r1 r2
      exact absurd (kindAt_unique hk hk1) (by decide)
  · rcases mem_pathPrefixes_join hB validName_queue hx with h1 | he
    · exact join2_not_mem_pathPrefixes hB hvf hvg h1
    · exact join_ne_join2 hB validName_queue hvf hvg he.symm
  · exact hq (join2_inj hB hvf hvg validName_queue validName_rotational hx)

theorem cleanChars_rooted_shape (d : List Char) (hr : d.head? = some '/') :
    cleanChars d = ['/'] ∨
    ∃ comps, comps ≠ [] ∧ (∀ c ∈ comps, ValidName c) ∧ cleanChars d = '/' :: joinSep comps := by
  have hv : ∀ c ∈ cleanComps d, ValidName c := by
    intro c hc
    unfold cleanComps at hc
    rw [hr] at hc
    simp only [decide_True, List.mem_reverse] at hc
    exact foldl_cleanStep_valid _ [] (fun x hx => absurd hx (List.not_mem_nil x))
      (splitSep_pieces d) c hc
  unfold cleanChars
  rw [if_pos hr]
  by_cases hnil : cleanComps d = []
  · left; rw [hnil]; rfl
  · exact Or.inr ⟨cleanComps d, hnil, hv, rfl⟩

theorem joinSep_head (x : List Char) (r : List (List Char)) (c : Char)
    (hx : x.head? = some c) : (joinSep (x :: r)).head? = some c := by
  cases x with
  | nil => cases hx
  | cons a x =>
    cases r with
    | nil => simpa [joinSep] using hx
    | cons y r => simpa [joinSep] using hx

/-- A path joined onto an absolute cleaned directory is the root directory or
an absolute cleaned path below it. -/
theorem join_absShape {bd : String} (rest : List String) (hbd : AbsShape bd) :
    join (bd :: rest) = "/" ∨ AbsShape (join (bd :: rest)) := by
  have hne := absShape_ne_empty hbd
  obtain ⟨cb, _, _, hs⟩ := hbd
  have hhead : (joinSep ((bd :: rest).map String.data)).head? = some '/' := by
    rw [List.map_cons]
    exact joinSep_head _ _ _ (by rw [hs]; rfl)
  rw [join, if_neg hne]
  rcases cleanChars_rooted_shape _ hhead with h1 | ⟨comps, h1, h2, h3⟩
  · left
    exact String.ext h1
  · right
    exact ⟨comps, h1, h2, h3⟩

theorem not_mirrorPaths {h : Host} {buildDir q : String} {devLinks : List String}
    (hlist : h.readDir "/sys/block" = some devLinks)
    (hno : ∀ d ∈ devLinks, hasPrefix d "loop" = false →
      ∀ t, h.readlink (join ["/sys/block", d]) = some t →
        q ≠ join [buildDir, "sys/block", d] ∧
        q ∉ pathPrefixes (join [buildDir, "sys/block", trimPrefix t "/"]) ∧
        ¬ DeviceDirPaths h (join [buildDir, "sys/block", trimPrefix t "/"])
          (join ["/sys/block", trimPrefix t "/"]) q) :
    ¬ MirrorPaths h buildDir q := by
  intro ⟨devLinks1, hl1, d, hd, hloop, t, ht, hcase⟩
  rw [hlist] at hl1
  injection hl1 with hl1
  subst hl1
  obtain ⟨h1, h2, h3⟩ := hno d hd hloop t ht
  rcases hcase with hc | hc | hc
  · exact h1 hc
  · exact h2 hc
  · exact h3 hc

/-- C7 (as amended). On a host whose directory listings hold plain names,
for an absolute cleaned `buildDir` under which no mirrored device directory
is the root directory, and for a run of `createBlockDevices` that returns
without writing through a symlink of the scratch tree:
every path the run adds is accounted for by a name of `/sys/block` that does
not start with `loop` (its link, its device directory or a directory leading
there, the copy of a listed regular file, a partition directory with the
copies of its regular files, the `queue` directory and its `rotational`
file); the link path of a name that starts with `loop`, when nothing was
there before and it lies apart from the mirrored device directories, holds
nothing afterwards; and the counterpart of a listed entry of a source device
directory that `Lstat` reports a symlink, other than `queue`, and of a
symlink entry of a directory listed there, other than `queue/rotational`,
holds nothing afterwards, when nothing was there before, it is no device's
link path and it lies apart from the mirrored directories of the devices
that are mirrored into another directory. -/
theorem createBlockDevices_excludes_loops_and_links (h : Host) (buildDir : String)
    (m : Mirror) (devLinks : List String)
    (hlist : h.readDir "/sys/block" = some devLinks)
    (hnames : ValidListings h)
    (hbuild : CleanAbs buildDir = true)
    (hdirs : ∀ d ∈ devLinks, hasPrefix d "loop" = false →
      ∀ t, h.readlink (join ["/sys/block", d]) = some t →
        join [buildDir, "sys/block", trimPrefix t "/"] ≠ "/")
    (_hrun : (createBlockDevices h buildDir m).isOk = true ∨
      (createBlockDevices h buildDir m).isFail = true) :
    (∀ q, (createBlockDevices h buildDir m).mirror.tree q ≠ none →
      m.tree q ≠ none ∨ MirrorPaths h buildDir q) ∧
    (∀ L ∈ devLinks, hasPrefix L "loop" = true →
      m.tree (join [buildDir, "sys/block", L]) = none →
      (∀ d ∈ devLinks, hasPrefix d "loop" = false →
        ∀ t, h.readlink (join ["/sys/block", d]) = some t →
          Apart (join [buildDir, "sys/block", trimPrefix t "/"])
            (join [buildDir, "sys/block", L])) →
      (createBlockDevices h buildDir m).mirror.tree (join [buildDir, "sys/block", L])
        = none) ∧
    (∀ d ∈ devLinks, hasPrefix d "loop" = false →
      ∀ t, h.readlink (join ["/sys/block", d]) = some t →
      ∀ names, h.readDir (join ["/sys/block", trimPrefix t "/"]) = some names →
      ∀ s ∈ names,
        kindAt h (join [join ["/sys/block", trimPrefix t "/"], s]) FileKind.symlink →
        s ≠ "queue" →
        m.tree (join [join [buildDir, "sys/block", trimPrefix t "/"], s]) = none →
        (∀ d1 ∈ devLinks, hasPrefix d1 "loop" = false →
          ∀ t1, h.readlink (join ["/sys/block", d1]) = some t1 →
            join [join [buildDir, "sys/block", trimPrefix t "/"], s]
              ≠ join [buildDir, "sys/block", d1] ∧
            ((join [buildDir, "sys/block", trimPrefix t1 "/"]
                = join [buildDir, "sys/block", trimPrefix t "/"] ∧
              join ["/sys/block", trimPrefix t1 "/"]
                = join ["/sys/block", trimPrefix t "/"]) ∨
             Apart (join [buildDir, "sys/block", trimPrefix t1 "/"])
              (join [join [buildDir, "sys/block", trimPrefix t "/"], s]))) →
        (createBlockDevices h buildDir m).mirror.tree
          (join [join [buildDir, "sys/block", trimPrefix t "/"], s]) = none) ∧
    (∀ d ∈ devLinks, hasPrefix d "loop" = false →
      ∀ t, h.readlink (join ["/sys/block", d]) = some t →
      ∀ names, h.readDir (join ["/sys/block", trimPrefix t "/"]) = some names →
      ∀ f ∈ names,
      ∀ pnames, h.readDir (join [join ["/sys/block", trimPrefix t "/"], f]) = some pnames →
      ∀ g ∈ pnames,
        kindAt h (join [join [join ["/sys/block", trimPrefix t "/"], f], g])
          FileKind.symlink →
        ¬ (f = "queue" ∧ g = "rotational") →
        m.tree (join [join [join [buildDir, "sys/block", trimPrefix t "/"], f], g]) = none →
        (∀ d1 ∈ devLinks, hasPrefix d1 "loop" = false →
          ∀ t1, h.readlink (join ["/sys/block", d1]) = some t1 →
            join [join [join [buildDir, "sys/block", trimPrefix t "/"], f], g]
              ≠ join [buildDir, "sys/block", d1] ∧
            ((join [buildDir, "sys/block", trimPrefix t1 "/"]
                = join [buildDir, "sys/block", trimPrefix t "/"] ∧
              join ["/sys/block", trimPrefix t1 "/"]
                = join ["/sys/block", trimPrefix t "/"]) ∨
             Apart (join [buildDir, "sys/block", trimPrefix t1 "/"])
              (join [join [join [buildDir, "sys/block", trimPrefix t "/"], f], g]))) →
        (createBlockDevices h buildDir m).mirror.tree
          (join [join [join [buildDir, "sys/block", trimPrefix t "/"], f], g]) = none) := by
  have hacc := createBlockDevices_adds_only_accounted_paths h buildDir m
  have habsent : ∀ q, m.tree q = none → ¬ MirrorPaths h buildDir q →
      (createBlockDevices h buildDir m).mirror.tree q = none := by
    intro q hq hno
    by_contra hne
    rcases hacc q hne with h1 | h1
    · exact h1 hq
    · exact hno h1
  have hbd : AbsShape buildDir := cleanAbs_absShape hbuild
  have hvdev : ∀ d ∈ devLinks, ValidName d.data := hnames "/sys/block" devLinks hlist
  refine ⟨hacc, ?_, ?_, ?_⟩
  · intro L hL hloop hempty hapart
    apply habsent _ hempty
    apply not_mirrorPaths hlist
    intro d hd hdl t ht
    have hB := (join_absShape _ hbd).resolve_left (hdirs d hd hdl t ht)
    obtain ⟨ha1, ha2⟩ := hapart d hd hdl t ht
    refine ⟨?_, ha1, ?_⟩
    · intro he
      have := join3_inj hbd (hvdev L hL) (hvdev d hd) he
      rw [this, hdl] at hloop
      cases hloop
    · intro hx
      rcases deviceDirPaths_inside hB hnames hx with h1 | h1
      · exact ha1 h1
      · exact ha2 h1
  · intro d hd hdl t ht names hl s hs hk hq hempty hothers
    have hB := (join_absShape _ hbd).resolve_left (hdirs d hd hdl t ht)
    have hvs := hnames _ names hl s hs
    apply habsent _ hempty
    apply not_mirrorPaths hlist
    intro d1 hd1 hdl1 t1 ht1
    obtain ⟨hb1, hb2⟩ := hothers d1 hd1 hdl1 t1 ht1
    refine ⟨hb1, ?_, ?_⟩
    · rcases hb2 with ⟨hbe, _⟩ | ⟨ha1, _⟩
      · rw [hbe]
        exact join_not_mem_pathPrefixes hB hvs
      · exact ha1
    · rcases hb2 with ⟨hbe, hse⟩ | ⟨ha1, ha2⟩
      · rw [hbe, hse]
        exact deviceDirPaths_not_link hB hnames hl hs hk hq
      · intro hx
        have hB1 := (join_absShape _ hbd).resolve_left (hdirs d1 hd1 hdl1 t1 ht1)
        rcases deviceDirPaths_inside hB1 hnames hx with h1 | h1
        · exact ha1 h1
        · exact ha2 h1
  · intro d hd hdl t ht names hl f hf pnames hpl g hg hk hq hempty hothers
    have hB := (join_absShape _ hbd).resolve_left (hdirs d hd hdl t ht)
    have hvf := hnames _ names hl f hf
    have hvg := hnames _ pnames hpl g hg
    apply habsent _ hempty
    apply not_mirrorPaths hlist
    intro d1 hd1 hdl1 t1 ht1
    obtain ⟨hb1, hb2⟩ := hothers d1 hd1 hdl1 t1 ht1
    refine ⟨hb1, ?_, ?_⟩
    · rcases hb2 with ⟨hbe, _⟩ | ⟨ha1, _⟩
      · rw [hbe]
        exact join2_not_mem_pathPrefixes hB hvf hvg
      · exact ha1
    · rcases hb2 with ⟨hbe, hse⟩ | ⟨ha1, ha2⟩
      · rw [hbe, hse]
        exact deviceDirPaths_not_partition_link hB hnames hl hf hpl hg hk hq
      · intro hx
        have hB1 := (join_absShape _ hbd).resolve_left (hdirs d1 hd1 hdl1 t1 ht1)
        rcases deviceDirPaths_inside hB1 hnames hx with h1 | h1
        · exact ha1 h1
        · exact ha2 h1

theorem sampleHost_validListings : ValidListings sampleHost := by
  intro d names hr n hn
  simp only [sampleHost, bridgeHost] at hr
  split_ifs at hr <;> cases hr <;> revert n <;> decide

theorem sampleHost_devices {d t : String} (hd : d ∈ ["loop0", "sda"])
    (hl : hasPrefix d "loop" = false)
    (ht : sampleHost.readlink (join ["/sys/block", d]) = some t) :
    d = "sda" ∧ t = "../devices/pci0/block/sda" := by
  simp only [List.mem_cons, List.mem_singleton, List.not_mem_nil, or_false] at hd
  rcases hd with rfl | rfl
  · exact absurd hl (by decide)
  · have hr : sampleHost.readlink (join ["/sys/block", "sda"])
        = some "../devices/pci0/block/sda" := by decide
    rw [hr] at ht
    injection ht with ht
    exact ⟨rfl, ht.symm⟩

/-- Witness for C7: on `sampleHost`, cloned into the skeleton under `/tmp/s`,
the run succeeds; the link path of `loop0` holds nothing afterwards, and
neither do the counterparts of the `subsystem` symlinks of the directory of
`sda` and of its partition `sda1`. -/
theorem createBlockDevices_excludes_loops_and_links_witness :
    sampleHost.readDir "/sys/block" = some ["loop0", "sda"] ∧
    ValidListings sampleHost ∧
    CleanAbs "/tmp/s" = true ∧
    (createBlockDevices sampleHost "/tmp/s" skeletonMirror).isOk = true ∧
    join ["/tmp/s", "sys/block", "loop0"] = "/tmp/s/sys/block/loop0" ∧
    (createBlockDevices sampleHost "/tmp/s" skeletonMirror).mirror.tree
      (join ["/tmp/s", "sys/block", "loop0"]) = none ∧
    join [join ["/tmp/s", "sys/block", trimPrefix "../devices/pci0/block/sda" "/"],
      "subsystem"] = "/tmp/s/sys/devices/pci0/block/sda/subsystem" ∧
    (createBlockDevices sampleHost "/tmp/s" skeletonMirror).mirror.tree
      (join [join ["/tmp/s", "sys/block", trimPrefix "../devices/pci0/block/sda" "/"],
        "subsystem"]) = none ∧
    join [join [join ["/tmp/s", "sys/block", trimPrefix "../devices/pci0/block/sda" "/"],
      "sda1"], "subsystem"] = "/tmp/s/sys/devices/pci0/block/sda/sda1/subsystem" ∧
    (createBlockDevices sampleHost "/tmp/s" skeletonMirror).mirror.tree
      (join [join [join ["/tmp/s", "sys/block",
        trimPrefix "../devices/pci0/block/sda" "/"], "sda1"], "subsystem"]) = none :=
  ⟨by decide, sampleHost_validListings, by decide, by decide, by decide,
   (createBlockDevices_excludes_loops_and_links sampleHost "/tmp/s" skeletonMirror
      ["loop0", "sda"] (by decide) sampleHost_validListings (by decide)
      (fun d hd hl t ht => by
        obtain ⟨rfl, rfl⟩ := sampleHost_devices hd hl ht
        decide)
      (Or.inl (by decide))).2.1 "loop0" (by simp) (by decide) (by decide)
      (fun d hd hl t ht => by
        obtain ⟨rfl, rfl⟩ := sampleHost_devices hd hl ht
        exact ⟨by decide, by decide⟩),
   by decide,
   (createBlockDevices_excludes_loops_and_links sampleHost "/tmp/s" skeletonMirror
      ["loop0", "sda"] (by decide) sampleHost_validListings (by decide)
      (fun d hd hl t ht => by
        obtain ⟨rfl, rfl⟩ := sampleHost_devices hd hl ht
        decide)
      (Or.inl (by decide))).2.2.1 "sda" (by simp) (by decide)
      "../devices/pci0/block/sda" (by decide) ["queue", "sda1", "size", "subsystem"]
      (by decide) "subsystem" (by simp)
      ⟨{ kind := FileKind.symlink, size := 0 }, by decide, rfl⟩ (by decide) (by decide)
      (fun d hd hl t ht => by
        obtain ⟨rfl, rfl⟩ := sampleHost_devices hd hl ht
        exact ⟨by decide, Or.inl ⟨rfl, rfl⟩⟩),
   by decide,
   (createBlockDevices_excludes_loops_and_links sampleHost "/tmp/s" skeletonMirror
      ["loop0", "sda"] (by decide) sampleHost_validListings (by decide)
      (fun d hd hl t ht => by
        obtain ⟨rfl, rfl⟩ := sampleHost_devices hd hl ht
        decide)
      (Or.inl (by decide))).2.2.2 "sda" (by simp) (by decide)
      "../devices/pci0/block/sda" (by decide) ["queue", "sda1", "size", "subsystem"]
      (by decide) "sda1" (by simp) ["power", "start", "subsystem"] (by decide)
      "subsystem" (by simp)
      ⟨{ kind := FileKind.symlink, size := 0 }, by decide, rfl⟩ (by decide) (by decide)
      (fun d hd hl t ht => by
        obtain ⟨rfl, rfl⟩ := sampleHost_devices hd hl ht
        exact ⟨by decide, Or.inl ⟨rfl, rfl⟩⟩)⟩

/-- Counterexample for C7 as stated: on `queueLinkHost` the entry `queue` of
the source directory of `sda` is a symlink; the run succeeds and the mirrored
device directory holds its counterpart, the directory `queue` with the file
`rotational` read through the link. -/
theorem createBlockDevices_queue_link_mirrored :
    queueLinkHost.lstat "/sys/devices/pci0/block/sda/queue"
      = some { kind := FileKind.symlink, size := 0 } ∧
    (createBlockDevices queueLinkHost "/tmp/s" skeletonMirror).isOk = true ∧
    (createBlockDevices queueLinkHost "/tmp/s" skeletonMirror).mirror.tree
      "/tmp/s/sys/devices/pci0/block/sda/queue" = some SNode.dir ∧
    (createBlockDevices queueLinkHost "/tmp/s" skeletonMirror).mirror.tree
      "/tmp/s/sys/devices/pci0/block/sda/queue/rotational" = some (SNode.file "1\n") ∧
    ¬ MirrorExcludesLinks queueLinkHost "/tmp/s" skeletonMirror := by
  refine ⟨by decide, by decide, by decide, by decide, ?_⟩
  intro hc
  have := hc ["loop0", "sda"] "sda" "../devices/pci0/block/sda"
    ["queue", "sda1", "size", "subsystem"] "queue" (by decide) (by simp) (by decide)
    (by decide) (by decide) (by simp)
    ⟨{ kind := FileKind.symlink, size := 0 }, by decide, rfl⟩ (by decide)
  exact absurd this (by decide)

/-- The mirror has a path at the link path of a loop device when a disk's
link target leads there: on this host `sda` links to `loop0`, and the run
makes the device directory of `sda` at `/tmp/s/sys/block/loop0`. -/
theorem createBlockDevices_loop_path_taken :
    ((createBlockDevices
        { sampleHost with
          readlink := fun p => if p = "/sys/block/sda" then some "loop0" else none,
          readDir := fun p =>
            if p = "/sys/block" then some ["loop0", "sda"]
            else if p = "/sys/block/loop0" then some [] else none,
          readFile := fun p =>
            if p = "/sys/block/loop0/queue/rotational" then some "1\n" else none }
        "/tmp/s" skeletonMirror).mirror.tree "/tmp/s/sys/block/loop0")
      = some SNode.dir := by
  decide

theorem dropWhile_append_all {α : Type} (f : α → Bool) (l1 l2 : List α)
    (h : ∀ c ∈ l1, f c = true) : (l1 ++ l2).dropWhile f = l2.dropWhile f := by
  induction l1 with
  | nil => rfl
  | cons c l1 ih =>
    rw [List.cons_append, List.dropWhile_cons, if_pos (h c (by simp))]
    exact ih (fun x hx => h x (List.mem_cons_of_mem _ hx))

theorem dir_data (a last : List Char) (hl : '/' ∉ last) :
    dir ⟨a ++ '/' :: last⟩ = ⟨cleanChars (a ++ ['/'])⟩ := by
  unfold dir
  have h1 : (a ++ '/' :: last).reverse = last.reverse ++ '/' :: a.reverse := by simp
  have h2 : (last.reverse ++ '/' :: a.reverse).dropWhile (fun c => decide (c ≠ '/'))
      = '/' :: a.reverse := by
    rw [dropWhile_append_all]
    · simp
    · intro c hc
      have : c ≠ '/' := fun he => hl (by rw [← he]; exact List.mem_reverse.mp hc)
      simpa using this
  show (⟨cleanChars (((a ++ '/' :: last).reverse.dropWhile
    (fun c => decide (c ≠ '/'))).reverse)⟩ : String) = _
  rw [h1, h2]
  simp

theorem cleanChars_trailing (cd : List (List Char)) (hcd : cd ≠ [])
    (hvd : ∀ c ∈ cd, ValidName c) :
    cleanChars (('/' :: joinSep cd) ++ ['/']) = '/' :: joinSep cd := by
  have hsplit : splitSep (('/' :: joinSep cd) ++ '/' :: []) = ([] :: cd) ++ [[]] := by
    rw [splitSep_append]
    have h1 : splitSep ('/' :: joinSep cd) = [] :: cd := by
      rw [splitSep, if_pos rfl, splitSep_joinSep cd hcd (fun c hc => (hvd c hc).2.2.2)]
    rw [h1]
    rfl
  have hcomps : cleanComps (('/' :: joinSep cd) ++ ['/']) = cd := by
    unfold cleanComps
    rw [hsplit]
    simp only [List.cons_append, List.head?_cons, decide_True, List.foldl_cons,
      List.foldl_append, List.foldl_nil]
    have e1 : cleanStep true [] [] = [] := by simp [cleanStep]
    rw [e1, foldl_cleanStep_push true cd hvd]
    simp [cleanStep]
  unfold cleanChars
  rw [if_pos (by simp), hcomps]

theorem dir_absShape {p : String} (hp : AbsShape p) : dir p = "/" ∨ AbsShape (dir p) := by
  obtain ⟨comps, hne, hv, hs⟩ := hp
  have hp2 : p = ⟨'/' :: joinSep comps⟩ := String.ext hs
  obtain ⟨init, last, rfl⟩ : ∃ init last, comps = init ++ [last] :=
    ⟨comps.dropLast, comps.getLast hne, (List.dropLast_append_getLast hne).symm⟩
  have hvl : ValidName last := hv last (by simp)
  cases init with
  | nil =>
    left
    rw [hp2]
    have := dir_data [] last hvl.2.2.2
    simp only [List.nil_append, joinSep] at this ⊢
    rw [this]
    rfl
  | cons c init =>
    right
    have hvi : ∀ x ∈ c :: init, ValidName x := fun x hx => hv x (List.mem_append_left _ hx)
    have hd : dir p = ⟨'/' :: joinSep (c :: init)⟩ := by
      rw [hp2, joinSep_append (c :: init) [last] (by simp) (by simp)]
      have := dir_data ('/' :: joinSep (c :: init)) last hvl.2.2.2
      simp only [joinSep, List.cons_append] at this ⊢
      rw [this]
      have h3 := cleanChars_trailing (c :: init) (by simp) hvi
      simp only [List.cons_append] at h3
      rw [h3]
    exact ⟨c :: init, by simp, hvi, by rw [hd]⟩

theorem join_abs {D x : String} (hD : AbsShape D) (hx : AbsShape x) :
    join [D, x] = D ++ x := by
  have hne := absShape_ne_empty hD
  obtain ⟨cd, hcd, hvd, hds⟩ := hD
  obtain ⟨cp, hcp, hvp, hps⟩ := hx
  apply String.ext
  rw [String.data_append, join, if_neg hne]
  show cleanChars (joinSep [D.data, x.data]) = _
  rw [joinSep, joinSep, hds, hps]
  exact cleanChars_concat_abs cd cp hcd hcp hvd hvp

theorem join_root {D : String} (hD : AbsShape D) : join [D, "/"] = D := by
  have hne := absShape_ne_empty hD
  obtain ⟨cd, hcd, hvd, hds⟩ := hD
  apply String.ext
  rw [join, if_neg hne]
  show cleanChars (joinSep [D.data, "/".data]) = _
  rw [joinSep, joinSep, hds]
  have hsplit : splitSep (('/' :: joinSep cd) ++ '/' :: "/".data) = ([] :: cd) ++ [[], []] := by
    rw [splitSep_append]
    have h1 : splitSep ('/' :: joinSep cd) = [] :: cd := by
      rw [splitSep, if_pos rfl, splitSep_joinSep cd hcd (fun c hc => (hvd c hc).2.2.2)]
    rw [h1]
    rfl
  have hcomps : cleanComps (('/' :: joinSep cd) ++ '/' :: "/".data) = cd := by
    unfold cleanComps
    rw [hsplit]
    simp only [List.cons_append, List.head?_cons, decide_True, List.foldl_cons,
      List.foldl_append, List.foldl_nil]
    have e1 : cleanStep true [] [] = [] := by simp [cleanStep]
    rw [e1, foldl_cleanStep_push true cd hvd]
    simp [cleanStep]
  unfold cleanChars
  rw [if_pos (by simp), hcomps]

theorem trimPrefix_append (D x : String) : trimPrefix (D ++ x) D = x := by
  unfold trimPrefix
  rw [String.data_append, stripLeading_append]

theorem pathPrefixes_snoc (a f : List Char) (ha : a ≠ []) (hf : '/' ∉ f) :
    pathPrefixes ⟨a ++ '/' :: f⟩ = pathPrefixes ⟨a⟩ ++ [⟨a ++ '/' :: f⟩] := by
  unfold pathPrefixes
  show pathPrefixesFrom [] (a ++ '/' :: f) = pathPrefixesFrom [] a ++ _
  rw [pathPrefixesFrom_append a f [] (by simpa using ha), pathPrefixesFrom_noSep f hf]
  simp

theorem pathPrefixes_concat_comps (D : List Char) (hD : D ≠ []) :
    ∀ (comps : List (List Char)), comps ≠ [] → (∀ c ∈ comps, ValidName c) →
      pathPrefixes ⟨D ++ '/' :: joinSep comps⟩ =
        pathPrefixes ⟨D⟩ ++
          (pathPrefixes ⟨'/' :: joinSep comps⟩).map (fun y => ⟨D ++ y.data⟩) := by
  intro comps
  induction comps using List.reverseRecOn with
  | nil => intro h; exact absurd rfl h
  | append_singleton init last ih =>
    intro _ hv
    have hvl : ValidName last := hv last (by simp)
    cases init with
    | nil =>
      simp only [List.nil_append, joinSep]
      rw [pathPrefixes_snoc D last hD hvl.2.2.2]
      have : pathPrefixes ⟨'/' :: last⟩ = [⟨'/' :: last⟩] := by
        unfold pathPrefixes
        show pathPrefixesFrom [] ('/' :: last) = _
        rw [pathPrefixesFrom, if_neg (by simp), pathPrefixesFrom_noSep last hvl.2.2.2]
        simp
      rw [this]
      simp
    | cons c init =>
      have hvi : ∀ x ∈ c :: init, ValidName x :=
        fun x hx => hv x (List.mem_append_left _ hx)
      have ih2 := ih (by simp) hvi
      rw [joinSep_append (c :: init) [last] (by simp) (by simp)]
      simp only [joinSep]
      have e1 : D ++ '/' :: (joinSep (c :: init) ++ '/' :: last) =
          (D ++ '/' :: joinSep (c :: init)) ++ '/' :: last := by simp
      have e2 : '/' :: (joinSep (c :: init) ++ '/' :: last) =
          ('/' :: joinSep (c :: init)) ++ '/' :: last := by simp
      rw [e1, pathPrefixes_snoc _ last (by simp) hvl.2.2.2, ih2, e2,
        pathPrefixes_snoc _ last (by simp) hvl.2.2.2]
      simp

theorem pathPrefixes_concat {D x : String} (hD : AbsShape D) (hx : AbsShape x) :
    pathPrefixes (D ++ x) = pathPrefixes D ++ (pathPrefixes x).map (fun y => D ++ y) := by
  have hne : D.data ≠ [] := by
    obtain ⟨cb, _, _, hs⟩ := hD
    rw [hs]; simp
  obtain ⟨cp, hcp, hvp, hps⟩ := hx
  have h1 := pathPrefixes_concat_comps D.data hne cp hcp hvp
  have e1 : D ++ x = ⟨D.data ++ '/' :: joinSep cp⟩ := by
    apply String.ext
    rw [String.data_append, hps]
  have e2 : x = ⟨'/' :: joinSep cp⟩ := String.ext hps
  have e3 : (fun y : String => D ++ y) = (fun y : String => (⟨D.data ++ y.data⟩ : String)) := by
    funext y
    apply String.ext
    rw [String.data_append]
  rw [e1, e3, h1, ← e2]

theorem stripped_listing {h : Host} {fileSpecs : List String} {destDir : String}
    {t0 t1 : Tree} (hD : AbsShape destDir)
    (hM : ∀ p, Matched h fileSpecs p → AbsShape p)
    (hadd : ∀ q, t1 q ≠ none → t0 q ≠ none ∨ ∃ p, Matched h fileSpecs p ∧
      (q = join [destDir, p] ∨ q ∈ pathPrefixes (join [destDir, dir p]))) :
    ∀ q, t1 q ≠ none → t0 q ≠ none ∨ q ∈ pathPrefixes destDir ∨
      ∃ x, q = destDir ++ x ∧ trimPrefix q destDir = x ∧
        (Matched h fileSpecs x ∨ ∃ p, Matched h fileSpecs p ∧ x ∈ pathPrefixes (dir p)) := by
  intro q hq
  rcases hadd q hq with h0 | ⟨p, hp, hcase⟩
  · exact Or.inl h0
  · right
    rcases hcase with rfl | hpre
    · right
      refine ⟨p, join_abs hD (hM p hp), ?_, Or.inl hp⟩
      rw [join_abs hD (hM p hp)]
      exact trimPrefix_append destDir p
    · rcases dir_absShape (hM p hp) with hroot | hshape
      · rw [hroot, join_root hD] at hpre
        exact Or.inl hpre
      · rw [join_abs hD hshape, pathPrefixes_concat hD hshape] at hpre
        rcases List.mem_append.mp hpre with h1 | h1
        · exact Or.inl h1
        · right
          obtain ⟨y, hy, rfl⟩ := List.mem_map.mp h1
          exact ⟨y, rfl, trimPrefix_append destDir y, Or.inr ⟨p, hp, hy⟩⟩

theorem listing_present {h : Host} {fileSpecs : List String} {destDir : String}
    {t1 : Tree} (hD : AbsShape destDir)
    (hM : ∀ p, Matched h fileSpecs p → AbsShape p)
    (hcopy : ∀ p, Matched h fileSpecs p → t1 (join [destDir, p]) ≠ none)
    (hdirs : ∀ p, Matched h fileSpecs p →
      ∀ q ∈ pathPrefixes (join [destDir, dir p]), t1 q = some SNode.dir) :
    ∀ x, (Matched h fileSpecs x ∨
        ∃ p, Matched h fileSpecs p ∧ x ∈ pathPrefixes (dir p) ∧ x ≠ "/") →
      t1 (destDir ++ x) ≠ none := by
  intro x hx
  rcases hx with hx | ⟨p, hp, hmem, hne⟩
  · rw [← join_abs hD (hM x hx)]
    exact hcopy x hx
  · rcases dir_absShape (hM p hp) with hroot | hshape
    · rw [hroot] at hmem
      have hr : pathPrefixes "/" = ["/"] := by decide
      rw [hr] at hmem
      exact absurd (List.mem_singleton.mp hmem) hne
    · have hin : destDir ++ x ∈ pathPrefixes (join [destDir, dir p]) := by
        rw [join_abs hD hshape, pathPrefixes_concat hD hshape]
        exact List.mem_append_right _ (List.mem_map.mpr ⟨x, hmem, rfl⟩)
      rw [hdirs p hp _ hin]
      simp

theorem mkdirStep_set {t t1 : Tree} {q : String} (h : mkdirStep t q = Step.done t1) :
    ∀ x target, t1 x = some (SNode.symlink target) → t x = some (SNode.symlink target) := by
  intro x target hx
  rcases (mkdirStep_frame h).2 x with h1 | ⟨_, h2, _⟩
  · rw [← h1]; exact hx
  · rw [h2] at hx; cases hx

theorem mkdirAllFrom_ne_beyond :
    ∀ (ps : List String) (t : Tree),
      (∀ q ∈ ps, ∀ target, t q ≠ some (SNode.symlink target)) →
      mkdirAllFrom ps t ≠ Step.beyond := by
  intro ps
  induction ps with
  | nil => intro t _ h; rw [mkdirAllFrom] at h; cases h
  | cons q rest ih =>
    intro t hfree
    rw [mkdirAllFrom]
    cases hs : mkdirStep t q with
    | failed => simp
    | beyond =>
      exfalso
      unfold mkdirStep at hs
      split at hs
      · cases hs
      · cases hs
      · cases hs
      · rename_i target hq
        exact hfree q (List.mem_cons_self _ _) target hq
    | done t1 =>
      exact ih t1 (fun x hx target hxt =>
        hfree x (List.mem_cons_of_mem _ hx) target (mkdirStep_set hs x target hxt))

theorem mkdirAll_ne_beyond {p : String} {t : Tree}
    (hfree : ∀ q ∈ pathPrefixes p, ∀ target, t q ≠ some (SNode.symlink target)) :
    mkdirAll p t ≠ Step.beyond := by
  unfold mkdirAll
  split
  · simp
  · exact mkdirAllFrom_ne_beyond _ t hfree

theorem holdsLink_eq {t : Tree} {q : String} (h : holdsLink t q = true) :
    ∃ target, t q = some (SNode.symlink target) := by
  unfold holdsLink at h
  split at h
  · rename_i target hq
    exact ⟨target, hq⟩
  · cases h

theorem parentMissing_beyond {t : Tree} {p : String} (h : parentMissing t p = Step.beyond) :
    ∃ q ∈ pathPrefixes (dir p), ∃ target, t q = some (SNode.symlink target) := by
  unfold parentMissing at h
  split at h
  · rename_i hany
    obtain ⟨q, hq, hl⟩ := List.any_eq_true.mp hany
    exact ⟨q, hq, holdsLink_eq hl⟩
  · cases h

theorem symlink_beyond {target p : String} {t : Tree}
    (h : symlink target p t = Step.beyond) :
    ∃ q ∈ pathPrefixes (dir p), ∃ tg, t q = some (SNode.symlink tg) := by
  unfold symlink at h
  split at h
  · cases h
  · split at h
    · exact parentMissing_beyond h
    · split at h <;> cases h

theorem writeFile_beyond {p buf : String} {t : Tree}
    (h : writeFile p buf t = Step.beyond) :
    (∃ q ∈ pathPrefixes (dir p), ∃ tg, t q = some (SNode.symlink tg)) ∨
      ∃ tg, t p = some (SNode.symlink tg) := by
  unfold writeFile at h
  split at h
  · cases h
  · split at h
    · exact Or.inl (parentMissing_beyond h)
    · split at h
      · cases h
      · cases h
      · cases h
      · rename_i tg hq
        exact Or.inr ⟨tg, hq⟩

theorem decided_andThen {r : Result} {k : Mirror → Result} (h1 : r.decided)
    (h2 : ∀ m1, r = Result.ok m1 → (k m1).decided) : (r.andThen k).decided := by
  cases r with
  | ok m1 => exact h2 m1 rfl
  | fail m1 => exact Or.inr rfl
  | beyond m1 => rcases h1 with h | h <;> cases h

theorem copyPathInto_decided (h : Host) (destDir : String) (opts : CopyFileOptions)
    (fileSpecs : List String) (p : String) (m : Mirror)
    (hinj : ∀ p1 p2, Matched h fileSpecs p1 → Matched h fileSpecs p2 →
      join [destDir, p1] = join [destDir, p2] → p1 = p2)
    (hways : LinkFreeWays h opts fileSpecs destDir)
    (hp : Matched h fileSpecs p)
    (hinv : LinksAreCopies h opts fileSpecs destDir m.tree) :
    (copyPathInto h destDir opts p m).decided ∧
    LinksAreCopies h opts fileSpecs destDir (copyPathInto h destDir opts p m).mirror.tree := by
  unfold copyPathInto
  cases hmk : mkdirAll (join [destDir, dir p]) m.tree with
  | beyond =>
    exfalso
    refine mkdirAll_ne_beyond (fun q hq target hqt => ?_) hmk
    obtain ⟨p1, hp1, rfl⟩ := hinv q target hqt
    exact (hways p1 p hp1 hp).1 hq
  | failed =>
    simp only [Mirror.run, hmk, Result.andThen]
    exact ⟨Or.inr rfl, hinv⟩
  | done ta =>
    simp only [Mirror.run, hmk, Result.andThen]
    have hinva : LinksAreCopies h opts fileSpecs destDir ta := by
      intro q target hq
      rcases (mkdirAll_frame hmk).2 q with h1 | ⟨_, h2, _⟩
      · exact hinv q target (by rw [← h1]; exact hq)
      · rw [h2] at hq; cases hq
    cases hl : h.lstat p with
    | none => exact ⟨Or.inr rfl, hinva⟩
    | some fi =>
      simp only
      by_cases hs : opts.IsSymlink p fi = true
      · rw [if_pos hs]
        unfold copyLink
        cases hr : h.readlink p with
        | none => exact ⟨Or.inr rfl, hinva⟩
        | some target =>
          simp only [Mirror.run]
          cases hsym : symlink target (join [destDir, p]) ta with
          | beyond =>
            exfalso
            obtain ⟨q, hqm, tg, hq⟩ := symlink_beyond hsym
            obtain ⟨p1, hp1, rfl⟩ := hinva _ tg hq
            exact (hways p1 p hp1 hp).2 hqm
          | failed => exact ⟨Or.inr rfl, hinva⟩
          | done tb =>
            refine ⟨Or.inl rfl, ?_⟩
            obtain ⟨_, rfl⟩ := symlink_eq hsym
            intro q tg hq
            by_cases hqp : q = join [destDir, p]
            · exact ⟨p, ⟨hp, fi, hl, hs⟩, hqp⟩
            · have hq2 : (ta.set (join [destDir, p]) (SNode.symlink target)) q
                  = some (SNode.symlink tg) := hq
              simp only [Tree.set, hqp, if_false] at hq2
              exact hinva q tg hq2
      · rw [if_neg hs]
        unfold copyPseudoFile
        cases hr : h.readFile p with
        | none => exact ⟨Or.inr rfl, hinva⟩
        | some buf =>
          simp only [Mirror.run]
          cases hwr : writeFile (join [destDir, p]) buf ta with
          | beyond =>
            exfalso
            rcases writeFile_beyond hwr with ⟨q, hqm, tg, hq⟩ | ⟨tg, hq⟩
            · obtain ⟨p1, hp1, rfl⟩ := hinva _ tg hq
              exact (hways p1 p hp1 hp).2 hqm
            · obtain ⟨p1, hp1, he⟩ := hinva _ tg hq
              have := hinj p p1 hp hp1.1 he
              subst this
              obtain ⟨_, fi1, hl1, hs1⟩ := hp1
              rw [hl] at hl1
              injection hl1 with hl1
              subst hl1
              exact hs hs1
          | failed => exact ⟨Or.inr rfl, hinva⟩
          | done tb =>
            refine ⟨Or.inl rfl, ?_⟩
            obtain ⟨_, rfl⟩ := writeFile_eq hwr
            intro q tg hq
            by_cases hqp : q = join [destDir, p]
            · have hq2 : (ta.set (join [destDir, p]) (SNode.file buf)) q
                  = some (SNode.symlink tg) := hq
              simp [Tree.set, hqp] at hq2
            · have hq2 : (ta.set (join [destDir, p]) (SNode.file buf)) q
                  = some (SNode.symlink tg) := hq
              simp only [Tree.set, hqp, if_false] at hq2
              exact hinva q tg hq2

theorem copyFileTreeInto_decided (h : Host) (destDir : String) (opts : CopyFileOptions)
    (fileSpecs : List String)
    (hinj : ∀ p1 p2, Matched h fileSpecs p1 → Matched h fileSpecs p2 →
      join [destDir, p1] = join [destDir, p2] → p1 = p2)
    (hways : LinkFreeWays h opts fileSpecs destDir) :
    ∀ (paths : List String) (m : Mirror), (∀ p ∈ paths, Matched h fileSpecs p) →
      LinksAreCopies h opts fileSpecs destDir m.tree →
      (copyFileTreeInto h destDir opts paths m).decided ∧
      LinksAreCopies h opts fileSpecs destDir
        (copyFileTreeInto h destDir opts paths m).mirror.tree := by
  intro paths
  induction paths with
  | nil => intro m _ hinv; exact ⟨Or.inl rfl, hinv⟩
  | cons p rest ih =>
    intro m hM hinv
    rw [copyFileTreeInto]
    obtain ⟨h1, h2⟩ := copyPathInto_decided h destDir opts fileSpecs p m hinj hways
      (hM p (List.mem_cons_self _ _)) hinv
    cases hr : copyPathInto h destDir opts p m with
    | ok m1 =>
      rw [hr] at h2
      exact ih m1 (fun q hq => hM q (List.mem_cons_of_mem _ hq)) h2
    | fail m1 =>
      rw [hr] at h2
      exact ⟨Or.inr rfl, h2⟩
    | beyond m1 =>
      rw [hr] at h1
      rcases h1 with h1 | h1 <;> cases h1

theorem copyFilesLoop_decided (h : Host) (destDir : String) (opts : CopyFileOptions)
    (fileSpecs : List String)
    (hinj : ∀ p1 p2, Matched h fileSpecs p1 → Matched h fileSpecs p2 →
      join [destDir, p1] = join [destDir, p2] → p1 = p2)
    (hways : LinkFreeWays h opts fileSpecs destDir) :
    ∀ (specs : List String) (m : Mirror), (∀ s ∈ specs, s ∈ fileSpecs) →
      LinksAreCopies h opts fileSpecs destDir m.tree →
      (copyFilesLoop h destDir opts specs m).decided := by
  intro specs
  induction specs with
  | nil => intro m _ _; exact Or.inl rfl
  | cons spec rest ih =>
    intro m hsub hinv
    rw [copyFilesLoop]
    cases hg : h.glob spec with
    | none => exact Or.inr rfl
    | some matched =>
      simp only
      obtain ⟨h1, h2⟩ := copyFileTreeInto_decided h destDir opts fileSpecs hinj hways matched
        { m with globbed := m.globbed ++ [spec] }
        (fun p hp => ⟨spec, hsub spec (List.mem_cons_self _ _), matched, hg, hp⟩) hinv
      cases hr : copyFileTreeInto h destDir opts matched
          { m with globbed := m.globbed ++ [spec] } with
      | ok m1 =>
        rw [hr] at h2
        exact ih m1 (fun s hs => hsub s (List.mem_cons_of_mem _ hs)) h2
      | fail m1 => exact Or.inr rfl
      | beyond m1 =>
        rw [hr] at h1
        rcases h1 with h1 | h1 <;> cases h1

/-- When the scratch tree holds no symlink at the start, matched paths have
pairwise distinct destinations and no destination runs through the copy of a
matched symlink, every call of `CopyFilesInto` goes through directories of
the scratch tree only: the run returns nil or an error within the model. -/
theorem CopyFilesInto_decided (h : Host) (fileSpecs : List String) (destDir : String)
    (m : Mirror)
    (hinj : ∀ p1 p2, Matched h fileSpecs p1 → Matched h fileSpecs p2 →
      join [destDir, p1] = join [destDir, p2] → p1 = p2)
    (hways : LinkFreeWays h { IsSymlink := isSymlink } fileSpecs destDir)
    (hfree : ∀ q target, m.tree q ≠ some (SNode.symlink target)) :
    (CopyFilesInto h fileSpecs destDir none m).decided := by
  unfold CopyFilesInto
  exact copyFilesLoop_decided h destDir _ fileSpecs hinj hways fileSpecs m
    (fun s hs => hs) (fun q target hq => absurd hq (hfree q target))

/-- C5 (as amended). When no two distinct matched source paths are mapped to
the same destination path and `CopyFilesInto(fileSpecs, destDir, nil)`
succeeds without writing through a symlink of the scratch tree, then for
every source path `p` matched by some pattern the path `Join(destDir, p)` of
the scratch tree is a symlink with `p`'s unmodified target string when `p` is
a symlink and otherwise a regular file holding `p`'s bytes, and the
directories leading to it are directories of the tree; every path the call
added is such a copy or such a directory. Hence, for a cleaned absolute
`destDir` and cleaned absolute matched paths, the listing of what the call
added, apart from `destDir` and the directories above it and with the
`destDir` prefix stripped, consists of the matched source paths and the
directories leading to them: every added path is `destDir` followed by such
a path, and every such path but the root is there. -/
theorem CopyFilesInto_clones_matched_paths (h : Host) (fileSpecs : List String)
    (destDir : String) (m : Mirror)
    (hinj : ∀ p1 p2, Matched h fileSpecs p1 → Matched h fileSpecs p2 →
      join [destDir, p1] = join [destDir, p2] → p1 = p2)
    (hok : (CopyFilesInto h fileSpecs destDir none m).isOk = true) :
    (∀ p, Matched h fileSpecs p →
      (∃ fi, h.lstat p = some fi ∧
        ((fi.kind = FileKind.symlink ∧ ∃ target, h.readlink p = some target ∧
            (CopyFilesInto h fileSpecs destDir none m).mirror.tree (join [destDir, p])
              = some (SNode.symlink target)) ∨
         (fi.kind ≠ FileKind.symlink ∧ ∃ content, h.readFile p = some content ∧
            (CopyFilesInto h fileSpecs destDir none m).mirror.tree (join [destDir, p])
              = some (SNode.file content)))) ∧
      (∀ q ∈ pathPrefixes (join [destDir, dir p]),
        (CopyFilesInto h fileSpecs destDir none m).mirror.tree q = some SNode.dir) ∧
      (CleanAbs destDir = true → CleanAbs p = true →
        trimPrefix (join [destDir, p]) destDir = p)) ∧
    (∀ q, (CopyFilesInto h fileSpecs destDir none m).mirror.tree q ≠ none →
      m.tree q ≠ none ∨ ∃ p, Matched h fileSpecs p ∧
        (q = join [destDir, p] ∨ q ∈ pathPrefixes (join [destDir, dir p]))) ∧
    (CleanAbs destDir = true → (∀ p, Matched h fileSpecs p → CleanAbs p = true) →
      (∀ q, (CopyFilesInto h fileSpecs destDir none m).mirror.tree q ≠ none →
        m.tree q ≠ none ∨ q ∈ pathPrefixes destDir ∨
        ∃ x, q = destDir ++ x ∧ trimPrefix q destDir = x ∧
          (Matched h fileSpecs x ∨
            ∃ p, Matched h fileSpecs p ∧ x ∈ pathPrefixes (dir p))) ∧
      (∀ x, (Matched h fileSpecs x ∨
          ∃ p, Matched h fileSpecs p ∧ x ∈ pathPrefixes (dir p) ∧ x ≠ "/") →
        (CopyFilesInto h fileSpecs destDir none m).mirror.tree (destDir ++ x) ≠ none)) := by
  have hadd := adds_copyFilesLoop h destDir
    ((none : Option CopyFileOptions).getD { IsSymlink := isSymlink }) fileSpecs m
  have hok2 := isOk_eq_ok hok
  have hfirst : ∀ p, Matched h fileSpecs p →
      (∃ fi, h.lstat p = some fi ∧
        ((fi.kind = FileKind.symlink ∧ ∃ target, h.readlink p = some target ∧
            (CopyFilesInto h fileSpecs destDir none m).mirror.tree (join [destDir, p])
              = some (SNode.symlink target)) ∨
         (fi.kind ≠ FileKind.symlink ∧ ∃ content, h.readFile p = some content ∧
            (CopyFilesInto h fileSpecs destDir none m).mirror.tree (join [destDir, p])
              = some (SNode.file content)))) ∧
      (∀ q ∈ pathPrefixes (join [destDir, dir p]),
        (CopyFilesInto h fileSpecs destDir none m).mirror.tree q = some SNode.dir) ∧
      (CleanAbs destDir = true → CleanAbs p = true →
        trimPrefix (join [destDir, p]) destDir = p) := by
    generalize (CopyFilesInto h fileSpecs destDir none m).mirror = m1 at hok2 ⊢
    unfold CopyFilesInto at hok2
    obtain ⟨_, hall⟩ := copyFilesLoop_spec h destDir _ (Matched h fileSpecs) hinj
      fileSpecs m m1 (fun s hs mt hmt p hp => ⟨s, hs, mt, hmt, hp⟩) hok2
    intro p ⟨s, hs, mt, hmt, hp⟩
    obtain ⟨⟨node, he, ht⟩, hd⟩ := hall s hs mt hmt p hp
    refine ⟨?_, hd, fun hcd hcp => trimPrefix_join_cleanAbs destDir p hcd hcp⟩
    unfold expectedNode at he
    cases hl : h.lstat p with
    | none => rw [hl] at he; cases he
    | some fi =>
      rw [hl] at he
      refine ⟨fi, rfl, ?_⟩
      by_cases hk : fi.kind = FileKind.symlink
      · left
        have hs2 : isSymlink p fi = true := by simp [isSymlink, hk]
        simp only [Option.getD, hs2, if_true] at he
        cases hr : h.readlink p with
        | none => rw [hr] at he; cases he
        | some target =>
          rw [hr] at he
          injection he with he
          exact ⟨hk, target, rfl, by rw [ht, ← he]⟩
      · right
        have hs2 : isSymlink p fi = false := by simp [isSymlink, hk]
        simp only [Option.getD, hs2] at he
        cases hr : h.readFile p with
        | none => rw [hr] at he; cases he
        | some content =>
          rw [hr] at he
          injection he with he
          exact ⟨hk, content, rfl, by rw [ht, ← he]⟩
  refine ⟨hfirst, hadd, ?_⟩
  intro hcd hcm
  have hD := cleanAbs_absShape hcd
  have hM : ∀ p, Matched h fileSpecs p → AbsShape p := fun p hp => cleanAbs_absShape (hcm p hp)
  refine ⟨stripped_listing hD hM hadd, listing_present hD hM ?_ (fun p hp => (hfirst p hp).2.1)⟩
  intro p hp
  obtain ⟨fi, _, hcase⟩ := (hfirst p hp).1
  rcases hcase with ⟨_, target, _, ht⟩ | ⟨_, content, _, ht⟩
  · rw [ht]; simp
  · rw [ht]; simp

theorem aliasHost_matched {p : String}
    (hp : Matched aliasHost ["/a/f", "/a/link"] p) : p = "/a/f" ∨ p = "/a/link" := by
  obtain ⟨spec, hs, matched, hg, hm⟩ := hp
  simp only [List.mem_cons, List.mem_singleton, List.not_mem_nil, or_false] at hs
  rcases hs with rfl | rfl
  · have hg2 : aliasHost.glob "/a/f" = some ["/a/f"] := by decide
    rw [hg2] at hg
    injection hg with hg
    subst hg
    left; simpa using hm
  · have hg2 : aliasHost.glob "/a/link" = some ["/a/link"] := by decide
    rw [hg2] at hg
    injection hg with hg
    subst hg
    right; simpa using hm

/-- Witness for C5: on `aliasHost` the patterns `/a/f` and `/a/link` match a
regular file and a symlink with distinct destinations, the copy succeeds and
the scratch tree holds both copies; stripped of `/tmp/c`, the paths added
under it are `/a/f`, `/a/link` and the directory `/a`. -/
theorem CopyFilesInto_clones_matched_paths_witness :
    (CopyFilesInto aliasHost ["/a/f", "/a/link"] "/tmp/c" none emptyMirror).isOk = true ∧
    (∀ p, Matched aliasHost ["/a/f", "/a/link"] p →
      (∃ fi, aliasHost.lstat p = some fi ∧
        ((fi.kind = FileKind.symlink ∧ ∃ target, aliasHost.readlink p = some target ∧
            (CopyFilesInto aliasHost ["/a/f", "/a/link"] "/tmp/c" none emptyMirror).mirror.tree
              (join ["/tmp/c", p]) = some (SNode.symlink target)) ∨
         (fi.kind ≠ FileKind.symlink ∧ ∃ content, aliasHost.readFile p = some content ∧
            (CopyFilesInto aliasHost ["/a/f", "/a/link"] "/tmp/c" none emptyMirror).mirror.tree
              (join ["/tmp/c", p]) = some (SNode.file content)))) ∧
      (∀ q ∈ pathPrefixes (join ["/tmp/c", dir p]),
        (CopyFilesInto aliasHost ["/a/f", "/a/link"] "/tmp/c" none emptyMirror).mirror.tree q
          = some SNode.dir) ∧
      (CleanAbs "/tmp/c" = true → CleanAbs p = true →
        trimPrefix (join ["/tmp/c", p]) "/tmp/c" = p)) ∧
    (∀ q, (CopyFilesInto aliasHost ["/a/f", "/a/link"] "/tmp/c" none emptyMirror).mirror.tree q
        ≠ none →
      emptyMirror.tree q ≠ none ∨ q ∈ pathPrefixes "/tmp/c" ∨
      ∃ x, q = "/tmp/c" ++ x ∧ trimPrefix q "/tmp/c" = x ∧
        (Matched aliasHost ["/a/f", "/a/link"] x ∨
          ∃ p, Matched aliasHost ["/a/f", "/a/link"] p ∧ x ∈ pathPrefixes (dir p))) ∧
    (∀ x, (Matched aliasHost ["/a/f", "/a/link"] x ∨
        ∃ p, Matched aliasHost ["/a/f", "/a/link"] p ∧ x ∈ pathPrefixes (dir p) ∧ x ≠ "/") →
      (CopyFilesInto aliasHost ["/a/f", "/a/link"] "/tmp/c" none emptyMirror).mirror.tree
        ("/tmp/c" ++ x) ≠ none) :=
  ⟨by decide,
   (CopyFilesInto_clones_matched_paths aliasHost ["/a/f", "/a/link"] "/tmp/c" emptyMirror
     (by
       intro p1 p2 h1 h2 he
       rcases aliasHost_matched h1 with rfl | rfl <;>
         rcases aliasHost_matched h2 with rfl | rfl
       · rfl
       · exact absurd he (by decide)
       · exact absurd he (by decide)
       · rfl)
     (by decide)).1,
   (CopyFilesInto_clones_matched_paths aliasHost ["/a/f", "/a/link"] "/tmp/c" emptyMirror
     (by
       intro p1 p2 h1 h2 he
       rcases aliasHost_matched h1 with rfl | rfl <;>
         rcases aliasHost_matched h2 with rfl | rfl
       · rfl
       · exact absurd he (by decide)
       · exact absurd he (by decide)
       · rfl)
     (by decide)).2.2 (by decide)
     (fun p hp => by rcases aliasHost_matched hp with rfl | rfl <;> decide)⟩

/-- On the sample host with a matched file and a matched symlink side by side,
the run is decided within the model: no destination runs through the copy of
the symlink. -/
theorem CopyFilesInto_decided_sample :
    (CopyFilesInto aliasHost ["/a/f", "/a/link"] "/tmp/c" none emptyMirror).decided :=
  CopyFilesInto_decided aliasHost ["/a/f", "/a/link"] "/tmp/c" emptyMirror
    (by
      intro p1 p2 h1 h2 he
      rcases aliasHost_matched h1 with rfl | rfl <;>
        rcases aliasHost_matched h2 with rfl | rfl
      · rfl
      · exact absurd he (by decide)
      · exact absurd he (by decide)
      · rfl)
    (by
      intro p1 p2 h1 h2
      rcases aliasHost_matched h1.1 with rfl | rfl <;>
        rcases aliasHost_matched h2 with rfl | rfl <;> decide)
    (by intro q target hq; cases hq)

/-- On `linkHost` the three patterns have pairwise distinct destinations; the
copy of `/src/link/g` has to go through the copy of the symlink `/src/link`
made just before, so the run leaves the model: it is neither a success nor a
failure of the model. -/
theorem CopyFilesInto_through_copied_link :
    join ["/tmp/c", "/src/real/f"] ≠ join ["/tmp/c", "/src/link"] ∧
    join ["/tmp/c", "/src/real/f"] ≠ join ["/tmp/c", "/src/link/g"] ∧
    join ["/tmp/c", "/src/link"] ≠ join ["/tmp/c", "/src/link/g"] ∧
    (CopyFilesInto linkHost ["/src/real/f", "/src/link"] "/tmp/c" none emptyMirror).isOk
      = true ∧
    (CopyFilesInto linkHost ["/src/real/f", "/src/link"] "/tmp/c" none
      emptyMirror).mirror.tree "/tmp/c/src/link" = some (SNode.symlink "real") ∧
    (CopyFilesInto linkHost ["/src/real/f", "/src/link", "/src/link/g"] "/tmp/c" none
      emptyMirror).isOk = false ∧
    (CopyFilesInto linkHost ["/src/real/f", "/src/link", "/src/link/g"] "/tmp/c" none
      emptyMirror).isFail = false := by
  decide

/-- Counterexample for C5 as stated: on `aliasHost` the patterns `/a/f` and
`/a/link/../f` match two different files that `filepath.Join` maps to the
same destination `/tmp/c/a/f`; the copy succeeds and the destination holds
the bytes of the second file, not those of `/a/f`. -/
theorem CopyFilesInto_destination_shared :
    ¬ CloneHoldsSources aliasHost ["/a/f", "/a/link/../f"] "/tmp/c" emptyMirror := by
  intro hc
  obtain ⟨node, he, ht⟩ := hc (by decide) "/a/f"
    ⟨"/a/f", by simp, ["/a/f"], by decide, by simp⟩
  have he2 : expectedNode aliasHost { IsSymlink := isSymlink } "/a/f"
      = some (SNode.file "A") := by decide
  have ht2 : (CopyFilesInto aliasHost ["/a/f", "/a/link/../f"] "/tmp/c" none
      emptyMirror).mirror.tree (join ["/tmp/c", "/a/f"]) = some (SNode.file "B") := by
    decide
  rw [he2] at he
  rw [ht2] at ht
  rw [← he] at ht
  exact absurd ht (by decide)

/-! ## Theorems about failures, repeated specs and cyclic topologies -/

theorem symlink_occupied {target p : String} {t t1 : Tree} (h : t p ≠ none) :
    symlink target p t ≠ Step.done t1 := by
  intro hs
  exact h (symlink_eq hs).1

/-- Copying a symlink to a path of the scratch tree that holds anything does
not succeed: `copyLink` calls `os.Symlink` without looking for an existing
entry. -/
theorem copyLink_occupied (h : Host) (path targetPath : String) (m : Mirror)
    (hocc : m.tree targetPath ≠ none) : (copyLink h path targetPath m).isOk = false := by
  unfold copyLink
  cases h.readlink path with
  | none => rfl
  | some target =>
    simp only [Mirror.run]
    cases hs : symlink target targetPath m.tree with
    | done t1 => exact absurd hs (symlink_occupied hocc)
    | failed => rfl
    | beyond => rfl

/-- C11 (failing input). On `aliasHost`, where `/a/link` is a symlink:
`CopyFilesInto` succeeds on the pattern `/a/link` alone, fails when the
pattern is repeated in the list, and fails when it is run a second time into
the same destination. For the regular file `/a/f` the repeated pattern
succeeds and the destination holds the file's bytes. Both failures are
errors the call returns: the second `os.Symlink` finds the path taken. -/
theorem CopyFilesInto_repeated_symlink_fails :
    (CopyFilesInto aliasHost ["/a/link"] "/tmp/c" none emptyMirror).isOk = true ∧
    (CopyFilesInto aliasHost ["/a/link", "/a/link"] "/tmp/c" none emptyMirror).isOk = false ∧
    (CopyFilesInto aliasHost ["/a/link"] "/tmp/c" none
      (CopyFilesInto aliasHost ["/a/link"] "/tmp/c" none emptyMirror).mirror).isOk = false ∧
    (CopyFilesInto aliasHost ["/a/f", "/a/f"] "/tmp/c" none emptyMirror).isOk = true ∧
    (CopyFilesInto aliasHost ["/a/f", "/a/f"] "/tmp/c" none emptyMirror).mirror.tree
      "/tmp/c/a/f" = some (SNode.file "A") ∧
    (CopyFilesInto aliasHost ["/a/link", "/a/link"] "/tmp/c" none emptyMirror).isFail = true ∧
    (CopyFilesInto aliasHost ["/a/link"] "/tmp/c" none
      (CopyFilesInto aliasHost ["/a/link"] "/tmp/c" none emptyMirror).mirror).isFail = true := by
  decide

/-- C12 (failing inputs). With a destination that does not exist yet:
when `Lstat` of the source root fails, `PackFrom` returns nil and leaves an
archive without entries; when the listing of the subdirectory `d` fails,
`PackFrom` returns nil and the archive holds the entry of `d` alone, whatever
`d` contains; when `Lstat` of a listed name fails, the walk function calls
`Mode` on a nil `FileInfo` and the call panics instead of returning. -/
theorem PackFrom_walk_failures_not_returned :
    (∀ (snapshotName sourceRoot : String) (opts : PackOptions),
      PackFrom snapshotName (Dest.absent true) sourceRoot Node.noStat opts =
        { status := PackStatus.ok,
          content := some (Content.archive opts.Compress []) }) ∧
    (∀ (inside : Entries) (opts : PackOptions),
      PackFrom "out.tar" (Dest.absent true) "/tmp/x" (unlistableTree inside) opts =
        { status := PackStatus.ok,
          content := some (Content.archive opts.Compress
            [{ hdr := { name := "d", typeflag := TypeFlag.dir, linkname := "", size := 0 },
               payload := [] }]) }) ∧
    (∀ (opts : PackOptions),
      (PackFrom "out.tar" (Dest.absent true) "/tmp/x" vanishedTree opts).status
        = PackStatus.panic) := by
  refine ⟨?_, ?_, ?_⟩
  · intro snapshotName sourceRoot opts
    simp [PackFrom, createSnapshot, walk, snapshotVisit, PackStatus.ofWalk]
  · intro inside opts
    rfl
  · intro opts
    rfl

theorem cycleHost_scan :
    (scanPCIDeviceRoot sampleIsAddr cycleHost "/sys/bus/pci/devices").2
      = ["/sys/bus/pci/devices"] := by
  decide

theorem cycleHost_loop :
    ∀ (fuel : Nat) (fileSpecs : List String),
      cloneContentLoop sampleIsAddr cycleHost fuel ["/sys/bus/pci/devices"] fileSpecs
        = none := by
  intro fuel
  induction fuel with
  | zero => intro fs; rfl
  | succ k ih =>
    intro fs
    rw [cloneContentLoop, cycleHost_scan]
    exact ih _

/-- Counterexample for C13 as stated: on `cycleHost`, whose one bridge entry
resolves to the PCI root that lists it, no number of rounds empties the
worklist. -/
theorem PCIDevicesCloneContent_cycle_never_ends :
    ¬ ScanTerminates sampleIsAddr cycleHost := by
  intro ⟨fuel, out, h⟩
  unfold PCIDevicesCloneContent at h
  rw [cycleHost_loop fuel []] at h
  cases h

theorem reachable_children {isAddr : String → Bool} {h : Host} {roots : List String}
    (hr : ∀ r ∈ roots, ReachableRoot isAddr h r) :
    ∀ r1 ∈ roots.flatMap (fun r => (scanPCIDeviceRoot isAddr h r).2),
      ReachableRoot isAddr h r1 := by
  intro r1 h1
  obtain ⟨r, hrm, hr1⟩ := List.mem_flatMap.mp h1
  exact ReachableRoot.step r r1 (hr r hrm) hr1

theorem cloneContentLoop_ranked (isAddr : String → Bool) (h : Host) (rank : String → Nat)
    (hrank : ∀ r, ReachableRoot isAddr h r →
      ∀ r1 ∈ (scanPCIDeviceRoot isAddr h r).2, rank r1 < rank r) :
    ∀ (n : Nat) (roots fileSpecs : List String),
      (∀ r ∈ roots, ReachableRoot isAddr h r ∧ rank r < n) →
      ∃ fuel out, cloneContentLoop isAddr h fuel roots fileSpecs = some out := by
  intro n
  induction n with
  | zero =>
    intro roots fs hall
    cases roots with
    | nil => exact ⟨0, fs, rfl⟩
    | cons r rest => exact absurd (hall r (List.mem_cons_self _ _)).2 (Nat.not_lt_zero _)
  | succ n ih =>
    intro roots fs hall
    have hchildren : ∀ r1 ∈ roots.flatMap (fun r => (scanPCIDeviceRoot isAddr h r).2),
        ReachableRoot isAddr h r1 ∧ rank r1 < n := by
      intro r1 h1
      obtain ⟨r, hrm, hr1⟩ := List.mem_flatMap.mp h1
      have hr := hall r hrm
      exact ⟨ReachableRoot.step r r1 hr.1 hr1,
        Nat.lt_of_lt_of_le (hrank r hr.1 r1 hr1) (Nat.le_of_lt_succ hr.2)⟩
    obtain ⟨fuel, out, hrun⟩ := ih _
      (fs ++ roots.flatMap (fun r => (scanPCIDeviceRoot isAddr h r).1)) hchildren
    refine ⟨fuel + roots.length, out, ?_⟩
    have := cloneContentLoop_round isAddr h roots [] fs fuel
    rw [List.append_nil, List.nil_append] at this
    rw [this]; exact hrun

/-- C13 (as amended). `PCIDevicesCloneContent` keeps no record of visited
roots. It terminates on every host on which the roots reachable from the PCI
root carry a rank that strictly decreases from a scanned root to every root
the scan adds for it, that is, on which no bridge entry leads back to a root
it was reached from: some number of rounds empties the worklist. It does not
terminate on a host on which the scan of a reachable root adds a root from
which that same root is reached again, as when a bridge entry resolves to
the directory that lists it, or to a directory above from which the scan
comes back to the entry's directory: no number of rounds empties the
worklist. -/
theorem PCIDevicesCloneContent_terminates_without_cycle (isAddr : String → Bool)
    (h : Host) :
    (∀ rank : String → Nat,
      (∀ r, ReachableRoot isAddr h r →
        ∀ r1 ∈ (scanPCIDeviceRoot isAddr h r).2, rank r1 < rank r) →
      ∃ fuel out, PCIDevicesCloneContent isAddr h fuel = some out) ∧
    (∀ r, ReachableRoot isAddr h r → LeadsBack isAddr h r →
      ∀ fuel, PCIDevicesCloneContent isAddr h fuel = none) := by
  constructor
  · intro rank hrank
    exact cloneContentLoop_ranked isAddr h rank hrank (rank "/sys/bus/pci/devices" + 1)
      ["/sys/bus/pci/devices"] []
      (fun r hr => by
        rw [List.mem_singleton.mp hr]
        exact ⟨ReachableRoot.start, Nat.lt_succ_self _⟩)
  · intro r hr hback fuel
    exact cloneContentLoop_leadsBack isAddr h r hback fuel ["/sys/bus/pci/devices"] []
      (reachableFrom_of_root hr)

theorem bridgeHost_reachable {r : String}
    (hr : ReachableRoot sampleIsAddr bridgeHost r) :
    r = "/sys/bus/pci/devices" ∨ r = "/sys/devices/pci0000:00/0000:00:01.0" := by
  induction hr with
  | start => exact Or.inl rfl
  | step r r1 _ hmem ih =>
    rcases ih with rfl | rfl
    · have hs : (scanPCIDeviceRoot sampleIsAddr bridgeHost "/sys/bus/pci/devices").2 =
          ["/sys/devices/pci0000:00/0000:00:01.0",
           "/sys/devices/pci0000:00/0000:00:01.0"] := by decide
      rw [hs] at hmem
      right
      simpa using hmem
    · have hs : (scanPCIDeviceRoot sampleIsAddr bridgeHost
          "/sys/devices/pci0000:00/0000:00:01.0").2 = [] := by decide
      rw [hs] at hmem
      cases hmem

theorem bridgeHost_ranked :
    ∀ r, ReachableRoot sampleIsAddr bridgeHost r →
      ∀ r1 ∈ (scanPCIDeviceRoot sampleIsAddr bridgeHost r).2,
        bridgeRank r1 < bridgeRank r := by
  intro r hr r1 hmem
  rcases bridgeHost_reachable hr with rfl | rfl
  · have hs : (scanPCIDeviceRoot sampleIsAddr bridgeHost "/sys/bus/pci/devices").2 =
        ["/sys/devices/pci0000:00/0000:00:01.0",
         "/sys/devices/pci0000:00/0000:00:01.0"] := by decide
    rw [hs] at hmem
    have : r1 = "/sys/devices/pci0000:00/0000:00:01.0" := by simpa using hmem
    rw [this]
    decide
  · have hs : (scanPCIDeviceRoot sampleIsAddr bridgeHost
        "/sys/devices/pci0000:00/0000:00:01.0").2 = [] := by decide
    rw [hs] at hmem
    cases hmem

theorem backHost_leadsBack :
    LeadsBack sampleIsAddr backHost "/sys/bus/pci/devices/0000:00:01.0" :=
  ⟨"/sys/bus/pci/devices", by decide,
    ReachableFrom.step "/sys/bus/pci/devices" _
      (ReachableFrom.base _ (List.mem_singleton.mpr rfl)) (by decide)⟩

/-- Witness for C13: on `bridgeHost` the PCI root ranks above the bridge
directory it leads to, and the scan terminates; on `backHost` the bridge
directory is reachable and its entry, which resolves to the directory above,
leads back to it, and the scan never terminates. -/
theorem PCIDevicesCloneContent_terminates_without_cycle_witness :
    (∀ r, ReachableRoot sampleIsAddr bridgeHost r →
      ∀ r1 ∈ (scanPCIDeviceRoot sampleIsAddr bridgeHost r).2,
        bridgeRank r1 < bridgeRank r) ∧
    (∃ fuel out, PCIDevicesCloneContent sampleIsAddr bridgeHost fuel = some out) ∧
    ReachableRoot sampleIsAddr backHost "/sys/bus/pci/devices/0000:00:01.0" ∧
    LeadsBack sampleIsAddr backHost "/sys/bus/pci/devices/0000:00:01.0" ∧
    ∀ fuel, PCIDevicesCloneContent sampleIsAddr backHost fuel = none :=
  ⟨bridgeHost_ranked,
   (PCIDevicesCloneContent_terminates_without_cycle sampleIsAddr bridgeHost).1 bridgeRank
     bridgeHost_ranked,
   ReachableRoot.step _ _ ReachableRoot.start (by decide),
   backHost_leadsBack,
   (PCIDevicesCloneContent_terminates_without_cycle sampleIsAddr backHost).2
     "/sys/bus/pci/devices/0000:00:01.0"
     (ReachableRoot.step _ _ ReachableRoot.start (by decide)) backHost_leadsBack⟩

/-- On `strayHost` the one bridge entry resolves to `/sys/devices`, a
directory above the device directories that lists no bus-address entry: the
scan of that directory adds nothing, and the worklist is empty after two
rounds. -/
theorem PCIDevicesCloneContent_stray_root_ends :
    findPCIEntryFromPath strayHost "/sys/bus/pci/devices" "0000:00:01.0" = "/sys/devices" ∧
    (PCIDevicesCloneContent sampleIsAddr strayHost 1).isSome = false ∧
    (PCIDevicesCloneContent sampleIsAddr strayHost 2).isSome = true := by
  decide

theorem ofWalk_ne_alreadyExists (st : Status) (snapshotName : String) :
    PackStatus.ofWalk st ≠ PackStatus.alreadyExists snapshotName := by
  cases st <;> simp [PackStatus.ofWalk]

/-- C14 (failing input). When the destination exists as a zero-length file
that can be opened, `PackFrom` does not return the already-exists error, but
it writes nothing into the file: for every source tree the file is still
empty afterwards, since the tar writer sits on the nil outer `f`. For
`sampleTree` the call fails at the first header, whereas with a destination
that does not exist it succeeds and the new file holds the three entries;
for a source root without entries the call returns nil and the file stays
empty. -/
theorem PackFrom_empty_destination_not_written :
    (∀ (snapshotName sourceRoot : String) (root : Node) (opts : PackOptions),
      (PackFrom snapshotName (Dest.present true "") sourceRoot root opts).content
        = some (Content.raw "") ∧
      (PackFrom snapshotName (Dest.present true "") sourceRoot root opts).status
        ≠ PackStatus.alreadyExists snapshotName) ∧
    PackFrom "out.tar.gz" (Dest.present true "") "/tmp/x" sampleTree { Compress := true } =
      { status := PackStatus.walkFailed, content := some (Content.raw "") } ∧
    PackFrom "out.tar.gz" (Dest.absent true) "/tmp/x" sampleTree { Compress := true } =
      { status := PackStatus.ok,
        content := some (Content.archive true [sampleHidden, sampleDir, sampleLink]) } ∧
    PackFrom "out.tar.gz" (Dest.present true "") "/tmp/x" (Node.dir true Entries.nil)
        { Compress := true } =
      { status := PackStatus.ok, content := some (Content.raw "") } := by
  refine ⟨?_, by decide, by decide, by decide⟩
  intro snapshotName sourceRoot root opts
  have hlen : ¬ (0 < "".length) := by decide
  simp only [PackFrom, hlen, if_false]
  exact ⟨trivial, ofWalk_ne_alreadyExists _ _⟩

theorem names_plain : ∀ (es : Entries), es.plainNames →
    ∀ name ∈ es.names, ValidName name.data
  | Entries.nil, _, name, hn => by
    simp [Entries.names] at hn
  | Entries.cons n node rest, hp, name, hn => by
    rw [Entries.plainNames] at hp
    rw [Entries.names] at hn
    rcases List.mem_cons.mp hn with rfl | hn
    · exact hp.1
    · exact names_plain rest hp.2.2 name hn

theorem below_absShape {path q : String} (hpath : AbsShape path) (hq : Below path q) :
    AbsShape q := by
  obtain ⟨cb, hcb, hvb, hs⟩ := hpath
  obtain ⟨ns, hns, hvn, hd⟩ := hq
  refine ⟨cb ++ ns, by simp [hcb], ?_, ?_⟩
  · intro c hc
    rcases List.mem_append.mp hc with h1 | h1
    · exact hvb c h1
    · exact hvn c h1
  · rw [hd, hs, joinSep_append cb ns hcb hns]
    simp

theorem below_join {path name : String} (hpath : AbsShape path)
    (hn : ValidName name.data) : Below path (join [path, name]) :=
  ⟨[name.data], by simp, fun c hc => by rw [List.mem_singleton.mp hc]; exact hn,
    by rw [(join_shape hpath hn).1]; simp [joinSep]⟩

theorem below_trans_join {path name q : String} (hpath : AbsShape path)
    (hn : ValidName name.data) (hq : Below (join [path, name]) q) : Below path q := by
  obtain ⟨ns, hns, hvn, hd⟩ := hq
  refine ⟨name.data :: ns, by simp, ?_, ?_⟩
  · intro c hc
    rcases List.mem_cons.mp hc with rfl | h1
    · exact hn
    · exact hvn c h1
  · rw [hd, (join_shape hpath hn).1]
    cases ns with
    | nil => exact absurd rfl hns
    | cons x r => simp [joinSep]

mutual
theorem visits_below_node :
    ∀ (node : Node) (path : String), AbsShape path → node.plainNames →
      ∀ v ∈ node.visits path, (v.1 = path ∨ Below path v.1) ∧ v.2.plainNames
  | Node.dir listable entries, path, hpath, hp, v, hv => by
    rw [Node.visits] at hv
    rcases List.mem_cons.mp hv with rfl | hv
    · exact ⟨Or.inl rfl, hp⟩
    · cases listable with
      | false => simp at hv
      | true =>
        simp only [if_true] at hv
        rw [Node.plainNames] at hp
        obtain ⟨h1, h2⟩ := visits_below_entries entries path hpath hp v hv
        exact ⟨Or.inr h1, h2⟩
  | Node.file size content, path, _, hp, v, hv => by
    rw [Node.visits] at hv
    rw [List.mem_singleton.mp hv]
    exact ⟨Or.inl rfl, hp⟩
  | Node.symlink target, path, _, hp, v, hv => by
    rw [Node.visits] at hv
    rw [List.mem_singleton.mp hv]
    exact ⟨Or.inl rfl, hp⟩
  | Node.special socket, path, _, hp, v, hv => by
    rw [Node.visits] at hv
    rw [List.mem_singleton.mp hv]
    exact ⟨Or.inl rfl, hp⟩
  | Node.noStat, path, _, hp, v, hv => by
    rw [Node.visits] at hv
    rw [List.mem_singleton.mp hv]
    exact ⟨Or.inl rfl, hp⟩
theorem visits_below_entries :
    ∀ (entries : Entries) (path : String), AbsShape path → entries.plainNames →
      ∀ v ∈ entries.visits path, Below path v.1 ∧ v.2.plainNames
  | Entries.nil, path, _, _, v, hv => by
    rw [Entries.visits] at hv
    cases hv
  | Entries.cons name node rest, path, hpath, hp, v, hv => by
    rw [Entries.visits] at hv
    rw [Entries.plainNames] at hp
    rcases List.mem_append.mp hv with h1 | h1
    · have hj := (join_shape hpath hp.1).2
      obtain ⟨h2, h3⟩ := visits_below_node node (join [path, name]) hj hp.2.1 v h1
      refine ⟨?_, h3⟩
      rcases h2 with h2 | h2
      · rw [h2]; exact below_join hpath hp.1
      · exact below_trans_join hpath hp.1 h2
    · exact visits_below_entries rest path hpath hp.2.2 v h1
end

theorem entryName_below {buildDir q : String} {ns : List (List Char)}
    (hd : q.data = buildDir.data ++ '/' :: joinSep ns) :
    (entryName buildDir q).data = joinSep ns := by
  unfold entryName
  have h1 : trimPrefix q buildDir = ⟨'/' :: joinSep ns⟩ := by
    unfold trimPrefix
    rw [hd, stripLeading_append]
  rw [h1]
  unfold trimPrefix
  have h2 : stripLeading ('/' :: joinSep ns) "/".data = some (joinSep ns) := by
    show stripLeading ('/' :: joinSep ns) ['/'] = _
    rw [stripLeading, if_pos rfl]
    cases joinSep ns <;> rfl
  rw [h2]

theorem dir_plain_name (name : List Char) (hn : '/' ∉ name) : dir ⟨name⟩ = "." := by
  unfold dir
  have h2 : name.reverse.dropWhile (fun c => decide (c ≠ '/')) = [] := by
    have := dropWhile_append_all (fun c => decide (c ≠ '/')) name.reverse []
      (fun c hc => by
        have : c ≠ '/' := fun he => hn (by rw [← he]; exact List.mem_reverse.mp hc)
        simpa using this)
    simpa using this
  show (⟨cleanChars ((name.reverse.dropWhile (fun c => decide (c ≠ '/'))).reverse)⟩ : String)
    = _
  rw [h2]
  rfl

theorem joinSep_head_valid (ns : List (List Char)) (hne : ns ≠ [])
    (hv : ∀ c ∈ ns, ValidName c) (rest : List Char) :
    (joinSep ns ++ rest).head? ≠ some '/' := by
  cases ns with
  | nil => exact absurd rfl hne
  | cons x r =>
    have hx := hv x (by simp)
    cases x with
    | nil => exact absurd rfl hx.1
    | cons c x =>
      have hc : c ≠ '/' := fun he => hx.2.2.2 (by simp [he])
      cases r with
      | nil => simpa [joinSep] using hc
      | cons y r => simpa [joinSep] using hc

theorem cleanChars_rel_trailing (ns : List (List Char)) (hne : ns ≠ [])
    (hv : ∀ c ∈ ns, ValidName c) : cleanChars (joinSep ns ++ ['/']) = joinSep ns := by
  have hhead := joinSep_head_valid ns hne hv ['/']
  have hsplit : splitSep (joinSep ns ++ '/' :: []) = ns ++ [[]] := by
    rw [splitSep_append, splitSep_joinSep ns hne (fun c hc => (hv c hc).2.2.2)]
    rfl
  have hcomps : cleanComps (joinSep ns ++ ['/']) = ns := by
    unfold cleanComps
    rw [hsplit]
    simp only [List.foldl_append, List.foldl_cons, List.foldl_nil]
    rw [foldl_cleanStep_push _ ns hv]
    simp [cleanStep]
  unfold cleanChars
  rw [if_neg hhead, hcomps, if_neg hne]

theorem dir_rel_snoc (ns : List (List Char)) (name : List Char) (hne : ns ≠ [])
    (hv : ∀ c ∈ ns, ValidName c) (hn : ValidName name) :
    dir ⟨joinSep (ns ++ [name])⟩ = ⟨joinSep ns⟩ := by
  rw [joinSep_append ns [name] hne (by simp)]
  simp only [joinSep]
  rw [dir_data (joinSep ns) name hn.2.2.2, cleanChars_rel_trailing ns hne hv]

theorem mem_of_getElem?_some {α : Type} {l : List α} {i : Nat} {a : α}
    (h : l[i]? = some a) : a ∈ l := by
  obtain ⟨hi, he⟩ := List.getElem?_eq_some.mp h
  rw [← he]
  exact List.getElem_mem hi

/-- For a cleaned absolute source root and a tree whose listings hold plain
names, the entries are named parent first: every entry whose name has a
parent directory other than the root comes after the entry of that name. -/
theorem createSnapshot_named_parents_first (buildDir : String) (root : Node)
    (tw : TarWriter) (htw : tw.entries = []) (hroot : CleanAbs buildDir = true)
    (hplain : root.plainNames) :
    NamedParentsFirst (createSnapshot tw buildDir root).1.entries := by
  have hB : AbsShape buildDir := cleanAbs_absShape hroot
  intro pre e post hsplit hdir
  have hi : (createSnapshot tw buildDir root).1.entries[pre.length]? = some e := by
    rw [hsplit, List.getElem?_append_right (Nat.le_refl _)]
    simp
  obtain ⟨p, n, _, hname, hcase⟩ :=
    createSnapshot_directories_first buildDir root tw htw pre.length e hi
  rcases hcase with ⟨l, es, name, hmem, hnm, hp⟩ | ⟨j, d, q, l, es, name, hj, hd, hq, _, hdn,
    hnm, hp⟩
  · exfalso
    have hes := (visits_below_node root buildDir hB hplain _ hmem).2
    rw [Node.plainNames] at hes
    have hvn := names_plain es hes name hnm
    have hdata : p.data = buildDir.data ++ '/' :: joinSep [name.data] := by
      rw [hp, (join_shape hB hvn).1]; simp [joinSep]
    have he : e.hdr.name = name := by
      apply String.ext
      rw [hname, entryName_below hdata]
      simp [joinSep]
    apply hdir
    rw [he]
    exact dir_plain_name name.data hvn.2.2.2
  · have hqv : (q, Node.dir l es) ∈ root.visits buildDir := by
      have := mem_of_getElem?_some hq
      unfold emitting at this
      exact (List.mem_filter.mp this).1
    have hqne : q ≠ buildDir := by
      have := mem_of_getElem?_some hq
      unfold emitting at this
      simpa using (List.mem_filter.mp this).2
    obtain ⟨hshape, hes⟩ := visits_below_node root buildDir hB hplain _ hqv
    rw [Node.plainNames] at hes
    have hvn := names_plain es hes name hnm
    rcases hshape with heq | hbelow
    · exact absurd heq hqne
    · have hqa := below_absShape hB hbelow
      obtain ⟨ns, hns, hvns, hqd⟩ := hbelow
      have hpd : p.data = buildDir.data ++ '/' :: joinSep (ns ++ [name.data]) := by
        rw [hp, (join_shape hqa hvn).1, hqd, joinSep_append ns [name.data] hns (by simp)]
        simp [joinSep]
      have he : e.hdr.name = ⟨joinSep (ns ++ [name.data])⟩ := by
        apply String.ext
        rw [hname, entryName_below hpd]
      have hdq : d.hdr.name = ⟨joinSep ns⟩ := by
        apply String.ext
        rw [hdn, entryName_below hqd]
      refine ⟨d, ?_, ?_⟩
      · rw [hsplit, List.getElem?_append_left hj] at hd
        exact mem_of_getElem?_some hd
      · rw [hdq, he, dir_rel_snoc ns name.data hns hvns hvn]

/-- The archive of `sampleTree` under the root `/tmp/x` names the directory
`d` before the entry `d/l`. -/
theorem createSnapshot_named_parents_first_sample :
    NamedParentsFirst (createSnapshot freshWriter "/tmp/x" sampleTree).1.entries :=
  createSnapshot_named_parents_first "/tmp/x" sampleTree freshWriter rfl (by decide)
    (by simp [sampleTree, Node.plainNames, Entries.plainNames, ValidName])

end Snapshot
